import Mathlib

/-!
# Offset tree over continuous actions (`vowpalwabbit/offset_tree_cont.cc`)

A shallow embedding of the minimum-depth binary tree (`min_depth_binary_tree`) and of the
routing / bottom-up training code of `offset_tree`, followed by theorems about them.

Conventions of the embedding.

* `std::vector<tree_node>` is a `List tree_node`; an index outside the list is
  undefined behaviour in the source and the fault `out_of_bounds` here.
* Node ids, depths and counters are `uint32_t` in the source.  They are naturals here: a
  tree of `leafCount` leaves uses ids below `2 * leafCount - 1`, which is taken to fit in
  32 bits, and so is the leaf id `action + internal_node_count() - 1` of an action of the
  tree.  Unsigned subtraction keeps its wrap below zero (`wrap_sub`), and the product
  `2 * bandwidth`, which a single 32-bit option value can overflow whatever the size of
  the tree, is reduced modulo `2 ^ 32` (`u32`).  A division by zero is the fault
  `division_by_zero`.
* The shift `1 << (depth + 1)` in `build_tree` shifts a 32-bit `int`, and the count
  reaches 32 in trees whose ids still fit in 32 bits.  It is computed in 32 bits, with
  the count taken modulo 32 (`int_shift_minus_one`).
* Allocation is taken to succeed, so the `bad_alloc` handler of `build_tree` is not
  modelled.
* `float` is an arbitrary carrier `F` with the operations the source applies to it
  (`float_ops`): every theorem holds for any interpretation of the arithmetic.
* `assert` is compiled in or out by `NDEBUG`; the flag is the parameter `ndebug`.
-/

namespace VW
namespace offset_tree_cont

/-! ## Machine arithmetic -/

/-- Reduction of a natural to 32 bits. -/
def u32 (n : Nat) : Nat := n % 2 ^ 32

/-- Subtraction `a - b` of two `uint32_t` values: exact when `b ≤ a`, wrapping around
`2 ^ 32` otherwise. -/
def wrap_sub (a b : Nat) : Nat := if b ≤ a then a - b else 2 ^ 32 - (b - a)

/-- The value that `(1 << count) - 1` stores in a `uint32_t`, the literal `1` being a
32-bit `int`.  The shift is the machine's: it takes the count modulo 32, as the x86 shift
instruction does (the language leaves a count of 32 or more undefined); shift and
subtraction are exact in 32 bits, so that a count of 31 gives `2 ^ 31 - 1`. -/
def int_shift_minus_one (count : Nat) : Nat := wrap_sub (u32 (1 <<< (count % 32))) 1

/-- What stops an execution short of a normal return. -/
inductive fault where
  | assertion_failed
  | out_of_bounds
  | division_by_zero
  | out_of_fuel
deriving DecidableEq, Repr

/-! ## The tree -/

/-- The fields of `tree_node`, in the order of the constructor's initialiser list. -/
structure tree_node where
  id : Nat
  left_id : Nat
  right_id : Nat
  parent_id : Nat
  depth : Nat
  left_only : Bool
  right_only : Bool
  is_leaf : Bool
  learn_count : Nat
deriving DecidableEq, Repr

/-- The constructor `tree_node::tree_node`: `learn_count` starts at 0. -/
def tree_node.make (node_id left_node_id right_node_id p_id depth : Nat)
    (left_only right_only is_leaf : Bool) : tree_node :=
  { id := node_id, left_id := left_node_id, right_id := right_node_id, parent_id := p_id,
    depth := depth, left_only := left_only, right_only := right_only, is_leaf := is_leaf,
    learn_count := 0 }

/-- The members of `min_depth_binary_tree` that the code reads and writes. -/
structure min_depth_binary_tree where
  nodes : List tree_node
  _num_leaf_nodes : Nat
  _depth : Nat
  _initialized : Bool
deriving DecidableEq, Repr

/-- Modelled from the spec: a tree object before `build_tree` was ever called (the class
declaration, with its member initialisers, is outside this file): no node, not
initialised. -/
def min_depth_binary_tree.empty : min_depth_binary_tree :=
  { nodes := [], _num_leaf_nodes := 0, _depth := 0, _initialized := false }

/-- The two flags `(left_only, right_only)` that `build_tree` computes for the new child
`id`.  With `bandwidth = 0` both stay `false`.  Otherwise `right_only` is computed first,
dividing by the 32-bit product `2 * bandwidth`; a zero divisor is a fault. -/
def shortcut_flags (num_leaf_nodes bandwidth id : Nat) : Except fault (Bool × Bool) :=
  if bandwidth = 0 then .ok (false, false)
  else if u32 (2 * bandwidth) = 0 then .error fault.division_by_zero
  else
    let right_only := decide (id = wrap_sub (num_leaf_nodes / u32 (2 * bandwidth)) 1)
    let left_only := decide (id = wrap_sub (num_leaf_nodes / bandwidth) 2)
    .ok (left_only, right_only)

/-- The variables carried around the `for` loop of `build_tree`. -/
structure build_vars where
  nodes : List tree_node
  depth : Nat
  depth_const : Nat
deriving DecidableEq, Repr

/-- One pass of the loop body of `build_tree`, for loop index `i`. -/
def build_iter (num_leaf_nodes bandwidth i : Nat) (s : build_vars) : Except fault build_vars :=
  match s.nodes[i]? with
  | none => .error fault.out_of_bounds
  | some n =>
    let nodes := s.nodes.set i { n with left_id := 2 * i + 1, right_id := 2 * i + 2, is_leaf := false }
    let depth := if 2 * i + 1 ≥ s.depth_const then s.depth + 1 else s.depth
    let depth_const :=
      if 2 * i + 1 ≥ s.depth_const then int_shift_minus_one (s.depth + 1 + 1) else s.depth_const
    match shortcut_flags num_leaf_nodes bandwidth (2 * i + 1) with
    | .error e => .error e
    | .ok (left_only, right_only) =>
      let nodes := nodes ++ [tree_node.make (2 * i + 1) 0 0 i depth left_only right_only true]
      match shortcut_flags num_leaf_nodes bandwidth (2 * i + 2) with
      | .error e => .error e
      | .ok (left_only, right_only) =>
        .ok { nodes := nodes ++ [tree_node.make (2 * i + 2) 0 0 i depth left_only right_only true],
              depth := depth, depth_const := depth_const }

/-- The loop variables after the passes `i = 0, ..., k - 1` of the `for` loop. -/
def build_loop (num_leaf_nodes bandwidth : Nat) (init : build_vars) : Nat → Except fault build_vars
  | 0 => .ok init
  | k + 1 =>
    match build_loop num_leaf_nodes bandwidth init k with
    | .error e => .error e
    | .ok s => build_iter num_leaf_nodes bandwidth k s

/-- How a call of `build_tree` ends: a normal return with the new object state, the
`THROW` of the re-initialisation check (object state as it was, and the two counts the
message names), or a fault. -/
inductive build_result where
  | returned (t : min_depth_binary_tree)
  | threw (t : min_depth_binary_tree) (num_nodes current : Nat)
  | faulted (e : fault)
deriving DecidableEq, Repr

/-- The function `min_depth_binary_tree::build_tree`.  Allocation is taken to succeed. -/
def build_tree (t : min_depth_binary_tree) (num_nodes bandwidth : Nat) : build_result :=
  if t._initialized then
    if num_nodes ≠ t._num_leaf_nodes then .threw t num_nodes t._num_leaf_nodes
    else .returned t
  else if num_nodes = 0 then
    .returned { t with _num_leaf_nodes := 0, _initialized := true }
  else
    let root := tree_node.make 0 0 0 0 0 false false true
    match build_loop num_nodes bandwidth
        { nodes := t.nodes ++ [root], depth := 0, depth_const := 1 } (num_nodes - 1) with
    | .error e => .faulted e
    | .ok s =>
      .returned { nodes := s.nodes, _num_leaf_nodes := num_nodes, _depth := s.depth,
                  _initialized := true }

/-- The accessor `internal_node_count`: `(uint32_t)nodes.size() - _num_leaf_nodes`. -/
def min_depth_binary_tree.internal_node_count (t : min_depth_binary_tree) : Nat :=
  wrap_sub t.nodes.length t._num_leaf_nodes

/-- The accessor `leaf_node_count`. -/
def min_depth_binary_tree.leaf_node_count (t : min_depth_binary_tree) : Nat := t._num_leaf_nodes

/-- The accessor `depth`. -/
def min_depth_binary_tree.depth (t : min_depth_binary_tree) : Nat := t._depth

/-- The function `get_sibling`: the other child of the parent of `v`. -/
def min_depth_binary_tree.get_sibling (t : min_depth_binary_tree) (v : tree_node) :
    Except fault tree_node :=
  match t.nodes[v.parent_id]? with
  | none => .error fault.out_of_bounds
  | some v_parent =>
    match t.nodes[if v.id = v_parent.left_id then v_parent.right_id else v_parent.left_id]? with
    | none => .error fault.out_of_bounds
    | some w => .ok w

/-! ## Floating point, labels, examples, the base learner -/

/-- The operations the source applies to `float` values, over an arbitrary carrier.
`lt` is `operator<`, `eq` is `operator==`; `abs` and `fabs` are the two library calls the
source makes; the constants are the literals that occur in the source. -/
structure float_ops (F : Type) where
  zero : F
  one : F
  neg_one : F
  flt_max : F
  weight_th : F
  lt : F → F → Bool
  eq : F → F → Bool
  add : F → F → F
  sub : F → F → F
  mul : F → F → F
  div : F → F → F
  abs : F → F
  fabs : F → F

/-- The constant `RIGHT = 1.0f`. -/
def RIGHT {F : Type} (ops : float_ops F) : F := ops.one

/-- The constant `LEFT = -1.0f`. -/
def LEFT {F : Type} (ops : float_ops F) : F := ops.neg_one

/-- The library function `std::min`: the second argument when it is smaller, else the first. -/
def float_ops.min {F : Type} (ops : float_ops F) (a b : F) : F := if ops.lt b a then b else a

/-- The library function `std::max`: the second argument when the first is smaller, else the first. -/
def float_ops.max {F : Type} (ops : float_ops F) (a b : F) : F := if ops.lt a b then b else a

/-- Modelled from the spec: the entries of the bandit cost label (`CB::cb_class`, declared
outside this file): an action id, an observed cost and an action probability. -/
structure cb_class (F : Type) where
  cost : F
  action : Nat
  probability : F
deriving DecidableEq, Repr

/-- Modelled from the spec: the bandit cost label (`CB::label`, declared outside this
file), an ordered list of candidate-action entries. -/
structure cb_label (F : Type) where
  costs : List (cb_class F)
deriving DecidableEq, Repr

/-- Modelled from the spec: the binary label handed to the per-node classifier
(`label_data`, declared outside this file); the source writes `label` and `initial`. -/
structure label_data (F : Type) where
  label : F
  weight : F
  initial : F
deriving DecidableEq, Repr

/-- Modelled from the spec: the label slot of an example (`polylabel`, declared outside
this file), a C union of which the code uses the members `cb` and `simple`.  The value
records which member was written last. -/
inductive polylabel (F : Type) where
  | cb (l : cb_label F)
  | simple (l : label_data F)
deriving DecidableEq, Repr

/-- Modelled from the spec: the prediction slot of an example (`polyprediction`, declared
outside this file), a C union of which the code uses `scalar` (per-node classifier) and
`multiclass` (the chosen action). -/
inductive polyprediction (F : Type) where
  | scalar (x : F)
  | multiclass (k : Nat)
deriving DecidableEq, Repr

/-- How a union member reads when the other member was written last: the bytes are
shared, so the result is a function of what is stored.  The functions are parameters. -/
structure union_layout (F : Type) where
  as_cb : label_data F → cb_label F
  as_simple : cb_label F → label_data F

/-- Reading `l.cb`. -/
def polylabel.get_cb {F : Type} (lay : union_layout F) : polylabel F → cb_label F
  | .cb c => c
  | .simple s => lay.as_cb s

/-- Reading `l.simple`. -/
def polylabel.get_simple {F : Type} (lay : union_layout F) : polylabel F → label_data F
  | .simple s => s
  | .cb c => lay.as_simple c

/-- The assignment `l.simple.label = x`. -/
def polylabel.set_simple_label {F : Type} (lay : union_layout F) (l : polylabel F) (x : F) :
    polylabel F :=
  .simple { l.get_simple lay with label := x }

/-- The assignment `l.simple.initial = x`. -/
def polylabel.set_simple_initial {F : Type} (lay : union_layout F) (l : polylabel F) (x : F) :
    polylabel F :=
  .simple { l.get_simple lay with initial := x }

/-- Modelled from the spec: the fields of `example` (declared outside this file; the name
is a keyword here) that the code touches: the label slot, the prediction slot, the
importance weight and the partial prediction. -/
structure vw_example (F : Type) where
  l : polylabel F
  pred : polyprediction F
  weight : F
  partial_prediction : F
deriving DecidableEq, Repr

/-- Modelled from the spec: the base learner (`LEARNER::single_learner`, declared outside
this file), a binary classifier keyed by node id.  It owns a state `σ`; `predict` returns
a scalar, which lands in `ec.pred.scalar`, and `learn` is an online update. -/
structure single_learner (σ F : Type) where
  predict : σ → vw_example F → Nat → F × σ
  learn : σ → vw_example F → Nat → σ

/-- Modelled from the spec: the hash and the pseudo-random draw (`uniform_hash`,
`exploration::uniform_random_merand48`, declared outside this file), black boxes.
`uniform_hash key seed` hashes the bytes of `key` under `seed`. -/
structure random_source (F : Type) where
  uniform_hash : Nat → Nat → Nat
  uniform_random_merand48 : Nat → F

/-! ## The offset tree -/

/-- The pair `node_cost`: a frontier node id and the cost tracked for it. -/
structure node_cost (F : Type) where
  node_id : Nat
  cost : F
deriving DecidableEq, Repr

/-- The members of `offset_tree` that the code reads and writes. -/
structure offset_tree (F : Type) where
  _binary_tree : min_depth_binary_tree
  _a : node_cost F
  _b : node_cost F
  _cost_star : F
deriving DecidableEq, Repr

/-- The function `offset_tree::learner_count`. -/
def offset_tree.learner_count {F : Type} (ot : offset_tree F) : Nat :=
  ot._binary_tree.internal_node_count

/-- The `while` loop of `offset_tree::predict`, run for at most `fuel` passes from
`cur_node`; it returns the leaf reached, the example and the classifier state. -/
def predict_loop {σ F : Type} (ops : float_ops F) (lay : union_layout F)
    (base : single_learner σ F) (nodes : List tree_node) :
    Nat → tree_node → vw_example F → σ → Except fault (tree_node × vw_example F × σ)
  | 0, cur_node, ec, s =>
    if cur_node.is_leaf then .ok (cur_node, ec, s) else .error fault.out_of_fuel
  | fuel + 1, cur_node, ec, s =>
    if cur_node.is_leaf then .ok (cur_node, ec, s)
    else if cur_node.right_only then
      match nodes[cur_node.right_id]? with
      | none => .error fault.out_of_bounds
      | some n => predict_loop ops lay base nodes fuel n ec s
    else if cur_node.left_only then
      match nodes[cur_node.left_id]? with
      | none => .error fault.out_of_bounds
      | some n => predict_loop ops lay base nodes fuel n ec s
    else
      let ec1 : vw_example F :=
        { ec with partial_prediction := ops.zero, pred := .scalar ops.zero,
                  l := ec.l.set_simple_initial lay ops.zero }
      let r := base.predict s ec1 cur_node.id
      let ec2 : vw_example F := { ec1 with pred := .scalar r.1 }
      match nodes[if ops.lt r.1 ops.zero then cur_node.left_id else cur_node.right_id]? with
      | none => .error fault.out_of_bounds
      | some n => predict_loop ops lay base nodes fuel n ec2 r.2

/-- The function `offset_tree::predict`: the action chosen, the example as it is left, and
the classifier state. -/
def offset_tree.predict {σ F : Type} (ops : float_ops F) (lay : union_layout F)
    (base : single_learner σ F) (fuel : Nat) (ot : offset_tree F) (ec : vw_example F) (s : σ) :
    Except fault (Nat × vw_example F × σ) :=
  if ot._binary_tree.leaf_node_count = 0 then .ok (0, ec, s)
  else
    let saved_label := ec.l.get_cb lay
    let ec0 : vw_example F := { ec with l := ec.l.set_simple_label lay ops.flt_max }
    match ot._binary_tree.nodes[0]? with
    | none => .error fault.out_of_bounds
    | some root =>
      match predict_loop ops lay base ot._binary_tree.nodes fuel root ec0 s with
      | .error e => .error e
      | .ok (cur_node, ec1, s1) =>
        .ok (wrap_sub cur_node.id ot._binary_tree.internal_node_count + 1,
             { ec1 with l := .cb saved_label }, s1)

/-- The function `offset_tree::init_node_costs`.  With assertions compiled in
(`ndebug = false`) the two `assert`s run first; both read the label as the source does.
The sum `action + internal_node_count()` is a node id plus one and is taken over the
naturals, as node ids are: for an action of the tree it is at most `2 * leafCount - 1`.
For an action id above `2 ^ 32 - internal_node_count()`, which is no action of a tree
whose ids fit in 32 bits, the 32-bit sum of the source wraps and this one does not. -/
def offset_tree.init_node_costs {F : Type} (ops : float_ops F) (ndebug : Bool)
    (ot : offset_tree F) (ac : List (cb_class F)) : Except fault (offset_tree F) :=
  if !ndebug && !(decide (ac.length = 0)) then .error fault.assertion_failed
  else
    match ac[0]? with
    | none => .error fault.out_of_bounds
    | some first =>
      if !ndebug && !(decide (first.action > 0)) then .error fault.assertion_failed
      else
        let cost_star := ops.div first.cost first.probability
        let a : node_cost F :=
          { node_id := wrap_sub (first.action + ot._binary_tree.internal_node_count) 1,
            cost := cost_star }
        match ac[ac.length - 1]? with
        | none => .error fault.out_of_bounds
        | some last =>
          .ok { ot with
                _cost_star := cost_star
                _a := a
                _b := { node_id := wrap_sub (last.action + ot._binary_tree.internal_node_count) 1,
                        cost := cost_star } }

/-- The function `offset_tree::return_cost`. -/
def offset_tree.return_cost {F : Type} (ops : float_ops F) (ot : offset_tree F) (w : tree_node) : F :=
  if w.id < ot._a.node_id then ops.zero
  else if w.id = ot._a.node_id then ot._a.cost
  else if w.id < ot._b.node_id then ot._cost_star
  else if w.id = ot._b.node_id then ot._b.cost
  else ops.zero

/-- Everything a call of `offset_tree::learn` can read or write: the offset tree object,
the example, the state of the base learner and the process-wide seed `app_seed` (declared
outside this file). -/
structure learn_state (σ F : Type) where
  ot : offset_tree F
  ec : vw_example F
  base : σ
  app_seed : Nat
deriving DecidableEq, Repr

/-- The body of the inner `for` loop of `offset_tree::learn` for one entry `n_c` of
`set_d`.  The result carries `cost_parent`, or `none` when the pass ends at `continue`. -/
def learn_node {σ F : Type} (ops : float_ops F) (lay : union_layout F) (rnd : random_source F)
    (base : single_learner σ F) (st : learn_state σ F) (n_c : node_cost F) :
    Except fault (learn_state σ F × Option F) :=
  let nodes := st.ot._binary_tree.nodes
  match nodes[n_c.node_id]? with
  | none => .error fault.out_of_bounds
  | some v =>
    let cost_v := n_c.cost
    match nodes[v.parent_id]? with
    | none => .error fault.out_of_bounds
    | some v_parent =>
      if v_parent.right_only || v_parent.left_only then .ok (st, none)
      else
        match st.ot._binary_tree.get_sibling v with
        | .error e => .error e
        | .ok w =>
          let cost_w := st.ot.return_cost ops w
          if !(ops.eq cost_v cost_w) then
            let local_action :=
              if (if ops.lt cost_v cost_w then v else w).id = v_parent.left_id then LEFT ops
              else RIGHT ops
            let ec1 : vw_example F :=
              { st.ec with
                l := (st.ec.l.set_simple_label lay local_action).set_simple_initial lay ops.zero
                weight := ops.abs (ops.sub cost_v cost_w) }
            let floored : vw_example F × Bool :=
              if ops.lt ec1.weight ops.weight_th then
                let new_random_seed := rnd.uniform_hash st.app_seed st.app_seed
                let random_draw := ops.mul (rnd.uniform_random_merand48 new_random_seed) ops.weight_th
                if ops.lt random_draw ec1.weight then ({ ec1 with weight := ops.weight_th }, false)
                else (ec1, true)
              else (ec1, false)
            let ec2 := floored.1
            let filter := floored.2
            if !filter then
              let s1 := base.learn st.base ec2 v.parent_id
              let nodes1 := nodes.set v.parent_id
                { v_parent with learn_count := v_parent.learn_count + 1 }
              let r := base.predict s1 ec2 v.parent_id
              let ec3 : vw_example F := { ec2 with pred := .scalar r.1 }
              let trained_action := if ops.lt r.1 ops.zero then LEFT ops else RIGHT ops
              let cost_parent :=
                if ops.eq trained_action local_action then
                  ops.add (ops.mul (ops.min cost_v cost_w) (ops.fabs r.1))
                    (ops.mul (ops.max cost_v cost_w) (ops.sub ops.one (ops.fabs r.1)))
                else
                  ops.add (ops.mul (ops.max cost_v cost_w) (ops.fabs r.1))
                    (ops.mul (ops.min cost_v cost_w) (ops.sub ops.one (ops.fabs r.1)))
              .ok ({ st with
                      ot := { st.ot with _binary_tree := { st.ot._binary_tree with nodes := nodes1 } }
                      ec := ec3
                      base := r.2 }, some cost_parent)
            else .ok ({ st with ec := ec2 }, some cost_v)
          else .ok (st, some cost_v)

/-- The inner `for` loop of `offset_tree::learn` over the entries of `set_d` from index
`i` on; it carries the state and the two variables `a_parent_cost`, `b_parent_cost`. -/
def learn_set {σ F : Type} (ops : float_ops F) (lay : union_layout F) (rnd : random_source F)
    (base : single_learner σ F) :
    List (node_cost F) → Nat → learn_state σ F → F → F → Except fault (learn_state σ F × F × F)
  | [], _, st, a_parent_cost, b_parent_cost => .ok (st, a_parent_cost, b_parent_cost)
  | n_c :: rest, i, st, a_parent_cost, b_parent_cost =>
    match learn_node ops lay rnd base st n_c with
    | .error e => .error e
    | .ok (st1, none) => learn_set ops lay rnd base rest (i + 1) st1 a_parent_cost b_parent_cost
    | .ok (st1, some cost_parent) =>
      if i = 0 then learn_set ops lay rnd base rest (i + 1) st1 cost_parent b_parent_cost
      else learn_set ops lay rnd base rest (i + 1) st1 a_parent_cost cost_parent

/-- One pass of the outer `for` loop of `offset_tree::learn` (one tree level). -/
def learn_level {σ F : Type} (ops : float_ops F) (lay : union_layout F) (rnd : random_source F)
    (base : single_learner σ F) (st : learn_state σ F) : Except fault (learn_state σ F) :=
  let nodes := st.ot._binary_tree.nodes
  match nodes[st.ot._a.node_id]?, nodes[st.ot._b.node_id]? with
  | some node_a, some node_b =>
    let set_d := if node_a.parent_id ≠ node_b.parent_id then [st.ot._a, st.ot._b] else [st.ot._a]
    match learn_set ops lay rnd base set_d 0 st st.ot._a.cost st.ot._b.cost with
    | .error e => .error e
    | .ok (st1, a_parent_cost, b_parent_cost) =>
      match st1.ot._binary_tree.nodes[st1.ot._a.node_id]?,
            st1.ot._binary_tree.nodes[st1.ot._b.node_id]? with
      | some node_a1, some node_b1 =>
        .ok { st1 with
              ot := { st1.ot with
                      _a := { node_id := node_a1.parent_id, cost := a_parent_cost }
                      _b := { node_id := node_b1.parent_id, cost := b_parent_cost } } }
      | _, _ => .error fault.out_of_bounds
  | _, _ => .error fault.out_of_bounds

/-- The outer `for` loop of `offset_tree::learn`: `d` passes, for `d` down to 1. -/
def learn_levels {σ F : Type} (ops : float_ops F) (lay : union_layout F) (rnd : random_source F)
    (base : single_learner σ F) : Nat → learn_state σ F → Except fault (learn_state σ F)
  | 0, st => .ok st
  | d + 1, st =>
    match learn_level ops lay rnd base st with
    | .error e => .error e
    | .ok st1 => learn_levels ops lay rnd base d st1

/-- The function `offset_tree::learn`. -/
def offset_tree.learn {σ F : Type} (ops : float_ops F) (lay : union_layout F)
    (rnd : random_source F) (base : single_learner σ F) (ndebug : Bool) (st : learn_state σ F) :
    Except fault (learn_state σ F) :=
  let saved_label := st.ec.l
  let saved_weight := st.ec.weight
  let saved_pred := st.ec.pred
  let ac := (st.ec.l.get_cb lay).costs
  match st.ot.init_node_costs ops ndebug ac with
  | .error e => .error e
  | .ok ot1 =>
    match learn_levels ops lay rnd base ot1._binary_tree.depth { st with ot := ot1 } with
    | .error e => .error e
    | .ok st1 =>
      .ok { st1 with ec := { st1.ec with l := saved_label, weight := saved_weight, pred := saved_pred } }

/-! ## Specification-side definitions -/

/-- The comparison `a >= b` of two floats, which the source does not make: `b < a` or
`a == b`.  Like every comparison it is false when one of the two is NaN. -/
def float_ops.ge {F : Type} (ops : float_ops F) (a b : F) : Bool := ops.lt b a || ops.eq a b

/-- Two floats that no comparison orders: neither is below the other and they are not
equal, which among floats means that one of them is NaN. -/
def float_ops.unordered {F : Type} (ops : float_ops F) (a b : F) : Bool :=
  !(ops.lt a b) && !(ops.lt b a) && !(ops.eq a b)

/-- The flag `left_only` of a node `k` created inside the loop, in closed form. -/
def left_flag (leafCount bandwidth k : Nat) : Bool :=
  decide (bandwidth ≠ 0) && decide (k = wrap_sub (leafCount / bandwidth) 2)

/-- The flag `right_only` of a node `k` created inside the loop, in closed form. -/
def right_flag (leafCount bandwidth k : Nat) : Bool :=
  decide (bandwidth ≠ 0) && decide (k = wrap_sub (leafCount / u32 (2 * bandwidth)) 1)

/-- The loop variable `depth` of `build_tree` after `k` passes, in closed form: the level
`log2 (2 * k + 1)` of the nodes made last as long as the shift count stays below 32, that
is for `k < 2 ^ 30`; from then on `depth_const` is below every new id and `depth` grows
by one in every pass. -/
def depth_after (k : Nat) : Nat :=
  if k < 2 ^ 30 then Nat.log 2 (2 * k + 1) else k - 2 ^ 30 + 31

/-- The node with id `k` of a level-order layout in which the ids below `internal` are
internal nodes: the closed form that the loop of `build_tree` is compared with.  The
field `depth` is the loop variable after the pass that made the node, pass
`(k + 1) / 2`. -/
def level_order_node (leafCount bandwidth internal k : Nat) : tree_node :=
  { id := k
    left_id := if k < internal then 2 * k + 1 else 0
    right_id := if k < internal then 2 * k + 2 else 0
    parent_id := (k - 1) / 2
    depth := depth_after ((k + 1) / 2)
    left_only := decide (k ≠ 0) && left_flag leafCount bandwidth k
    right_only := decide (k ≠ 0) && right_flag leafCount bandwidth k
    is_leaf := decide (internal ≤ k)
    learn_count := 0 }

/-- The loop variables after `k` passes, in closed form. -/
def closed_vars (L bw k : Nat) : build_vars :=
  { nodes := (List.range (2 * k + 1)).map (level_order_node L bw k)
    depth := depth_after k
    depth_const := 2 ^ ((depth_after k + 1) % 32) - 1 }

/-- The first node of every built tree. -/
def root_node : tree_node := tree_node.make 0 0 0 0 0 false false true

/-- The number of `parent_id` steps from node `id` up to the root (node 0), following at
most `fuel` steps. -/
def edges_to_root (nodes : List tree_node) : Nat → Nat → Option Nat
  | 0, id => if id = 0 then some 0 else none
  | fuel + 1, id =>
    if id = 0 then some 0
    else
      match nodes[id]? with
      | none => none
      | some n => (edges_to_root nodes fuel n.parent_id).map (· + 1)

/-- Binary trees as a shape: a leaf, or a node with two subtrees. -/
inductive bin_tree where
  | leaf
  | node (l r : bin_tree)

/-- The number of leaves of a binary tree. -/
def bin_tree.leaves : bin_tree → Nat
  | .leaf => 1
  | .node l r => l.leaves + r.leaves

/-- The number of edges on the longest path from the root to a leaf. -/
def bin_tree.height : bin_tree → Nat
  | .leaf => 0
  | .node l r => max l.height r.height + 1

/-- The tree that `build_tree` makes of a fresh object when no division faults. -/
def built_tree (L bw : Nat) : min_depth_binary_tree :=
  { nodes := (List.range (2 * L - 1)).map (level_order_node L bw (L - 1))
    _num_leaf_nodes := L
    _depth := depth_after (L - 1)
    _initialized := true }

/-- A node with its `learn_count` set to 0: what `tree_node::operator==` compares. -/
def tree_node.forget_count (n : tree_node) : tree_node := { n with learn_count := 0 }

/-- A tree object with the `learn_count` of every node set to 0. -/
def min_depth_binary_tree.forget_counts (t : min_depth_binary_tree) : min_depth_binary_tree :=
  { t with nodes := t.nodes.map tree_node.forget_count }

/-- The id of the parent of node `x` in a level-order layout; the root is its own parent. -/
def parent_of (x : Nat) : Nat := (x - 1) / 2

/-- The node reached from `x` by `j` parent steps. -/
def ancestor : Nat → Nat → Nat
  | 0, x => x
  | j + 1, x => parent_of (ancestor j x)

/-- Node `p` is a proper ancestor of node `x`: another node, reached from `x` by parent
steps, that is, a node other than `x` on the path from `x` to the root. -/
def proper_ancestor (p x : Nat) : Prop := p ≠ x ∧ ∃ j, ancestor j x = p

/-- One call of the base learner: which operation, at which node id, on which example. -/
structure base_call (F : Type) where
  is_learn : Bool
  node_id : Nat
  ec : vw_example F
deriving DecidableEq, Repr

/-- A base learner that behaves as `base` and records every call made to it. -/
def logged {σ F : Type} (base : single_learner σ F) : single_learner (σ × List (base_call F)) F :=
  { predict := fun s ec i =>
      ((base.predict s.1 ec i).1,
       ((base.predict s.1 ec i).2, s.2 ++ [{ is_learn := false, node_id := i, ec := ec }]))
    learn := fun s ec i =>
      (base.learn s.1 ec i, s.2 ++ [{ is_learn := true, node_id := i, ec := ec }]) }

/-- The draw that `learn` compares a sub-threshold weight with, as a function of the seed:
`uniform_random_merand48(uniform_hash(&app_seed, sizeof(app_seed), app_seed)) * weight_th`. -/
def flooring_draw {F : Type} (ops : float_ops F) (rnd : random_source F) (app_seed : Nat) : F :=
  ops.mul (rnd.uniform_random_merand48 (rnd.uniform_hash app_seed app_seed)) ops.weight_th

/-- The argument with which the loop body of `learn` calls `get_sibling` for the entry
`n_c`, if the body gets to the call: the node `v = nodes[n_c.node_id]`, unless the parent
of `v` is a shortcut node. -/
def sibling_argument {σ F : Type} (st : learn_state σ F) (n_c : node_cost F) : Option tree_node :=
  match st.ot._binary_tree.nodes[n_c.node_id]? with
  | none => none
  | some v =>
    match st.ot._binary_tree.nodes[v.parent_id]? with
    | none => none
    | some v_parent => if v_parent.right_only || v_parent.left_only then none else some v

/-- The node list `ns` is that of the tree built with `L` leaves and bandwidth `bw`, up
to the `learn_count` of its nodes. -/
def counted (L bw : Nat) (ns : List tree_node) : Prop :=
  ns.map tree_node.forget_count = (built_tree L bw).nodes

/-- The tree `t1` is the tree `t` up to the counters of the nodes in `S`: same leaf
count, depth and flag, a node list of the built shape, and every entry outside `S` as it
was. -/
def tree_frame (L bw : Nat) (S : Nat → Prop) (t t1 : min_depth_binary_tree) : Prop :=
  t1._num_leaf_nodes = t._num_leaf_nodes ∧ t1._depth = t._depth ∧
  t1._initialized = t._initialized ∧ counted L bw t1.nodes ∧
  ∀ i, ¬ S i → t1.nodes[i]? = t.nodes[i]?

/-- The leaf of an action in a tree of `L` leaves: `action + internal_node_count() - 1`
with `internal_node_count() = L - 1`. -/
def leaf_of (L action : Nat) : Nat := action + (L - 1) - 1

/-- The node reached from node `id` by following the `parent_id` field of the entries of
`nodes` for `j` steps, if every entry on the way exists. -/
def climb (nodes : List tree_node) : Nat → Nat → Option Nat
  | 0, id => some id
  | j + 1, id =>
    match climb nodes j id with
    | none => none
    | some x =>
      match nodes[x]? with
      | none => none
      | some n => some n.parent_id

/-! ### The loop body of `learn` in pieces

The definitions below cut the body of `learn_node` into its steps; `learn_node_eq` shows
that `learn_node` is their composition. -/

/-- The binary label of a training step: `LEFT` when the cheaper of `v` and `w` is the
left child of the parent, `RIGHT` otherwise. -/
def local_action_of {F : Type} (ops : float_ops F) (v w v_parent : tree_node) (cost_v cost_w : F) :
    F :=
  if (if ops.lt cost_v cost_w then v else w).id = v_parent.left_id then LEFT ops else RIGHT ops

/-- The example with the binary label and the weight `abs(cost_v - cost_w)` written. -/
def labelled_example {F : Type} (ops : float_ops F) (lay : union_layout F) (ec : vw_example F)
    (local_action cost_v cost_w : F) : vw_example F :=
  { ec with
    l := (ec.l.set_simple_label lay local_action).set_simple_initial lay ops.zero
    weight := ops.abs (ops.sub cost_v cost_w) }

/-- The weight flooring: the example as it goes on, and the flag `filter`. -/
def floor_weight {F : Type} (ops : float_ops F) (rnd : random_source F) (app_seed : Nat)
    (ec1 : vw_example F) : vw_example F × Bool :=
  if ops.lt ec1.weight ops.weight_th then
    if ops.lt (flooring_draw ops rnd app_seed) ec1.weight then
      ({ ec1 with weight := ops.weight_th }, false)
    else (ec1, true)
  else (ec1, false)

/-- The cost handed up to the parent after a training step that left the scalar `x`. -/
def interpolated_cost {F : Type} (ops : float_ops F) (local_action cost_v cost_w x : F) : F :=
  if ops.eq (if ops.lt x ops.zero then LEFT ops else RIGHT ops) local_action then
    ops.add (ops.mul (ops.min cost_v cost_w) (ops.fabs x))
      (ops.mul (ops.max cost_v cost_w) (ops.sub ops.one (ops.fabs x)))
  else
    ops.add (ops.mul (ops.max cost_v cost_w) (ops.fabs x))
      (ops.mul (ops.min cost_v cost_w) (ops.sub ops.one (ops.fabs x)))

/-- The training step at the parent of `v`: `base.learn`, the counter, `base.predict`. -/
def train_parent {σ F : Type} (ops : float_ops F) (base : single_learner σ F)
    (st : learn_state σ F) (v v_parent : tree_node) (ec2 : vw_example F)
    (local_action cost_v cost_w : F) : learn_state σ F × Option F :=
  ({ st with
      ot := { st.ot with _binary_tree := { st.ot._binary_tree with
                nodes := st.ot._binary_tree.nodes.set v.parent_id
                  { v_parent with learn_count := v_parent.learn_count + 1 } } }
      ec := { ec2 with
              pred := .scalar (base.predict (base.learn st.base ec2 v.parent_id) ec2 v.parent_id).1 }
      base := (base.predict (base.learn st.base ec2 v.parent_id) ec2 v.parent_id).2 },
   some (interpolated_cost ops local_action cost_v cost_w
     (base.predict (base.learn st.base ec2 v.parent_id) ec2 v.parent_id).1))

/-- The part of the loop body after the sibling `w` of `v` was found. -/
def learn_pair {σ F : Type} (ops : float_ops F) (lay : union_layout F) (rnd : random_source F)
    (base : single_learner σ F) (st : learn_state σ F) (v v_parent w : tree_node) (cost_v : F) :
    Except fault (learn_state σ F × Option F) :=
  if !(ops.eq cost_v (st.ot.return_cost ops w)) then
    if !(floor_weight ops rnd st.app_seed
          (labelled_example ops lay st.ec
            (local_action_of ops v w v_parent cost_v (st.ot.return_cost ops w))
            cost_v (st.ot.return_cost ops w))).2 then
      .ok (train_parent ops base st v v_parent
        (floor_weight ops rnd st.app_seed
          (labelled_example ops lay st.ec
            (local_action_of ops v w v_parent cost_v (st.ot.return_cost ops w))
            cost_v (st.ot.return_cost ops w))).1
        (local_action_of ops v w v_parent cost_v (st.ot.return_cost ops w))
        cost_v (st.ot.return_cost ops w))
    else
      .ok ({ st with ec := (floor_weight ops rnd st.app_seed
          (labelled_example ops lay st.ec
            (local_action_of ops v w v_parent cost_v (st.ot.return_cost ops w))
            cost_v (st.ot.return_cost ops w))).1 }, some cost_v)
  else .ok (st, some cost_v)

/-! ## Concrete inputs -/

/-- An interpretation of `float_ops` on which the code can be run: fixed-point numbers
counted in millionths, so that `1.0` is `1000000` and `0.00001` is `10`. -/
def micro_ops : float_ops Int :=
  { zero := 0
    one := 1000000
    neg_one := -1000000
    flt_max := 340282346638528859811704183484516925440000000
    weight_th := 10
    lt := fun a b => decide (a < b)
    eq := fun a b => decide (a = b)
    add := fun a b => a + b
    sub := fun a b => a - b
    mul := fun a b => a * b / 1000000
    div := fun a b => a * 1000000 / b
    abs := fun a => Int.natAbs a
    fabs := fun a => Int.natAbs a }

/-- The fixed-point numbers of `micro_ops` with a NaN, `none`.  Arithmetic on a NaN gives
a NaN and every comparison with a NaN is false.  A division by zero gives `none`, which
is what IEEE arithmetic gives for `0 / 0`; for a non-zero dividend IEEE gives an infinity,
which this carrier does not have. -/
def nan_ops : float_ops (Option Int) :=
  { zero := some 0
    one := some 1000000
    neg_one := some (-1000000)
    flt_max := some 340282346638528859811704183484516925440000000
    weight_th := some 10
    lt := fun a b =>
      match a, b with
      | some x, some y => decide (x < y)
      | _, _ => false
    eq := fun a b =>
      match a, b with
      | some x, some y => decide (x = y)
      | _, _ => false
    add := fun a b =>
      match a, b with
      | some x, some y => some (x + y)
      | _, _ => none
    sub := fun a b =>
      match a, b with
      | some x, some y => some (x - y)
      | _, _ => none
    mul := fun a b =>
      match a, b with
      | some x, some y => some (x * y / 1000000)
      | _, _ => none
    div := fun a b =>
      match a, b with
      | some x, some y => if y = 0 then none else some (x * 1000000 / y)
      | _, _ => none
    abs := fun a =>
      match a with
      | some x => some (Int.natAbs x)
      | none => none
    fabs := fun a =>
      match a with
      | some x => some (Int.natAbs x)
      | none => none }

/-- The layout `plain_layout` over the numbers with a NaN. -/
def nan_layout : union_layout (Option Int) :=
  { as_cb := fun _ => { costs := [] }
    as_simple := fun _ => { label := some 0, weight := some 0, initial := some 0 } }

/-- The parity learner over the numbers with a NaN. -/
def nan_parity_learner : single_learner Nat (Option Int) :=
  { predict := fun s _ i => (if i % 2 = 0 then some 1000000 else some (-1000000), s + 1)
    learn := fun s _ _ => s + 1 }

/-- The random source `half_source` over the numbers with a NaN. -/
def nan_half_source : random_source (Option Int) :=
  { uniform_hash := fun _ seed => seed
    uniform_random_merand48 := fun _ => some 500000 }

/-- A layout for the label union in which an unwritten member reads as empty. -/
def plain_layout : union_layout Int :=
  { as_cb := fun _ => { costs := [] }
    as_simple := fun _ => { label := 0, weight := 0, initial := 0 } }

/-- A base learner that counts its calls and answers `+1` at even node ids and `-1` at
odd ones. -/
def parity_learner : single_learner Nat Int :=
  { predict := fun s _ i => (if i % 2 = 0 then 1000000 else -1000000, s + 1)
    learn := fun s _ _ => s + 1 }

/-- A random source whose hash is the identity and whose draw is always `0.5`. -/
def half_source : random_source Int :=
  { uniform_hash := fun _ seed => seed
    uniform_random_merand48 := fun _ => 500000 }

/-- The tree object after `build_tree(4, 0)` on a fresh object. -/
def tree_of_four : min_depth_binary_tree :=
  match build_tree min_depth_binary_tree.empty 4 0 with
  | .returned t => t
  | _ => min_depth_binary_tree.empty

/-- An offset tree object around `tree_of_four`. -/
def offset_tree_of_four : offset_tree Int :=
  { _binary_tree := tree_of_four
    _a := { node_id := 0, cost := 0 }
    _b := { node_id := 0, cost := 0 }
    _cost_star := 0 }

/-- An example with the single-entry label `(action = 2, cost = 1.0, probability = 0.5)`,
weight `1.0` and a multiclass prediction slot. -/
def sample_example : vw_example Int :=
  { l := .cb { costs := [{ cost := 1000000, action := 2, probability := 500000 }] }
    pred := .multiclass 7
    weight := 1000000
    partial_prediction := 0 }

/-- The sample example with the scalar `0.25` in its prediction slot. -/
def scalar_example : vw_example Int :=
  { sample_example with pred := .scalar 250000 }

/-- The offset tree of four leaves with the trackers at the leaves 3 and 5. -/
def tracked_offset_tree : offset_tree Int :=
  { offset_tree_of_four with
    _a := { node_id := 3, cost := 1000000 }
    _b := { node_id := 5, cost := 3000000 }
    _cost_star := 2000000 }

/-- The state in which `learn` is called in the examples: the tree of four leaves, the
sample example, a learner that has seen no call, and seed 42. -/
def sample_state : learn_state Nat Int :=
  { ot := offset_tree_of_four, ec := sample_example, base := 0, app_seed := 42 }

/-- The state after `learn` (assertions compiled out) on `sample_state`. -/
def sample_state_learned : learn_state Nat Int :=
  match offset_tree.learn micro_ops plain_layout half_source parity_learner true sample_state with
  | .ok st => st
  | .error _ => sample_state

/-- The tree object after `build_tree(3, 0)` on a fresh object: the leaf of action 1 is
node 2, one level above the leaves 3 and 4. -/
def tree_of_three : min_depth_binary_tree :=
  match build_tree min_depth_binary_tree.empty 3 0 with
  | .returned t => t
  | _ => min_depth_binary_tree.empty

/-- The state in which `learn` is called on the tree of three leaves: the single-entry
label `(action = 1, cost = 1.0, probability = 0.5)`. -/
def state_of_three : learn_state Nat Int :=
  { ot := { _binary_tree := tree_of_three
            _a := { node_id := 0, cost := 0 }
            _b := { node_id := 0, cost := 0 }
            _cost_star := 0 }
    ec := { l := .cb { costs := [{ cost := 1000000, action := 1, probability := 500000 }] }
            pred := .multiclass 7
            weight := 1000000
            partial_prediction := 0 }
    base := 0
    app_seed := 42 }

/-- The tree object after `build_tree(8, 2)` on a fresh object: node 1 is `right_only`,
node 2 is `left_only`. -/
def tree_of_eight : min_depth_binary_tree :=
  match build_tree min_depth_binary_tree.empty 8 2 with
  | .returned t => t
  | _ => min_depth_binary_tree.empty

/-- The state in which `learn` is called on a tree built with zero leaves. -/
def state_of_zero : learn_state Nat Int :=
  { ot := { _binary_tree := { min_depth_binary_tree.empty with _initialized := true }
            _a := { node_id := 0, cost := 0 }
            _b := { node_id := 0, cost := 0 }
            _cost_star := 0 }
    ec := sample_example
    base := 0
    app_seed := 42 }

/-- The tree of four leaves in the middle of `learn`: both trackers at leaf 4 (the leaf
of action 2) with the cost `0.000005`, below `weight_th`. -/
def state_small_gap : learn_state Nat Int :=
  { sample_state with
    ot := { offset_tree_of_four with
            _a := { node_id := 4, cost := 5 }
            _b := { node_id := 4, cost := 5 }
            _cost_star := 5 } }

/-- The state of `learn` on `state_of_three` after `init_node_costs`: both trackers at
node 2, the leaf of action 1. -/
def state_of_three_start : learn_state Nat Int :=
  match state_of_three.ot.init_node_costs micro_ops true
      (state_of_three.ec.l.get_cb plain_layout).costs with
  | .ok ot1 => { state_of_three with ot := ot1 }
  | .error _ => state_of_three

/-- The state of `learn` on `state_of_three` after the first of its two levels. -/
def state_of_three_mid : learn_state Nat Int :=
  match learn_levels micro_ops plain_layout half_source parity_learner 1 state_of_three_start with
  | .ok st => st
  | .error _ => state_of_three

/-- The state after the whole call of `learn` on `state_of_three`. -/
def state_of_three_learned : learn_state Nat Int :=
  match offset_tree.learn micro_ops plain_layout half_source parity_learner true state_of_three with
  | .ok st => st
  | .error _ => state_of_three

/-- The state `state_of_three` with a logging base learner and an empty log. -/
def state_of_three_logged : learn_state (Nat × List (base_call Int)) Int :=
  { ot := state_of_three.ot, ec := state_of_three.ec, base := (0, []), app_seed := 42 }

/-- The calls that `learn` makes to the base learner on `state_of_three_logged`: for each
call, whether it is `learn`, and the node id. -/
def calls_of_three : List (Bool × Nat) :=
  match offset_tree.learn micro_ops plain_layout half_source (logged parity_learner) true
      state_of_three_logged with
  | .ok st => st.base.2.map (fun c => (c.is_learn, c.node_id))
  | .error _ => []

/-- The state in which `learn` is called on the tree of four leaves with a label of two
entries, for the actions 2 and 3 (the leaves 4 and 5, under different parents). -/
def state_two_actions : learn_state Nat Int :=
  { sample_state with
    ec := { sample_example with
            l := .cb { costs := [{ cost := 1000000, action := 2, probability := 500000 },
                                 { cost := 2000000, action := 3, probability := 500000 }] } } }

/-- The state in which `learn` is called on the tree of four leaves with the single-entry
label `(action = 2, cost = 0.0, probability = 0.0)`, a logging base learner and an empty
log: `cost / probability` is `0 / 0`, a NaN. -/
def state_of_nan : learn_state (Nat × List (base_call (Option Int))) (Option Int) :=
  { ot := { _binary_tree := tree_of_four
            _a := { node_id := 0, cost := some 0 }
            _b := { node_id := 0, cost := some 0 }
            _cost_star := some 0 }
    ec := { l := .cb { costs := [{ cost := some 0, action := 2, probability := some 0 }] }
            pred := .multiclass 7
            weight := some 1000000
            partial_prediction := some 0 }
    base := (0, [])
    app_seed := 42 }

/-- The calls that `learn` makes to the base learner on `state_of_nan`: for each call,
whether it is `learn`, the node id, and the weight of the example handed over. -/
def calls_of_nan : List (Bool × Nat × Option Int) :=
  match offset_tree.learn nan_ops nan_layout nan_half_source (logged nan_parity_learner) true
      state_of_nan with
  | .ok st => st.base.2.map (fun c => (c.is_learn, c.node_id, c.ec.weight))
  | .error _ => []

/-- The state `state_two_actions` with a logging base learner and an empty log. -/
def state_two_actions_logged : learn_state (Nat × List (base_call Int)) Int :=
  { ot := state_two_actions.ot, ec := state_two_actions.ec, base := (0, []), app_seed := 42 }

/-! ## The tree that `build_tree` returns -/

theorem log_succ_odd (k : Nat) : Nat.log 2 (2 * k + 3) = Nat.log 2 (2 * k + 2) := by
  have h1 : Nat.log 2 (2 * k + 3) = Nat.log 2 ((2 * k + 3) / 2 * 2) :=
    (Nat.log_div_mul_self 2 (2 * k + 3)).symm
  have h2 : (2 * k + 3) / 2 * 2 = 2 * k + 2 := by omega
  rw [h1, h2]

theorem log_child (k : Nat) : Nat.log 2 (2 * k + 2) = Nat.log 2 (k + 1) + 1 := by
  have h : 2 * k + 2 = (k + 1) * 2 := by ring
  rw [h, Nat.log_mul_base (by norm_num) (by omega)]

/-- The update of `depth` in the loop body keeps `depth = log2 (id + 1)` for the new ids. -/
theorem depth_update (k : Nat) :
    (if 2 * k + 1 ≥ 2 ^ (Nat.log 2 (2 * k + 1) + 1) - 1 then Nat.log 2 (2 * k + 1) + 1
      else Nat.log 2 (2 * k + 1)) = Nat.log 2 (2 * k + 2) := by
  have hlo : 2 ^ Nat.log 2 (2 * k + 1) ≤ 2 * k + 1 := Nat.pow_log_le_self 2 (by omega)
  have hhi : 2 * k + 1 < 2 ^ (Nat.log 2 (2 * k + 1) + 1) := Nat.lt_pow_succ_log_self (by norm_num) _
  have hp : 2 ^ (Nat.log 2 (2 * k + 1) + 1) = 2 * 2 ^ Nat.log 2 (2 * k + 1) := by ring
  split
  · next h =>
    symm
    apply Nat.log_eq_of_pow_le_of_lt_pow
    · omega
    · have : 2 ^ (Nat.log 2 (2 * k + 1) + 1 + 1) = 2 * 2 ^ (Nat.log 2 (2 * k + 1) + 1) := by ring
      omega
  · next h =>
    symm
    apply Nat.log_eq_of_pow_le_of_lt_pow
    · omega
    · omega

/-- The 32-bit value of `(1 << count) - 1`: a power of two of the count modulo 32, less
one. -/
theorem int_shift_minus_one_eq (c : Nat) : int_shift_minus_one c = 2 ^ (c % 32) - 1 := by
  have h1 : c % 32 < 32 := Nat.mod_lt _ (by norm_num)
  have h2 : 2 ^ (c % 32) < 2 ^ 32 := Nat.pow_lt_pow_right (by norm_num) h1
  have h3 : 0 < 2 ^ (c % 32) := Nat.two_pow_pos _
  unfold int_shift_minus_one u32 wrap_sub
  rw [Nat.one_shiftLeft, Nat.mod_eq_of_lt h2, if_pos (by omega)]

theorem depth_after_zero : depth_after 0 = 0 := by
  simp [depth_after]

/-- Below `2 ^ 30` passes `depth` is the level of the last id, at most 30. -/
theorem depth_after_small (k : Nat) (h : k < 2 ^ 30) :
    depth_after k = Nat.log 2 (2 * k + 1) ∧ Nat.log 2 (2 * k + 1) ≤ 30 := by
  refine ⟨by unfold depth_after; rw [if_pos h], ?_⟩
  have : Nat.log 2 (2 * k + 1) < 31 := Nat.log_lt_of_lt_pow (by omega) (by omega)
  omega

theorem depth_after_large (k : Nat) (h : 2 ^ 30 ≤ k) : depth_after k = k - 2 ^ 30 + 31 := by
  unfold depth_after
  rw [if_neg (by omega)]

/-- The variable `depth` is at least the level of the last id made. -/
theorem log_le_depth_after (k : Nat) : Nat.log 2 (2 * k + 1) ≤ depth_after k := by
  by_cases h : k < 2 ^ 30
  · rw [(depth_after_small k h).1]
  · rw [depth_after_large k (by omega)]
    obtain ⟨d, rfl⟩ : ∃ d, k = 2 ^ 30 + d := ⟨k - 2 ^ 30, by omega⟩
    have h1 : 2 * (2 ^ 30 + d) + 1 < 2 ^ (d + 31 + 1) := by
      have h2 : d + 1 ≤ 2 ^ d := Nat.lt_two_pow d
      have h3 : 2 ^ (d + 31 + 1) = 2 ^ 32 * 2 ^ d := by ring
      rw [h3]
      nlinarith
    have := Nat.log_lt_of_lt_pow (by omega) h1
    omega

/-- Up to `2 ^ 30` passes `depth` is the level of the last id made. -/
theorem depth_after_exact (k : Nat) (h : k ≤ 2 ^ 30) : depth_after k = Nat.log 2 (2 * k + 1) := by
  by_cases h1 : k < 2 ^ 30
  · exact (depth_after_small k h1).1
  · have hk : k = 2 ^ 30 := by omega
    subst hk
    rw [depth_after_large _ (le_refl _)]
    symm
    apply Nat.log_eq_of_pow_le_of_lt_pow
    · norm_num
    · norm_num

theorem depth_after_mono {a b : Nat} (h : a ≤ b) : depth_after a ≤ depth_after b := by
  by_cases hb : b < 2 ^ 30
  · rw [(depth_after_small a (by omega)).1, (depth_after_small b hb).1]
    exact Nat.log_mono_right (by omega)
  · rw [depth_after_large b (by omega)]
    by_cases ha : a < 2 ^ 30
    · have := (depth_after_small a ha).2
      rw [(depth_after_small a ha).1]
      omega
    · rw [depth_after_large a (by omega)]
      omega

/-- The update of `depth` in the loop body, pass `k`. -/
theorem depth_after_step (k : Nat) :
    (if 2 * k + 1 ≥ 2 ^ ((depth_after k + 1) % 32) - 1 then depth_after k + 1
      else depth_after k) = depth_after (k + 1) := by
  by_cases h : k + 1 < 2 ^ 30
  · obtain ⟨e1, e2⟩ := depth_after_small k (by omega)
    have e3 : 2 * (k + 1) + 1 = 2 * k + 3 := by ring
    rw [(depth_after_small (k + 1) h).1, e1, Nat.mod_eq_of_lt (by omega), e3, log_succ_odd]
    exact depth_update k
  · have hpos : 0 < 2 ^ ((depth_after k + 1) % 32) := Nat.two_pow_pos _
    have hle : 2 ^ ((depth_after k + 1) % 32) ≤ 2 ^ 31 :=
      Nat.pow_le_pow_right (by norm_num)
        (by have := Nat.mod_lt (depth_after k + 1) (show 32 > 0 by norm_num); omega)
    rw [depth_after_large (k + 1) (by omega)]
    by_cases h2 : k + 1 = 2 ^ 30
    · have e1 : depth_after k = 30 := by
        rw [(depth_after_small k (by omega)).1]
        apply Nat.log_eq_of_pow_le_of_lt_pow
        · omega
        · omega
      rw [e1, if_pos (by norm_num; omega)]
      omega
    · rw [if_pos (by omega), depth_after_large k (by omega)]
      omega

/-- The update of `depth_const` in the loop body, pass `k`. -/
theorem depth_const_step (k : Nat) :
    (if 2 * k + 1 ≥ 2 ^ ((depth_after k + 1) % 32) - 1
      then int_shift_minus_one (depth_after k + 1 + 1)
      else 2 ^ ((depth_after k + 1) % 32) - 1) = 2 ^ ((depth_after (k + 1) + 1) % 32) - 1 := by
  have h := depth_after_step k
  split
  · next hc => rw [if_pos hc] at h; rw [← h, int_shift_minus_one_eq]
  · next hc => rw [if_neg hc] at h; rw [← h]

/-- The flags computed by `shortcut_flags` for a non-root id, when no division faults. -/
theorem shortcut_flags_ok (L bw id : Nat) (hbw : bw = 0 ∨ u32 (2 * bw) ≠ 0) :
    shortcut_flags L bw id = .ok (left_flag L bw id, right_flag L bw id) := by
  unfold shortcut_flags left_flag right_flag
  rcases hbw with h | h
  · simp [h]
  · by_cases h0 : bw = 0
    · simp [h0]
    · simp [h0, h]

theorem closed_vars_zero (L bw : Nat) :
    closed_vars L bw 0 = { nodes := [] ++ [root_node], depth := 0, depth_const := 1 } := by
  simp [closed_vars, level_order_node, root_node, tree_node.make, List.range_succ,
    depth_after_zero]

theorem level_order_node_grow (L bw k j : Nat) (h : j ≠ k) :
    level_order_node L bw (k + 1) j = level_order_node L bw k j := by
  have h1 : (j < k + 1) = (j < k) := by
    apply propext; constructor <;> intro _ <;> omega
  have h2 : (k + 1 ≤ j) = (k ≤ j) := by
    apply propext; constructor <;> intro _ <;> omega
  simp only [level_order_node, h1, h2]

theorem level_order_node_promote (L bw k : Nat) :
    { level_order_node L bw k k with left_id := 2 * k + 1, right_id := 2 * k + 2, is_leaf := false }
      = level_order_node L bw (k + 1) k := by
  simp [level_order_node]

theorem level_order_node_left (L bw k : Nat) :
    tree_node.make (2 * k + 1) 0 0 k (depth_after (k + 1)) (left_flag L bw (2 * k + 1))
      (right_flag L bw (2 * k + 1)) true = level_order_node L bw (k + 1) (2 * k + 1) := by
  have h1 : ¬ (2 * k + 1 < k + 1) := by omega
  have h2 : (2 * k + 1 - 1) / 2 = k := by omega
  have h3 : k + 1 ≤ 2 * k + 1 := by omega
  have h4 : (2 * k + 1 + 1) / 2 = k + 1 := by omega
  simp [level_order_node, tree_node.make, h1, h2, h3, h4]

theorem level_order_node_right (L bw k : Nat) :
    tree_node.make (2 * k + 2) 0 0 k (depth_after (k + 1)) (left_flag L bw (2 * k + 2))
      (right_flag L bw (2 * k + 2)) true = level_order_node L bw (k + 1) (2 * k + 2) := by
  have h1 : ¬ (2 * k + 2 < k + 1) := by omega
  have h2 : (2 * k + 2 - 1) / 2 = k := by omega
  have h3 : k + 1 ≤ 2 * k + 2 := by omega
  have h4 : (2 * k + 2 + 1) / 2 = k + 1 := by omega
  have h5 : (2 * k + 1) / 2 = k := by omega
  simp [level_order_node, tree_node.make, h1, h3, h4, h5]

theorem set_map_range (L bw k : Nat) :
    ((List.range (2 * k + 1)).map (level_order_node L bw k)).set k (level_order_node L bw (k + 1) k)
      = (List.range (2 * k + 1)).map (level_order_node L bw (k + 1)) := by
  apply List.ext_getElem?
  intro j
  rw [List.getElem?_set]
  by_cases hj : k = j
  · subst hj
    have : k < 2 * k + 1 := by omega
    simp [List.getElem?_map, List.getElem?_range, this]
  · rw [if_neg hj]
    by_cases hlt : j < 2 * k + 1
    · simp [List.getElem?_map, List.getElem?_range, hlt,
        level_order_node_grow L bw k j (fun h => hj h.symm)]
    · have hge : 2 * k + 1 ≤ j := by omega
      rw [List.getElem?_eq_none (by simpa using hge), List.getElem?_eq_none (by simpa using hge)]

theorem build_iter_closed (L bw k : Nat) (hbw : bw = 0 ∨ u32 (2 * bw) ≠ 0) :
    build_iter L bw k (closed_vars L bw k) = .ok (closed_vars L bw (k + 1)) := by
  have hk : (closed_vars L bw k).nodes[k]? = some (level_order_node L bw k k) := by
    have : k < 2 * k + 1 := by omega
    simp [closed_vars, List.getElem?_map, List.getElem?_range, this]
  unfold build_iter
  rw [hk]
  simp only [shortcut_flags_ok L bw _ hbw]
  have hd := depth_after_step k
  have hc := depth_const_step k
  have e3 : 2 * (k + 1) + 1 = 2 * k + 1 + 1 + 1 := by ring
  simp only [closed_vars] at hd hc ⊢
  rw [hd, hc, level_order_node_promote, set_map_range, level_order_node_left,
    level_order_node_right, e3, List.range_succ (2 * k + 1 + 1), List.range_succ (2 * k + 1),
    List.map_append, List.map_append]
  rfl

theorem build_loop_closed (L bw k : Nat) (hbw : bw = 0 ∨ u32 (2 * bw) ≠ 0) :
    build_loop L bw { nodes := [] ++ [root_node], depth := 0, depth_const := 1 } k
      = .ok (closed_vars L bw k) := by
  induction k with
  | zero => simp only [build_loop, closed_vars_zero]
  | succ k ih => simp only [build_loop, ih, build_iter_closed L bw k hbw]

theorem build_loop_fault (L bw k : Nat) (h0 : bw ≠ 0) (h2 : u32 (2 * bw) = 0) :
    build_loop L bw { nodes := [] ++ [root_node], depth := 0, depth_const := 1 } (k + 1)
      = .error fault.division_by_zero := by
  induction k with
  | zero => simp [build_loop, build_iter, shortcut_flags, h0, h2]
  | succ k ih =>
    rw [build_loop, ih]

/-- On a fresh object and `L ≥ 1`, `build_tree` returns the level-order tree, unless
`2 * bw` is zero in 32 bits for a non-zero `bw` and the loop runs at least once. -/
theorem build_tree_returns (L bw : Nat) (hL : 1 ≤ L)
    (hbw : bw = 0 ∨ u32 (2 * bw) ≠ 0 ∨ L = 1) :
    build_tree min_depth_binary_tree.empty L bw = .returned (built_tree L bw) := by
  have hL0 : L ≠ 0 := by omega
  have e : 2 * (L - 1) + 1 = 2 * L - 1 := by omega
  unfold build_tree
  simp only [min_depth_binary_tree.empty, hL0, if_false, Bool.false_eq_true]
  have hroot : tree_node.make 0 0 0 0 0 false false true = root_node := rfl
  rw [hroot]
  rcases hbw with h | h | h
  · rw [build_loop_closed L bw (L - 1) (Or.inl h)]
    simp only [closed_vars, built_tree, e]
  · rw [build_loop_closed L bw (L - 1) (Or.inr h)]
    simp only [closed_vars, built_tree, e]
  · subst h
    simp only [build_loop, closed_vars_zero]
    simp [built_tree, level_order_node, root_node, tree_node.make, List.range_succ,
      depth_after_zero]

/-- On a fresh object, `build_tree` divides by zero when `2 * bw` is zero in 32 bits for a
non-zero `bw` and the loop runs at least once. -/
theorem build_tree_faults (L bw : Nat) (hL : 2 ≤ L) (h0 : bw ≠ 0) (h2 : u32 (2 * bw) = 0) :
    build_tree min_depth_binary_tree.empty L bw = .faulted fault.division_by_zero := by
  have hL0 : L ≠ 0 := by omega
  obtain ⟨k, rfl⟩ : ∃ k, L = k + 2 := ⟨L - 2, by omega⟩
  unfold build_tree
  simp only [min_depth_binary_tree.empty, hL0, if_false, Bool.false_eq_true]
  have hroot : tree_node.make 0 0 0 0 0 false false true = root_node := rfl
  have e : k + 2 - 1 = k + 1 := by omega
  rw [hroot, e, build_loop_fault (k + 2) bw k h0 h2]

/-- Whatever `build_tree` returns on a fresh object for `L ≥ 1` is the level-order tree. -/
theorem build_tree_eq (L bw : Nat) (hL : 1 ≤ L) (t : min_depth_binary_tree)
    (hb : build_tree min_depth_binary_tree.empty L bw = .returned t) : t = built_tree L bw := by
  by_cases h : bw = 0 ∨ u32 (2 * bw) ≠ 0 ∨ L = 1
  · rw [build_tree_returns L bw hL h] at hb
    injection hb with hb
    exact hb.symm
  · have h0 : bw ≠ 0 := fun h' => h (Or.inl h')
    have h2 : u32 (2 * bw) = 0 := by
      by_contra h'
      exact h (Or.inr (Or.inl h'))
    have hL2 : 2 ≤ L := by
      have : L ≠ 1 := fun h' => h (Or.inr (Or.inr h'))
      omega
    rw [build_tree_faults L bw hL2 h0 h2] at hb
    cases hb

/-- The node list of the level-order tree: its length and its entries. -/
theorem built_tree_length (L bw : Nat) : (built_tree L bw).nodes.length = 2 * L - 1 := by
  simp [built_tree]

theorem built_tree_get (L bw k : Nat) (hk : k < 2 * L - 1) :
    (built_tree L bw).nodes[k]? = some (level_order_node L bw (L - 1) k) := by
  simp [built_tree, List.getElem?_map, List.getElem?_range, hk]

theorem built_tree_get_none (L bw k : Nat) (hk : 2 * L - 1 ≤ k) :
    (built_tree L bw).nodes[k]? = none := by
  apply List.getElem?_eq_none
  simpa [built_tree] using hk

/-! ## Routing on a built tree -/

/-- Monotonicity of the level `log2 (id + 1)`, and the level of the two children. -/
theorem level_mono {a b : Nat} (h : a ≤ b) : Nat.log 2 (a + 1) ≤ Nat.log 2 (b + 1) :=
  Nat.log_mono_right (by omega)

theorem level_left (k : Nat) : Nat.log 2 (2 * k + 1 + 1) = Nat.log 2 (k + 1) + 1 := log_child k

theorem level_right (k : Nat) : Nat.log 2 (2 * k + 2 + 1) = Nat.log 2 (k + 1) + 1 := by
  have : 2 * k + 2 + 1 = 2 * k + 3 := by ring
  rw [this, log_succ_odd, log_child]

/-- An internal node lies strictly above the deepest level. -/
theorem internal_level_lt (L k : Nat) (hk : k < L - 1) :
    Nat.log 2 (k + 1) + 1 ≤ Nat.log 2 (2 * L - 1) := by
  have h1 : Nat.log 2 (2 * k + 1 + 1) ≤ Nat.log 2 (2 * L - 2 + 1) := level_mono (by omega)
  have h2 : 2 * L - 2 + 1 = 2 * L - 1 := by omega
  rw [level_left, h2] at h1
  exact h1

/-- From any node of a built tree the `while` loop of `predict` reaches a leaf within as
many passes as there are levels below the node; it leaves the weight alone, and the
prediction slot is either untouched or holds a scalar of the base learner. -/
theorem predict_loop_built {σ F : Type} (ops : float_ops F) (lay : union_layout F)
    (base : single_learner σ F) (L bw : Nat) :
    ∀ (fuel k : Nat) (ec : vw_example F) (s : σ), k < 2 * L - 1 →
      Nat.log 2 (2 * L - 1) ≤ fuel + Nat.log 2 (k + 1) →
      ∃ j ec1 s1, L - 1 ≤ j ∧ j < 2 * L - 1 ∧
        (ec1.weight = ec.weight ∧ (ec1.pred = ec.pred ∨ ∃ x, ec1.pred = .scalar x)) ∧
        predict_loop ops lay base (built_tree L bw).nodes fuel
          (level_order_node L bw (L - 1) k) ec s
          = .ok (level_order_node L bw (L - 1) j, ec1, s1) := by
  intro fuel
  induction fuel with
  | zero =>
    intro k ec s hk hf
    have hleaf : L - 1 ≤ k := by
      by_contra hlt
      have := internal_level_lt L k (by omega)
      omega
    refine ⟨k, ec, s, hleaf, hk, ⟨rfl, Or.inl rfl⟩, ?_⟩
    simp [predict_loop, level_order_node, hleaf]
  | succ fuel ih =>
    intro k ec s hk hf
    by_cases hleaf : L - 1 ≤ k
    · refine ⟨k, ec, s, hleaf, hk, ⟨rfl, Or.inl rfl⟩, ?_⟩
      simp [predict_loop, level_order_node, hleaf]
    · have hint : k < L - 1 := by omega
      have hl : 2 * k + 1 < 2 * L - 1 := by omega
      have hr : 2 * k + 2 < 2 * L - 1 := by omega
      have hfl : Nat.log 2 (2 * L - 1) ≤ fuel + Nat.log 2 (2 * k + 1 + 1) := by
        rw [level_left]; omega
      have hfr : Nat.log 2 (2 * L - 1) ≤ fuel + Nat.log 2 (2 * k + 2 + 1) := by
        rw [level_right]; omega
      have gl := built_tree_get L bw (2 * k + 1) hl
      have gr := built_tree_get L bw (2 * k + 2) hr
      have e1 : (level_order_node L bw (L - 1) k).is_leaf = false := by
        simp [level_order_node]; omega
      have e2 : (level_order_node L bw (L - 1) k).left_id = 2 * k + 1 := by
        simp [level_order_node, hint]
      have e3 : (level_order_node L bw (L - 1) k).right_id = 2 * k + 2 := by
        simp [level_order_node, hint]
      have g : ∀ (c : Prop) [Decidable c],
          (built_tree L bw).nodes[if c then 2 * k + 1 else 2 * k + 2]?
            = some (level_order_node L bw (L - 1) (if c then 2 * k + 1 else 2 * k + 2)) := by
        intro c _
        split
        · exact gl
        · exact gr
      have aux : ∀ (c : Nat) (ec2 : vw_example F) (s2 : σ), c < 2 * L - 1 →
          Nat.log 2 (2 * L - 1) ≤ fuel + Nat.log 2 (c + 1) → ec2.weight = ec.weight →
          (∃ x, ec2.pred = .scalar x) →
          ∃ j ec1 s1, L - 1 ≤ j ∧ j < 2 * L - 1 ∧
            (ec1.weight = ec.weight ∧ (ec1.pred = ec.pred ∨ ∃ x, ec1.pred = .scalar x)) ∧
            predict_loop ops lay base (built_tree L bw).nodes fuel
              (level_order_node L bw (L - 1) c) ec2 s2
              = .ok (level_order_node L bw (L - 1) j, ec1, s1) := by
        intro c ec2 s2 hc hfc hw hp
        obtain ⟨j, ec1, s1, h1, h2, ⟨h3, h5⟩, h4⟩ := ih c ec2 s2 hc hfc
        refine ⟨j, ec1, s1, h1, h2, ⟨h3.trans hw, Or.inr ?_⟩, h4⟩
        rcases h5 with h5 | h5
        · rw [h5]; exact hp
        · exact h5
      rw [predict_loop]
      simp only [e1, e2, e3, Bool.false_eq_true, if_false]
      split
      · rw [gr]
        exact ih (2 * k + 2) ec s hr hfr
      · split
        · rw [gl]
          exact ih (2 * k + 1) ec s hl hfl
        · simp only [g]
          split
          · refine aux (2 * k + 1) _ _ hl hfl ?_ ?_
            · rfl
            · exact ⟨_, rfl⟩
          · refine aux (2 * k + 2) _ _ hr hfr ?_ ?_
            · rfl
            · exact ⟨_, rfl⟩

theorem built_tree_internal_node_count (L bw : Nat) (hL : 1 ≤ L) :
    (built_tree L bw).internal_node_count = L - 1 := by
  have h : L ≤ 2 * L - 1 := by omega
  simp only [min_depth_binary_tree.internal_node_count, built_tree_length, wrap_sub]
  simp only [built_tree, if_pos h]
  omega

/-- On a built tree with at least one leaf, `predict` returns within `depth` passes: the
action of a leaf, with the label restored from the saved `cb` member, the weight as it
was, and the prediction slot untouched or holding a scalar of the base learner. -/
theorem predict_built {σ F : Type} (ops : float_ops F) (lay : union_layout F)
    (base : single_learner σ F) (L bw : Nat) (hL : 1 ≤ L) (ot : offset_tree F)
    (ht : ot._binary_tree = built_tree L bw) (ec : vw_example F) (s : σ) (fuel : Nat)
    (hf : ot._binary_tree.depth ≤ fuel) :
    ∃ (j : Nat) (ec1 : vw_example F) (s1 : σ), L - 1 ≤ j ∧ j < 2 * L - 1 ∧
      (ec1.weight = ec.weight ∧ (ec1.pred = ec.pred ∨ ∃ x, ec1.pred = .scalar x)) ∧
      ot.predict ops lay base fuel ec s
        = .ok (j - (L - 1) + 1, { ec1 with l := .cb (ec.l.get_cb lay) }, s1) := by
  have hL0 : L ≠ 0 := by omega
  have h0 : 0 < 2 * L - 1 := by omega
  have hf2 : Nat.log 2 (2 * L - 1) ≤ fuel + Nat.log 2 (0 + 1) := by
    rw [ht] at hf
    have h1 : depth_after (L - 1) ≤ fuel := hf
    have h2 := log_le_depth_after (L - 1)
    have e : 2 * (L - 1) + 1 = 2 * L - 1 := by omega
    rw [e] at h2
    exact le_trans (le_trans h2 h1) (Nat.le_add_right _ _)
  obtain ⟨j, ec1, s1, h1, h2, h3, h4⟩ :=
    predict_loop_built ops lay base L bw fuel 0
      { ec with l := ec.l.set_simple_label lay ops.flt_max } s h0 hf2
  refine ⟨j, ec1, s1, h1, h2, h3, ?_⟩
  unfold offset_tree.predict
  rw [ht, built_tree_get L bw 0 h0]
  simp only [h4, built_tree_internal_node_count L bw hL]
  have hc : (built_tree L bw).leaf_node_count = L := rfl
  have hw : wrap_sub (level_order_node L bw (L - 1) j).id (L - 1) = j - (L - 1) := by
    simp [wrap_sub, level_order_node, h1]
  rw [hc, if_neg hL0, hw]

/-! ## Node count and leaf actions -/

/-- Whenever `build_tree` returns on a fresh object with `leafCount ≥ 1`, the tree has
`2 * leafCount - 1` nodes, `leafCount - 1` of them internal, and the action index
`id - internal_node_count() + 1` maps the leaves one-to-one onto `1, ..., leafCount`. -/
theorem built_tree_leaf_actions (leafCount bandwidth : Nat) (hL : 1 ≤ leafCount)
    (t : min_depth_binary_tree)
    (hb : build_tree min_depth_binary_tree.empty leafCount bandwidth = .returned t) :
    t.nodes.length = 2 * leafCount - 1 ∧ t.internal_node_count = leafCount - 1 ∧
    (∀ n ∈ t.nodes, n.is_leaf = true →
      1 ≤ wrap_sub n.id t.internal_node_count + 1 ∧
      wrap_sub n.id t.internal_node_count + 1 ≤ leafCount) ∧
    (∀ n ∈ t.nodes, ∀ m ∈ t.nodes, n.is_leaf = true → m.is_leaf = true →
      wrap_sub n.id t.internal_node_count + 1 = wrap_sub m.id t.internal_node_count + 1 → n = m) ∧
    (∀ a, 1 ≤ a → a ≤ leafCount →
      ∃ n ∈ t.nodes, n.is_leaf = true ∧ wrap_sub n.id t.internal_node_count + 1 = a) := by
  have ht := build_tree_eq leafCount bandwidth hL t hb
  subst ht
  have hmem : ∀ n, n ∈ (built_tree leafCount bandwidth).nodes ↔
      ∃ k, k < 2 * leafCount - 1 ∧ n = level_order_node leafCount bandwidth (leafCount - 1) k := by
    intro n
    simp only [built_tree, List.mem_map, List.mem_range]
    constructor
    · rintro ⟨k, hk, rfl⟩; exact ⟨k, hk, rfl⟩
    · rintro ⟨k, hk, rfl⟩; exact ⟨k, hk, rfl⟩
  have hleaf : ∀ k, (level_order_node leafCount bandwidth (leafCount - 1) k).is_leaf = true ↔
      leafCount - 1 ≤ k := by
    intro k; simp [level_order_node]
  have hid : ∀ k, (level_order_node leafCount bandwidth (leafCount - 1) k).id = k := fun _ => rfl
  have hw : ∀ k, leafCount - 1 ≤ k → wrap_sub k (leafCount - 1) = k - (leafCount - 1) := by
    intro k hk; simp [wrap_sub, hk]
  rw [built_tree_internal_node_count leafCount bandwidth hL]
  refine ⟨built_tree_length _ _, rfl, ?_, ?_, ?_⟩
  · intro n hn hl
    obtain ⟨k, hk, rfl⟩ := (hmem n).1 hn
    have := (hleaf k).1 hl
    rw [hid, hw k this]
    omega
  · intro n hn m hm hln hlm h
    obtain ⟨k, hk, rfl⟩ := (hmem n).1 hn
    obtain ⟨k2, hk2, rfl⟩ := (hmem m).1 hm
    have h1 := (hleaf k).1 hln
    have h2 := (hleaf k2).1 hlm
    rw [hid, hid, hw k h1, hw k2 h2] at h
    have : k = k2 := by omega
    rw [this]
  · intro a h1 h2
    refine ⟨level_order_node leafCount bandwidth (leafCount - 1) (a + (leafCount - 1) - 1),
      (hmem _).2 ⟨_, by omega, rfl⟩, (hleaf _).2 (by omega), ?_⟩
    rw [hid, hw _ (by omega)]
    omega

/-- C2: for `leafCount = 2` and `bandwidth = 2 ^ 31` the call `build_tree(2, 2147483648)`
on a fresh object produces no tree: the divisor `2 * bandwidth` is zero in 32 bits and the
first pass of the loop divides by it. -/
theorem build_tree_divides_by_zero :
    build_tree min_depth_binary_tree.empty 2 2147483648 = .faulted fault.division_by_zero := by
  decide

/-! ## Level-order layout -/

/-- C3: the node array that `build_tree(leafCount, bandwidth)` produces for
`leafCount ≥ 1` is a level-order layout.  It has `2 * leafCount - 1` entries; entry `i`
has `id = i`; `is_leaf` is `false` exactly when `i < leafCount - 1`, so the leaves are
exactly the ids in `[leafCount - 1, 2 * leafCount - 1)`; an internal node `i` has
`left_id = 2 * i + 1` and `right_id = 2 * i + 2`; a node `i ≥ 1` has
`parent_id = (i - 1) / 2` and the root has `parent_id = 0`; `depth` is nondecreasing in
the id. -/
theorem build_tree_level_order (leafCount bandwidth : Nat) (hL : 1 ≤ leafCount)
    (t : min_depth_binary_tree)
    (hb : build_tree min_depth_binary_tree.empty leafCount bandwidth = .returned t) :
    t.nodes.length = 2 * leafCount - 1 ∧
    (∀ i, i < 2 * leafCount - 1 → ∃ n, t.nodes[i]? = some n ∧ n.id = i ∧
      (n.is_leaf = false ↔ i < leafCount - 1) ∧
      (n.is_leaf = true ↔ leafCount - 1 ≤ i) ∧
      (i < leafCount - 1 → n.left_id = 2 * i + 1 ∧ n.right_id = 2 * i + 2) ∧
      (1 ≤ i → n.parent_id = (i - 1) / 2) ∧
      (i = 0 → n.parent_id = 0)) ∧
    (∀ (i j : Nat) (ni nj : tree_node), i ≤ j → t.nodes[i]? = some ni →
      t.nodes[j]? = some nj → ni.depth ≤ nj.depth) := by
  have ht := build_tree_eq leafCount bandwidth hL t hb
  subst ht
  refine ⟨built_tree_length _ _, ?_, ?_⟩
  · intro i hi
    refine ⟨_, built_tree_get leafCount bandwidth i hi, rfl, ?_, ?_, ?_, ?_, ?_⟩
    · simp [level_order_node]
      omega
    · simp [level_order_node]
    · intro h
      simp [level_order_node, h]
    · intro _
      rfl
    · intro h
      subst h
      rfl
  · intro i j ni nj hij hi hj
    have hjlt : j < 2 * leafCount - 1 := by
      by_contra h
      rw [built_tree_get_none leafCount bandwidth j (by omega)] at hj
      cases hj
    rw [built_tree_get leafCount bandwidth i (by omega)] at hi
    rw [built_tree_get leafCount bandwidth j hjlt] at hj
    injection hi with hi
    injection hj with hj
    subst hi
    subst hj
    exact depth_after_mono (Nat.div_le_div_right (by omega))

/-- C3, at a concrete input: the tree of four leaves. -/
theorem build_tree_level_order_witness :
    1 ≤ 4 ∧ build_tree min_depth_binary_tree.empty 4 0 = .returned tree_of_four ∧
    (tree_of_four.nodes.length = 2 * 4 - 1 ∧
    (∀ i, i < 2 * 4 - 1 → ∃ n, tree_of_four.nodes[i]? = some n ∧ n.id = i ∧
      (n.is_leaf = false ↔ i < 4 - 1) ∧
      (n.is_leaf = true ↔ 4 - 1 ≤ i) ∧
      (i < 4 - 1 → n.left_id = 2 * i + 1 ∧ n.right_id = 2 * i + 2) ∧
      (1 ≤ i → n.parent_id = (i - 1) / 2) ∧
      (i = 0 → n.parent_id = 0)) ∧
    (∀ (i j : Nat) (ni nj : tree_node), i ≤ j → tree_of_four.nodes[i]? = some ni →
      tree_of_four.nodes[j]? = some nj → ni.depth ≤ nj.depth)) :=
  ⟨by decide, by decide, build_tree_level_order 4 0 (by decide) tree_of_four (by decide)⟩

/-! ## Depth -/

/-- In a built tree the path from node `k` up to the root has `log2 (k + 1)` edges. -/
theorem edges_to_root_built (L bw : Nat) :
    ∀ (fuel k : Nat), k < 2 * L - 1 → Nat.log 2 (k + 1) ≤ fuel →
      edges_to_root (built_tree L bw).nodes fuel k = some (Nat.log 2 (k + 1)) := by
  intro fuel
  induction fuel with
  | zero =>
    intro k hk hf
    have h0 : k = 0 := by
      by_contra h
      have : 0 < Nat.log 2 (k + 1) := Nat.log_pos (by norm_num) (by omega)
      omega
    subst h0
    simp [edges_to_root]
  | succ fuel ih =>
    intro k hk hf
    by_cases h0 : k = 0
    · subst h0
      simp [edges_to_root]
    · rw [edges_to_root, if_neg h0, built_tree_get L bw k hk]
      have hp : (level_order_node L bw (L - 1) k).parent_id = (k - 1) / 2 := rfl
      have hlev : Nat.log 2 (k + 1) = Nat.log 2 ((k - 1) / 2 + 1) + 1 := by
        rcases Nat.even_or_odd k with ⟨m, hm⟩ | ⟨m, hm⟩
        · have e1 : (k - 1) / 2 = m - 1 := by omega
          have e2 : k + 1 = 2 * (m - 1) + 2 + 1 := by omega
          rw [e1, e2, level_right]
        · have e1 : (k - 1) / 2 = m := by omega
          have e2 : k + 1 = 2 * m + 1 + 1 := by omega
          rw [e1, e2, level_left]
      simp only [hp]
      rw [ih ((k - 1) / 2) (by omega) (by omega), hlev]
      rfl

/-- A binary tree of height `h` has at most `2 ^ h` leaves. -/
theorem bin_tree.leaves_le (b : bin_tree) : b.leaves ≤ 2 ^ b.height := by
  induction b with
  | leaf => simp [bin_tree.leaves, bin_tree.height]
  | node l r ihl ihr =>
    simp only [bin_tree.leaves, bin_tree.height]
    have h1 : 2 ^ l.height ≤ 2 ^ max l.height r.height :=
      Nat.pow_le_pow_right (by norm_num) (le_max_left _ _)
    have h2 : 2 ^ r.height ≤ 2 ^ max l.height r.height :=
      Nat.pow_le_pow_right (by norm_num) (le_max_right _ _)
    have h3 : 2 ^ (max l.height r.height + 1) = 2 * 2 ^ max l.height r.height := by ring
    omega

/-- After `build_tree` with `1 ≤ leafCount ≤ 2 ^ 30 + 1`, where the shift count that
leaves a mark in `depth` stays below 32, `depth()` is the number of edges on the longest
root-to-leaf path of the built tree (no leaf is further from the root, and some leaf is
that far), and it is the least `d` with `2 ^ d ≥ leafCount`, which no binary tree with
`leafCount` leaves can go below. -/
theorem depth_is_minimal_height (leafCount bandwidth : Nat) (hL : 1 ≤ leafCount)
    (hsize : leafCount ≤ 2 ^ 30 + 1) (t : min_depth_binary_tree)
    (hb : build_tree min_depth_binary_tree.empty leafCount bandwidth = .returned t) :
    (∀ (i : Nat) (n : tree_node), t.nodes[i]? = some n → n.is_leaf = true →
      ∃ e, edges_to_root t.nodes t.nodes.length i = some e ∧ e ≤ t.depth) ∧
    (∃ (i : Nat) (n : tree_node), t.nodes[i]? = some n ∧ n.is_leaf = true ∧
      edges_to_root t.nodes t.nodes.length i = some t.depth) ∧
    leafCount ≤ 2 ^ t.depth ∧
    (∀ d, leafCount ≤ 2 ^ d → t.depth ≤ d) ∧
    (∀ b : bin_tree, b.leaves = leafCount → t.depth ≤ b.height) := by
  have ht := build_tree_eq leafCount bandwidth hL t hb
  subst ht
  have hdepth : (built_tree leafCount bandwidth).depth = Nat.log 2 (2 * leafCount - 1) := by
    have e : 2 * (leafCount - 1) + 1 = 2 * leafCount - 1 := by omega
    show depth_after (leafCount - 1) = _
    rw [depth_after_exact (leafCount - 1) (by omega), e]
  have hfuel : ∀ k, k < 2 * leafCount - 1 →
      Nat.log 2 (k + 1) ≤ (built_tree leafCount bandwidth).nodes.length := by
    intro k hk
    rw [built_tree_length]
    exact le_trans (Nat.log_le_self 2 (k + 1)) (by omega)
  have hmin : ∀ d, leafCount ≤ 2 ^ d → Nat.log 2 (2 * leafCount - 1) ≤ d := by
    intro d hd
    have h1 : 2 * leafCount - 1 < 2 ^ (d + 1) := by
      have : 2 ^ (d + 1) = 2 * 2 ^ d := by ring
      omega
    have := Nat.log_lt_of_lt_pow (by omega) h1
    omega
  have hpow : leafCount ≤ 2 ^ Nat.log 2 (2 * leafCount - 1) := by
    have h1 : 2 * leafCount - 1 < 2 ^ (Nat.log 2 (2 * leafCount - 1) + 1) :=
      Nat.lt_pow_succ_log_self (by norm_num) _
    have : 2 ^ (Nat.log 2 (2 * leafCount - 1) + 1) = 2 * 2 ^ Nat.log 2 (2 * leafCount - 1) := by
      ring
    omega
  rw [hdepth]
  refine ⟨?_, ?_, hpow, hmin, ?_⟩
  · intro i n hi _
    have hlt : i < 2 * leafCount - 1 := by
      by_contra h
      rw [built_tree_get_none leafCount bandwidth i (by omega)] at hi
      cases hi
    refine ⟨_, edges_to_root_built leafCount bandwidth _ i hlt (hfuel i hlt), ?_⟩
    have := level_mono (show i ≤ 2 * leafCount - 2 by omega)
    have e : 2 * leafCount - 2 + 1 = 2 * leafCount - 1 := by omega
    rwa [e] at this
  · have hlast : 2 * leafCount - 2 < 2 * leafCount - 1 := by omega
    refine ⟨2 * leafCount - 2, _, built_tree_get leafCount bandwidth _ hlast, ?_, ?_⟩
    · simp [level_order_node]
      omega
    · have e : 2 * leafCount - 2 + 1 = 2 * leafCount - 1 := by omega
      rw [edges_to_root_built leafCount bandwidth _ _ hlast (hfuel _ hlast), e]
  · intro b hbl
    exact hmin _ (hbl ▸ b.leaves_le)

/-- The depth of the tree of four leaves: 2. -/
theorem depth_is_minimal_height_witness :
    1 ≤ 4 ∧ 4 ≤ 2 ^ 30 + 1 ∧
    build_tree min_depth_binary_tree.empty 4 0 = .returned tree_of_four ∧
    tree_of_four.depth = 2 ∧
    ((∀ (i : Nat) (n : tree_node), tree_of_four.nodes[i]? = some n → n.is_leaf = true →
      ∃ e, edges_to_root tree_of_four.nodes tree_of_four.nodes.length i = some e ∧
        e ≤ tree_of_four.depth) ∧
    (∃ (i : Nat) (n : tree_node), tree_of_four.nodes[i]? = some n ∧ n.is_leaf = true ∧
      edges_to_root tree_of_four.nodes tree_of_four.nodes.length i = some tree_of_four.depth) ∧
    4 ≤ 2 ^ tree_of_four.depth ∧
    (∀ d, 4 ≤ 2 ^ d → tree_of_four.depth ≤ d) ∧
    (∀ b : bin_tree, b.leaves = 4 → tree_of_four.depth ≤ b.height)) :=
  ⟨by decide, by decide, by decide, by decide,
    depth_is_minimal_height 4 0 (by decide) (by decide) tree_of_four (by decide)⟩

/-- Claim C4 fails for `leafCount = 2 ^ 30 + 2` (node ids below `2 ^ 31 + 3`, within 32
bits): `build_tree(1073741826, 0)` on a fresh object returns a tree of `2 ^ 31 + 3` nodes
with `depth() = 32`, while no node is more than 31 edges from the root, a leaf is 31
edges from it, and 31 is the least `d` with `2 ^ d ≥ leafCount`.  In pass
`i = 2 ^ 30 - 1` the shift count reaches 32, `depth_const` becomes 0, and pass
`i = 2 ^ 30` raises `depth` once more. -/
theorem build_tree_depth_overflows :
    ∃ t, build_tree min_depth_binary_tree.empty (2 ^ 30 + 2) 0 = .returned t ∧
      t.nodes.length = 2 ^ 31 + 3 ∧
      t.depth = 32 ∧
      (∀ (i : Nat) (n : tree_node), t.nodes[i]? = some n →
        ∃ e, edges_to_root t.nodes t.nodes.length i = some e ∧ e ≤ 31) ∧
      (∃ (i : Nat) (n : tree_node), t.nodes[i]? = some n ∧ n.is_leaf = true ∧
        edges_to_root t.nodes t.nodes.length i = some 31) ∧
      2 ^ 30 + 2 ≤ 2 ^ 31 ∧ (∀ d, 2 ^ 30 + 2 ≤ 2 ^ d → 31 ≤ d) := by
  have hlen : (built_tree (2 ^ 30 + 2) 0).nodes.length = 2 ^ 31 + 3 := by
    rw [built_tree_length]
    norm_num
  have hfuel : ∀ k, k < 2 * (2 ^ 30 + 2) - 1 →
      Nat.log 2 (k + 1) ≤ (built_tree (2 ^ 30 + 2) 0).nodes.length := by
    intro k hk
    rw [hlen]
    exact le_trans (Nat.log_le_self 2 (k + 1)) (by omega)
  refine ⟨built_tree (2 ^ 30 + 2) 0, build_tree_returns _ _ (by norm_num) (Or.inl rfl), hlen,
    ?_, ?_, ?_, by norm_num, ?_⟩
  · show depth_after (2 ^ 30 + 2 - 1) = 32
    rw [depth_after_large _ (by norm_num)]
    norm_num
  · intro i n hi
    have hlt : i < 2 * (2 ^ 30 + 2) - 1 := by
      by_contra h
      rw [built_tree_get_none _ _ i (by omega)] at hi
      cases hi
    refine ⟨_, edges_to_root_built _ _ _ i hlt (hfuel i hlt), ?_⟩
    have : Nat.log 2 (i + 1) < 32 := Nat.log_lt_of_lt_pow (by omega) (by omega)
    omega
  · have hlast : 2 ^ 31 + 2 < 2 * (2 ^ 30 + 2) - 1 := by norm_num
    refine ⟨2 ^ 31 + 2, _, built_tree_get _ _ _ hlast, ?_, ?_⟩
    · show decide (2 ^ 30 + 2 - 1 ≤ 2 ^ 31 + 2) = true
      exact decide_eq_true (by norm_num)
    · have e : Nat.log 2 (2 ^ 31 + 2 + 1) = 31 :=
        Nat.log_eq_of_pow_le_of_lt_pow (by norm_num) (by norm_num)
      rw [edges_to_root_built _ _ _ _ hlast (hfuel _ hlast), e]
  · intro d hd
    by_contra h
    have h1 : 2 ^ d ≤ 2 ^ 30 := Nat.pow_le_pow_right (by norm_num) (by omega)
    omega

/-! ## Siblings -/

/-- In a built tree, the sibling of node `i ≥ 1` is `i + 1` for odd `i` and `i - 1` for
even `i`. -/
theorem get_sibling_built (L bw i : Nat) (h1 : 1 ≤ i) (hi : i < 2 * L - 1) :
    (built_tree L bw).get_sibling (level_order_node L bw (L - 1) i)
      = .ok (level_order_node L bw (L - 1) (if i % 2 = 1 then i + 1 else i - 1)) := by
  have hp : (i - 1) / 2 < L - 1 := by omega
  have hp2 : (i - 1) / 2 < 2 * L - 1 := by omega
  unfold min_depth_binary_tree.get_sibling
  have e1 : (level_order_node L bw (L - 1) i).parent_id = (i - 1) / 2 := rfl
  have e2 : (level_order_node L bw (L - 1) i).id = i := rfl
  have e3 : (level_order_node L bw (L - 1) ((i - 1) / 2)).left_id = 2 * ((i - 1) / 2) + 1 := by
    simp [level_order_node, hp]
  have e4 : (level_order_node L bw (L - 1) ((i - 1) / 2)).right_id = 2 * ((i - 1) / 2) + 2 := by
    simp [level_order_node, hp]
  rw [e1, built_tree_get L bw _ hp2]
  simp only [e2, e3, e4]
  by_cases hodd : i % 2 = 1
  · have c : i = 2 * ((i - 1) / 2) + 1 := by omega
    rw [if_pos c, if_pos hodd, built_tree_get L bw _ (by omega)]
    have : 2 * ((i - 1) / 2) + 2 = i + 1 := by omega
    rw [this]
  · have c : ¬ i = 2 * ((i - 1) / 2) + 1 := by omega
    rw [if_neg c, if_neg hodd, built_tree_get L bw _ (by omega)]
    have : 2 * ((i - 1) / 2) + 1 = i - 1 := by omega
    rw [this]

/-! ## Calling `build_tree` again -/

/-- A tree object that `build_tree(n, b)` returned is initialised with leaf count `n`. -/
theorem build_tree_initialized (t0 : min_depth_binary_tree) (n b : Nat)
    (t : min_depth_binary_tree) (hb : build_tree t0 n b = .returned t) :
    t._initialized = true ∧ t._num_leaf_nodes = n := by
  unfold build_tree at hb
  split at hb
  · next hinit =>
    split at hb
    · cases hb
    · next hn =>
      injection hb with hb
      subst hb
      exact ⟨hinit, (not_not.1 hn).symm⟩
  · split at hb
    · next hn =>
      injection hb with hb
      subst hb
      exact ⟨rfl, hn.symm⟩
    · simp only at hb
      split at hb
      · cases hb
      · injection hb with hb
        subst hb
        exact ⟨rfl, rfl⟩

/-- C6: after a successful `build_tree(n, b)`, a second call with the same leaf count
`n` and any bandwidth returns and leaves the whole object (nodes, leaf count, depth,
initialised flag) as it was; a second call with a leaf count `m ≠ n` ends in the `THROW`,
which names both counts, and leaves the whole object as it was. -/
theorem build_tree_again (t0 : min_depth_binary_tree) (n b : Nat) (t : min_depth_binary_tree)
    (hb : build_tree t0 n b = .returned t) :
    (∀ b2, build_tree t n b2 = .returned t) ∧
    (∀ m b2, m ≠ n → build_tree t m b2 = .threw t m n) := by
  obtain ⟨hinit, hn⟩ := build_tree_initialized t0 n b t hb
  constructor
  · intro b2
    simp [build_tree, hinit, hn]
  · intro m b2 hm
    simp [build_tree, hinit, hn, hm]

/-- C6, at a concrete input: the tree of four leaves, called again with 4 and with 5. -/
theorem build_tree_again_witness :
    build_tree min_depth_binary_tree.empty 4 0 = .returned tree_of_four ∧
    ((∀ b2, build_tree tree_of_four 4 b2 = .returned tree_of_four) ∧
    (∀ m b2, m ≠ 4 → build_tree tree_of_four m b2 = .threw tree_of_four m 4)) :=
  ⟨by decide, build_tree_again min_depth_binary_tree.empty 4 0 tree_of_four (by decide)⟩

/-! ## The example around `learn` and `predict` -/

/-- C7: whenever `offset_tree::learn` returns (any tree, any base learner, any random
source, any label it gets through), the example's label, weight and prediction fields are
what they were before the call, whatever number of levels was processed and whether or
not a node was trained. -/
theorem learn_restores_example {σ F : Type} (ops : float_ops F) (lay : union_layout F)
    (rnd : random_source F) (base : single_learner σ F) (ndebug : Bool)
    (st st1 : learn_state σ F)
    (h : offset_tree.learn ops lay rnd base ndebug st = .ok st1) :
    st1.ec.l = st.ec.l ∧ st1.ec.weight = st.ec.weight ∧ st1.ec.pred = st.ec.pred := by
  unfold offset_tree.learn at h
  simp only at h
  split at h
  · cases h
  · split at h
    · cases h
    · injection h with h
      subst h
      exact ⟨rfl, rfl, rfl⟩

/-- C7, at a concrete input: `learn` on the tree of four leaves with the single-entry
label for action 2; node 1 is trained on the way. -/
theorem learn_restores_example_witness :
    offset_tree.learn micro_ops plain_layout half_source parity_learner true sample_state
      = .ok sample_state_learned ∧
    (sample_state_learned.ot._binary_tree.nodes.map (fun n => n.learn_count)
      = [0, 1, 0, 0, 0, 0, 0]) ∧
    (sample_state_learned.ec.l = sample_state.ec.l ∧
      sample_state_learned.ec.weight = sample_state.ec.weight ∧
      sample_state_learned.ec.pred = sample_state.ec.pred) :=
  ⟨by rfl, by decide,
    learn_restores_example micro_ops plain_layout half_source parity_learner true sample_state
      sample_state_learned (by rfl)⟩

/-- C8, as stated, fails: on the tree of four leaves `predict` returns action 4 with the
scalar of the last base-learner call (`1.0`) in the prediction slot, not with the value the
slot had before the call (`0.25`). -/
theorem predict_overwrites_prediction :
    build_tree min_depth_binary_tree.empty 4 0 = .returned offset_tree_of_four._binary_tree ∧
    offset_tree_of_four.predict micro_ops plain_layout parity_learner 2 scalar_example 0
      = .ok (4, { scalar_example with pred := .scalar 1000000 }, 2) ∧
    ({ scalar_example with pred := .scalar 1000000 } : vw_example Int).pred
      ≠ scalar_example.pred :=
  ⟨by decide, by rfl, by decide⟩

/-! ## The cost of a sibling -/

/-- C9: with frontier trackers `a`, `b` such that `a.node_id ≤ b.node_id`, any `costStar`
and any node `w` of id `x`, `return_cost` yields `0` if `x < a.node_id`, `a.cost` if
`x = a.node_id`, `costStar` if `a.node_id < x < b.node_id`, `b.cost` if `x = b.node_id`
and `x ≠ a.node_id`, and `0` if `x > b.node_id`. -/
theorem return_cost_regions {F : Type} (ops : float_ops F) (ot : offset_tree F) (w : tree_node)
    (hab : ot._a.node_id ≤ ot._b.node_id) :
    (w.id < ot._a.node_id → ot.return_cost ops w = ops.zero) ∧
    (w.id = ot._a.node_id → ot.return_cost ops w = ot._a.cost) ∧
    (ot._a.node_id < w.id → w.id < ot._b.node_id → ot.return_cost ops w = ot._cost_star) ∧
    (w.id = ot._b.node_id → w.id ≠ ot._a.node_id → ot.return_cost ops w = ot._b.cost) ∧
    (ot._b.node_id < w.id → ot.return_cost ops w = ops.zero) := by
  unfold offset_tree.return_cost
  refine ⟨?_, ?_, ?_, ?_, ?_⟩
  · intro h
    rw [if_pos h]
  · intro h
    rw [if_neg (by omega), if_pos h]
  · intro h1 h2
    rw [if_neg (by omega), if_neg (by omega), if_pos h2]
  · intro h1 h2
    rw [if_neg (by omega), if_neg h2, if_neg (by omega), if_pos h1]
  · intro h
    rw [if_neg (by omega), if_neg (by omega), if_neg (by omega), if_neg (by omega)]

/-- C9, at a concrete input: trackers at the leaves 3 and 5 of the tree of four leaves,
asked for the leaf 4 in between. -/
theorem return_cost_regions_witness :
    tracked_offset_tree._a.node_id ≤ tracked_offset_tree._b.node_id ∧
    tracked_offset_tree.return_cost micro_ops (tree_node.make 4 0 0 1 2 false false true)
      = 2000000 ∧
    ((tree_node.make 4 0 0 1 2 false false true).id < tracked_offset_tree._a.node_id →
      tracked_offset_tree.return_cost micro_ops (tree_node.make 4 0 0 1 2 false false true)
        = micro_ops.zero) ∧
    ((tree_node.make 4 0 0 1 2 false false true).id = tracked_offset_tree._a.node_id →
      tracked_offset_tree.return_cost micro_ops (tree_node.make 4 0 0 1 2 false false true)
        = tracked_offset_tree._a.cost) ∧
    (tracked_offset_tree._a.node_id < (tree_node.make 4 0 0 1 2 false false true).id →
      (tree_node.make 4 0 0 1 2 false false true).id < tracked_offset_tree._b.node_id →
      tracked_offset_tree.return_cost micro_ops (tree_node.make 4 0 0 1 2 false false true)
        = tracked_offset_tree._cost_star) ∧
    ((tree_node.make 4 0 0 1 2 false false true).id = tracked_offset_tree._b.node_id →
      (tree_node.make 4 0 0 1 2 false false true).id ≠ tracked_offset_tree._a.node_id →
      tracked_offset_tree.return_cost micro_ops (tree_node.make 4 0 0 1 2 false false true)
        = tracked_offset_tree._b.cost) ∧
    (tracked_offset_tree._b.node_id < (tree_node.make 4 0 0 1 2 false false true).id →
      tracked_offset_tree.return_cost micro_ops (tree_node.make 4 0 0 1 2 false false true)
        = micro_ops.zero) :=
  ⟨by decide, by decide,
    return_cost_regions micro_ops tracked_offset_tree
      (tree_node.make 4 0 0 1 2 false false true) (by decide)⟩

/-! ## The label check of `learn` -/

/-- C10: with assertions compiled in, `init_node_costs` stops at its first assertion,
`assert(ac.size() == 0)`, for every label that has at least one entry, whatever the action
id of the first entry; a label with zero entries gets through that assertion, and the
second one reads `ac[0]` outside the label. -/
theorem init_node_costs_rejects_nonempty {F : Type} (ops : float_ops F) (ot : offset_tree F) :
    (∀ (first : cb_class F) (rest : List (cb_class F)),
      ot.init_node_costs ops false (first :: rest) = .error fault.assertion_failed) ∧
    ot.init_node_costs ops false [] = .error fault.out_of_bounds := by
  constructor
  · intro first rest
    simp [offset_tree.init_node_costs]
  · simp [offset_tree.init_node_costs]

/-! ## Shortcut flags -/

/-- The two flags of node `i ≥ 1` of a built tree when `2 * bandwidth` and the node ids
fit in 32 bits: the formulas of `build_tree`, read over the integers. -/
theorem built_tree_flags (L b i : Nat) (hb : 0 < b) (h2b : 2 * b < 2 ^ 32)
    (hfit : 2 * L - 1 < 2 ^ 32) (h1 : 1 ≤ i) (hi : i < 2 * L - 1) :
    ((level_order_node L b (L - 1) i).right_only = true ↔
      (i : Int) = ((L / (2 * b) : Nat) : Int) - 1) ∧
    ((level_order_node L b (L - 1) i).left_only = true ↔
      (i : Int) = ((L / b : Nat) : Int) - 2) := by
  have hu : u32 (2 * b) = 2 * b := Nat.mod_eq_of_lt h2b
  have hb0 : b ≠ 0 := by omega
  have hi0 : i ≠ 0 := by omega
  have hsmall : L / b = 0 → 2 * L < 2 ^ 32 := by
    intro h0
    have : L < b := by
      by_contra hge
      have := Nat.div_pos (Nat.le_of_not_lt hge) hb
      omega
    omega
  simp only [level_order_node, left_flag, right_flag, hu, wrap_sub, hb0, hi0, ne_eq,
    not_false_eq_true, decide_True, Bool.true_and, decide_eq_true_eq]
  generalize L / (2 * b) = q1
  generalize L / b = q2 at hsmall ⊢
  constructor
  · split
    · omega
    · constructor
      · intro h; omega
      · intro h; omega
  · split
    · omega
    · constructor
      · intro h
        by_cases h0 : q2 = 0
        · have := hsmall h0
          omega
        · omega
      · intro h; omega

/-- C11: after `build_tree(leafCount, bandwidth)` with `leafCount ≥ 1`, node ids and
`2 * bandwidth` fitting in 32 bits: the root has neither flag; with `bandwidth = 0` no
node has either flag; with `bandwidth > 0` a non-root node `i` has `right_only` exactly
when `i = leafCount / (2 * bandwidth) - 1` and `left_only` exactly when
`i = leafCount / bandwidth - 2`, the formulas read over the integers, so that a value
below 0 matches no node. -/
theorem build_tree_shortcut_flags (leafCount bandwidth : Nat) (hL : 1 ≤ leafCount)
    (hfit : 2 * leafCount - 1 < 2 ^ 32) (h2b : 2 * bandwidth < 2 ^ 32)
    (t : min_depth_binary_tree)
    (hb : build_tree min_depth_binary_tree.empty leafCount bandwidth = .returned t) :
    (∀ n, t.nodes[0]? = some n → n.left_only = false ∧ n.right_only = false) ∧
    (bandwidth = 0 → ∀ n ∈ t.nodes, n.left_only = false ∧ n.right_only = false) ∧
    (0 < bandwidth → ∀ (i : Nat) (n : tree_node), 1 ≤ i → t.nodes[i]? = some n →
      (n.right_only = true ↔ (i : Int) = ((leafCount / (2 * bandwidth) : Nat) : Int) - 1) ∧
      (n.left_only = true ↔ (i : Int) = ((leafCount / bandwidth : Nat) : Int) - 2)) := by
  have ht := build_tree_eq leafCount bandwidth hL t hb
  subst ht
  refine ⟨?_, ?_, ?_⟩
  · intro n hn
    rw [built_tree_get leafCount bandwidth 0 (by omega)] at hn
    injection hn with hn
    subst hn
    simp [level_order_node]
  · intro h0 n hn
    obtain ⟨i, hi⟩ := List.getElem?_of_mem hn
    have hlt : i < 2 * leafCount - 1 := by
      by_contra h
      rw [built_tree_get_none leafCount bandwidth i (by omega)] at hi
      cases hi
    rw [built_tree_get leafCount bandwidth i hlt] at hi
    injection hi with hi
    subst hi
    simp [level_order_node, left_flag, right_flag, h0]
  · intro hpos i n h1 hn
    have hlt : i < 2 * leafCount - 1 := by
      by_contra h
      rw [built_tree_get_none leafCount bandwidth i (by omega)] at hn
      cases hn
    rw [built_tree_get leafCount bandwidth i hlt] at hn
    injection hn with hn
    subst hn
    exact built_tree_flags leafCount bandwidth i hpos h2b hfit h1 hlt

/-- C11, at a concrete input: the tree of eight leaves with bandwidth 2, where
`8 / 4 - 1 = 1` and `8 / 2 - 2 = 2`. -/
theorem build_tree_shortcut_flags_witness :
    1 ≤ 8 ∧ 2 * 8 - 1 < 2 ^ 32 ∧ 2 * 2 < 2 ^ 32 ∧
    build_tree min_depth_binary_tree.empty 8 2 = .returned tree_of_eight ∧
    tree_of_eight.nodes.map (fun n => (n.left_only, n.right_only))
      = [(false, false), (false, true), (true, false), (false, false), (false, false),
         (false, false), (false, false), (false, false), (false, false), (false, false),
         (false, false), (false, false), (false, false), (false, false), (false, false)] ∧
    ((∀ n, tree_of_eight.nodes[0]? = some n → n.left_only = false ∧ n.right_only = false) ∧
    (2 = 0 → ∀ n ∈ tree_of_eight.nodes, n.left_only = false ∧ n.right_only = false) ∧
    (0 < 2 → ∀ (i : Nat) (n : tree_node), 1 ≤ i → tree_of_eight.nodes[i]? = some n →
      (n.right_only = true ↔ (i : Int) = ((8 / (2 * 2) : Nat) : Int) - 1) ∧
      (n.left_only = true ↔ (i : Int) = ((8 / 2 : Nat) : Int) - 2))) :=
  ⟨by decide, by decide, by decide, by decide, by decide,
    build_tree_shortcut_flags 8 2 (by decide) (by decide) (by decide) tree_of_eight (by decide)⟩

/-- C18: in a tree built with `leafCount ≥ 1` and `bandwidth > 0`, node ids and
`2 * bandwidth` fitting in 32 bits, no node has both `left_only` and `right_only`; a node
with one of the flags is internal and not the root; at most one node has `right_only` and
at most one has `left_only`.  So `predict`, which tests `right_only` first, never chooses
between two set flags. -/
theorem shortcut_flags_exclusive (leafCount bandwidth : Nat) (hL : 1 ≤ leafCount)
    (hpos : 0 < bandwidth) (hfit : 2 * leafCount - 1 < 2 ^ 32) (h2b : 2 * bandwidth < 2 ^ 32)
    (t : min_depth_binary_tree)
    (hb : build_tree min_depth_binary_tree.empty leafCount bandwidth = .returned t) :
    (∀ n ∈ t.nodes, ¬ (n.left_only = true ∧ n.right_only = true)) ∧
    (∀ (i : Nat) (n : tree_node), t.nodes[i]? = some n →
      n.left_only = true ∨ n.right_only = true → 1 ≤ i ∧ n.id = i ∧ n.is_leaf = false) ∧
    (∀ (i j : Nat) (n m : tree_node), t.nodes[i]? = some n → t.nodes[j]? = some m →
      n.right_only = true → m.right_only = true → i = j) ∧
    (∀ (i j : Nat) (n m : tree_node), t.nodes[i]? = some n → t.nodes[j]? = some m →
      n.left_only = true → m.left_only = true → i = j) := by
  have ht := build_tree_eq leafCount bandwidth hL t hb
  subst ht
  have hget : ∀ (i : Nat) (n : tree_node), (built_tree leafCount bandwidth).nodes[i]? = some n →
      i < 2 * leafCount - 1 ∧ n = level_order_node leafCount bandwidth (leafCount - 1) i := by
    intro i n hn
    have hlt : i < 2 * leafCount - 1 := by
      by_contra h
      rw [built_tree_get_none leafCount bandwidth i (by omega)] at hn
      cases hn
    rw [built_tree_get leafCount bandwidth i hlt] at hn
    injection hn with hn
    exact ⟨hlt, hn.symm⟩
  have hroot : (level_order_node leafCount bandwidth (leafCount - 1) 0).left_only = false ∧
      (level_order_node leafCount bandwidth (leafCount - 1) 0).right_only = false := by
    simp [level_order_node]
  have hq : leafCount / (2 * bandwidth) = leafCount / bandwidth / 2 := by
    rw [Nat.div_div_eq_div_mul, Nat.mul_comm]
  have hqL : leafCount / bandwidth ≤ leafCount := Nat.div_le_self _ _
  have hpos1 : ∀ (i : Nat), i < 2 * leafCount - 1 →
      (level_order_node leafCount bandwidth (leafCount - 1) i).left_only = true ∨
      (level_order_node leafCount bandwidth (leafCount - 1) i).right_only = true → 1 ≤ i := by
    intro i _ h
    by_contra h0
    have : i = 0 := by omega
    subst this
    rw [hroot.1, hroot.2] at h
    simp at h
  refine ⟨?_, ?_, ?_, ?_⟩
  · intro n hn ⟨hl, hr⟩
    obtain ⟨i, hi⟩ := List.getElem?_of_mem hn
    obtain ⟨hlt, rfl⟩ := hget i n hi
    have h1 := hpos1 i hlt (Or.inl hl)
    obtain ⟨fr, fl⟩ := built_tree_flags leafCount bandwidth i hpos h2b hfit h1 hlt
    have e1 := fr.1 hr
    have e2 := fl.1 hl
    rw [hq] at e1
    omega
  · intro i n hi hflag
    obtain ⟨hlt, rfl⟩ := hget i n hi
    have h1 := hpos1 i hlt hflag
    obtain ⟨fr, fl⟩ := built_tree_flags leafCount bandwidth i hpos h2b hfit h1 hlt
    refine ⟨h1, rfl, ?_⟩
    have hint : i < leafCount - 1 := by
      rcases hflag with h | h
      · have e2 := fl.1 h
        omega
      · have e1 := fr.1 h
        rw [hq] at e1
        omega
    simp [level_order_node]
    omega
  · intro i j n m hi hj hn hm
    obtain ⟨hlt, rfl⟩ := hget i n hi
    obtain ⟨hlt2, rfl⟩ := hget j m hj
    have h1 := hpos1 i hlt (Or.inr hn)
    have h2 := hpos1 j hlt2 (Or.inr hm)
    have e1 := (built_tree_flags leafCount bandwidth i hpos h2b hfit h1 hlt).1.1 hn
    have e2 := (built_tree_flags leafCount bandwidth j hpos h2b hfit h2 hlt2).1.1 hm
    omega
  · intro i j n m hi hj hn hm
    obtain ⟨hlt, rfl⟩ := hget i n hi
    obtain ⟨hlt2, rfl⟩ := hget j m hj
    have h1 := hpos1 i hlt (Or.inl hn)
    have h2 := hpos1 j hlt2 (Or.inl hm)
    have e1 := (built_tree_flags leafCount bandwidth i hpos h2b hfit h1 hlt).2.1 hn
    have e2 := (built_tree_flags leafCount bandwidth j hpos h2b hfit h2 hlt2).2.1 hm
    omega

/-- C18, at a concrete input: the tree of eight leaves with bandwidth 2. -/
theorem shortcut_flags_exclusive_witness :
    1 ≤ 8 ∧ 0 < 2 ∧ 2 * 8 - 1 < 2 ^ 32 ∧ 2 * 2 < 2 ^ 32 ∧
    build_tree min_depth_binary_tree.empty 8 2 = .returned tree_of_eight ∧
    ((∀ n ∈ tree_of_eight.nodes, ¬ (n.left_only = true ∧ n.right_only = true)) ∧
    (∀ (i : Nat) (n : tree_node), tree_of_eight.nodes[i]? = some n →
      n.left_only = true ∨ n.right_only = true → 1 ≤ i ∧ n.id = i ∧ n.is_leaf = false) ∧
    (∀ (i j : Nat) (n m : tree_node), tree_of_eight.nodes[i]? = some n →
      tree_of_eight.nodes[j]? = some m → n.right_only = true → m.right_only = true → i = j) ∧
    (∀ (i j : Nat) (n m : tree_node), tree_of_eight.nodes[i]? = some n →
      tree_of_eight.nodes[j]? = some m → n.left_only = true → m.left_only = true → i = j)) :=
  ⟨by decide, by decide, by decide, by decide, by decide,
    shortcut_flags_exclusive 8 2 (by decide) (by decide) (by decide) (by decide) tree_of_eight
      (by decide)⟩

/-! ## The tree of zero leaves -/

/-- What `init_node_costs` returns, when it returns: the trackers at the leaves of the
first and the last entry, and the tree untouched. -/
theorem init_node_costs_ok {F : Type} (ops : float_ops F) (ndebug : Bool) (ot ot1 : offset_tree F)
    (ac : List (cb_class F)) (h : ot.init_node_costs ops ndebug ac = .ok ot1) :
    ∃ first last, ac[0]? = some first ∧ ac[ac.length - 1]? = some last ∧
      ot1 = { ot with
              _cost_star := ops.div first.cost first.probability
              _a := { node_id := wrap_sub (first.action + ot._binary_tree.internal_node_count) 1,
                      cost := ops.div first.cost first.probability }
              _b := { node_id := wrap_sub (last.action + ot._binary_tree.internal_node_count) 1,
                      cost := ops.div first.cost first.probability } } := by
  unfold offset_tree.init_node_costs at h
  split at h
  · cases h
  · split at h
    · cases h
    · next first hfirst =>
      split at h
      · cases h
      · simp only at h
        split at h
        · cases h
        · next last hlast =>
          injection h with h
          exact ⟨first, last, hfirst, hlast, h.symm⟩

/-- With assertions compiled out, `init_node_costs` returns for every label that has an
entry. -/
theorem init_node_costs_returns {F : Type} (ops : float_ops F) (ot : offset_tree F)
    (first : cb_class F) (rest : List (cb_class F)) :
    ot.init_node_costs ops true (first :: rest)
      = .ok { ot with
              _cost_star := ops.div first.cost first.probability
              _a := { node_id := wrap_sub (first.action + ot._binary_tree.internal_node_count) 1,
                      cost := ops.div first.cost first.probability }
              _b := { node_id := wrap_sub (((first :: rest).getLast (by simp)).action
                          + ot._binary_tree.internal_node_count) 1,
                      cost := ops.div first.cost first.probability } } := by
  have hlast : (first :: rest)[(first :: rest).length - 1]?
      = some ((first :: rest).getLast (by simp)) := by
    rw [List.getLast_eq_getElem]
    exact List.getElem?_eq_getElem _
  unfold offset_tree.init_node_costs
  simp only [Bool.not_true, Bool.false_and, Bool.false_eq_true, if_false]
  rw [hlast]
  simp

/-- C12: `build_tree(0, bandwidth)` on a fresh object returns, for every bandwidth, a
tree with zero nodes and `internal_node_count() = 0`.  On that tree `predict` returns 0
for every example with the example and the state of the base learner untouched, whatever
the fuel: the base learner is not consulted.  Whenever `learn` returns on it, the state
of the base learner and the tree with its counters are what they were: no node is
trained; and with assertions compiled out `learn` returns for every label that has an
entry. -/
theorem zero_leaf_tree_is_inert {σ F : Type} (ops : float_ops F) (lay : union_layout F)
    (rnd : random_source F) (base : single_learner σ F) (bandwidth : Nat) :
    ∃ t, build_tree min_depth_binary_tree.empty 0 bandwidth = .returned t ∧
      t.nodes = [] ∧ t.internal_node_count = 0 ∧
      (∀ (ot : offset_tree F) (ec : vw_example F) (s : σ) (fuel : Nat), ot._binary_tree = t →
        ot.predict ops lay base fuel ec s = .ok (0, ec, s)) ∧
      (∀ (ndebug : Bool) (st st1 : learn_state σ F), st.ot._binary_tree = t →
        offset_tree.learn ops lay rnd base ndebug st = .ok st1 →
        st1.base = st.base ∧ st1.ot._binary_tree = t) ∧
      (∀ (st : learn_state σ F) (first : cb_class F) (rest : List (cb_class F)),
        st.ot._binary_tree = t → (st.ec.l.get_cb lay).costs = first :: rest →
        ∃ st1, offset_tree.learn ops lay rnd base true st = .ok st1) := by
  refine ⟨{ min_depth_binary_tree.empty with _num_leaf_nodes := 0, _initialized := true },
    by simp [build_tree, min_depth_binary_tree.empty], rfl, by decide, ?_, ?_, ?_⟩
  · intro ot ec s fuel ht
    simp [offset_tree.predict, ht, min_depth_binary_tree.leaf_node_count]
  · intro ndebug st st1 ht h
    unfold offset_tree.learn at h
    simp only at h
    split at h
    · cases h
    · next ot1 hinit =>
      obtain ⟨first, last, _, _, rfl⟩ := init_node_costs_ok ops ndebug _ _ _ hinit
      simp only [ht, min_depth_binary_tree.depth, learn_levels] at h
      injection h with h
      subst h
      exact ⟨rfl, rfl⟩
  · intro st first rest ht hl
    unfold offset_tree.learn
    simp only [hl, init_node_costs_returns, ht, min_depth_binary_tree.depth, learn_levels]
    exact ⟨_, rfl⟩

/-- C12, at a concrete input: the zero-leaf tree, the sample example and the parity
learner. -/
theorem zero_leaf_tree_is_inert_witness :
    build_tree min_depth_binary_tree.empty 0 5 = .returned state_of_zero.ot._binary_tree ∧
    state_of_zero.ot.predict micro_ops plain_layout parity_learner 0 sample_example 0
      = .ok (0, sample_example, 0) ∧
    (∃ st1, offset_tree.learn micro_ops plain_layout half_source parity_learner true
        state_of_zero = .ok st1 ∧ st1.base = state_of_zero.base ∧
        st1.ot._binary_tree = state_of_zero.ot._binary_tree) ∧
    ∃ t, build_tree min_depth_binary_tree.empty 0 5 = .returned t ∧
      t.nodes = [] ∧ t.internal_node_count = 0 ∧
      (∀ (ot : offset_tree Int) (ec : vw_example Int) (s : Nat) (fuel : Nat),
        ot._binary_tree = t →
        ot.predict micro_ops plain_layout parity_learner fuel ec s = .ok (0, ec, s)) ∧
      (∀ (ndebug : Bool) (st st1 : learn_state Nat Int), st.ot._binary_tree = t →
        offset_tree.learn micro_ops plain_layout half_source parity_learner ndebug st = .ok st1 →
        st1.base = st.base ∧ st1.ot._binary_tree = t) ∧
      (∀ (st : learn_state Nat Int) (first : cb_class Int) (rest : List (cb_class Int)),
        st.ot._binary_tree = t → (st.ec.l.get_cb plain_layout).costs = first :: rest →
        ∃ st1, offset_tree.learn micro_ops plain_layout half_source parity_learner true st
          = .ok st1) :=
  ⟨by decide, by rfl, ⟨_, rfl, rfl, rfl⟩,
    zero_leaf_tree_is_inert micro_ops plain_layout half_source parity_learner 5⟩

/-! ## One pass of the loop body of `learn` -/

/-- The loop body `learn_node` is the composition of its pieces. -/
theorem learn_node_eq {σ F : Type} (ops : float_ops F) (lay : union_layout F)
    (rnd : random_source F) (base : single_learner σ F) (st : learn_state σ F)
    (n_c : node_cost F) :
    learn_node ops lay rnd base st n_c =
      match st.ot._binary_tree.nodes[n_c.node_id]? with
      | none => .error fault.out_of_bounds
      | some v =>
        match st.ot._binary_tree.nodes[v.parent_id]? with
        | none => .error fault.out_of_bounds
        | some v_parent =>
          if v_parent.right_only || v_parent.left_only then .ok (st, none)
          else
            match st.ot._binary_tree.get_sibling v with
            | .error e => .error e
            | .ok w => learn_pair ops lay rnd base st v v_parent w n_c.cost := by
  rfl

/-- The three outcomes of the weight flooring. -/
theorem floor_weight_cases {F : Type} (ops : float_ops F) (rnd : random_source F) (seed : Nat)
    (ec1 : vw_example F) :
    (ops.lt ec1.weight ops.weight_th = false → floor_weight ops rnd seed ec1 = (ec1, false)) ∧
    (ops.lt ec1.weight ops.weight_th = true →
      ops.lt (flooring_draw ops rnd seed) ec1.weight = true →
      floor_weight ops rnd seed ec1 = ({ ec1 with weight := ops.weight_th }, false)) ∧
    (ops.lt ec1.weight ops.weight_th = true →
      ops.lt (flooring_draw ops rnd seed) ec1.weight = false →
      floor_weight ops rnd seed ec1 = (ec1, true)) := by
  refine ⟨?_, ?_, ?_⟩
  · intro h
    simp [floor_weight, h]
  · intro h1 h2
    simp [floor_weight, h1, h2]
  · intro h1 h2
    simp [floor_weight, h1, h2]

/-- The example that leaves the weight flooring unfiltered has a weight that is not below
`weight_th`, or is `weight_th` itself. -/
theorem floor_weight_kept {F : Type} (ops : float_ops F) (rnd : random_source F) (seed : Nat)
    (ec1 : vw_example F) (h : (floor_weight ops rnd seed ec1).2 = false) :
    ops.lt (floor_weight ops rnd seed ec1).1.weight ops.weight_th = false ∨
      (floor_weight ops rnd seed ec1).1.weight = ops.weight_th := by
  obtain ⟨c1, c2, c3⟩ := floor_weight_cases ops rnd seed ec1
  cases h1 : ops.lt ec1.weight ops.weight_th
  · rw [c1 h1]
    exact Or.inl h1
  · cases h2 : ops.lt (flooring_draw ops rnd seed) ec1.weight
    · rw [c3 h1 h2] at h
      cases h
    · rw [c2 h1 h2]
      exact Or.inr rfl

/-- The part of the loop body after the sibling was found, case by case. -/
theorem learn_pair_cases {σ F : Type} (ops : float_ops F) (lay : union_layout F)
    (rnd : random_source F) (base : single_learner σ F) (st : learn_state σ F)
    (v v_parent w : tree_node) (cost_v : F) :
    (ops.eq cost_v (st.ot.return_cost ops w) = true →
      learn_pair ops lay rnd base st v v_parent w cost_v = .ok (st, some cost_v)) ∧
    (ops.eq cost_v (st.ot.return_cost ops w) = false →
      (floor_weight ops rnd st.app_seed (labelled_example ops lay st.ec
        (local_action_of ops v w v_parent cost_v (st.ot.return_cost ops w))
        cost_v (st.ot.return_cost ops w))).2 = false →
      learn_pair ops lay rnd base st v v_parent w cost_v
        = .ok (train_parent ops base st v v_parent
            (floor_weight ops rnd st.app_seed (labelled_example ops lay st.ec
              (local_action_of ops v w v_parent cost_v (st.ot.return_cost ops w))
              cost_v (st.ot.return_cost ops w))).1
            (local_action_of ops v w v_parent cost_v (st.ot.return_cost ops w))
            cost_v (st.ot.return_cost ops w))) ∧
    (ops.eq cost_v (st.ot.return_cost ops w) = false →
      (floor_weight ops rnd st.app_seed (labelled_example ops lay st.ec
        (local_action_of ops v w v_parent cost_v (st.ot.return_cost ops w))
        cost_v (st.ot.return_cost ops w))).2 = true →
      learn_pair ops lay rnd base st v v_parent w cost_v
        = .ok ({ st with ec := (floor_weight ops rnd st.app_seed (labelled_example ops lay st.ec
              (local_action_of ops v w v_parent cost_v (st.ot.return_cost ops w))
              cost_v (st.ot.return_cost ops w))).1 }, some cost_v)) := by
  refine ⟨?_, ?_, ?_⟩
  · intro h
    simp [learn_pair, h]
  · intro h1 h2
    simp [learn_pair, h1, h2]
  · intro h1 h2
    simp [learn_pair, h1, h2]

/-- What one pass of the loop body of `learn` does, when it returns: it looks up
`v = nodes[n_c.node_id]` and the parent of `v`; it leaves the seed, the trackers and
`_cost_star` alone; and either it does not touch the base learner and the tree, or it
trains and predicts once at `v.parent_id`, a node without shortcut flag, on an example
whose weight is not below `weight_th` or is `weight_th` itself, and adds one to the
`learn_count` of that node. -/
theorem learn_node_cases {σ F : Type} (ops : float_ops F) (lay : union_layout F)
    (rnd : random_source F) (base : single_learner σ F) (st st1 : learn_state σ F)
    (n_c : node_cost F) (ocp : Option F)
    (h : learn_node ops lay rnd base st n_c = .ok (st1, ocp)) :
    ∃ v v_parent, st.ot._binary_tree.nodes[n_c.node_id]? = some v ∧
      st.ot._binary_tree.nodes[v.parent_id]? = some v_parent ∧
      st1.app_seed = st.app_seed ∧
      ((st1.base = st.base ∧ st1.ot = st.ot) ∨
       (∃ e : vw_example F,
          (ops.lt e.weight ops.weight_th = false ∨ e.weight = ops.weight_th) ∧
          (v_parent.right_only || v_parent.left_only) = false ∧
          st1.base = (base.predict (base.learn st.base e v.parent_id) e v.parent_id).2 ∧
          st1.ot = { st.ot with _binary_tree := { st.ot._binary_tree with
            nodes := st.ot._binary_tree.nodes.set v.parent_id
              { v_parent with learn_count := v_parent.learn_count + 1 } } })) := by
  rw [learn_node_eq] at h
  split at h
  · cases h
  · next v hv =>
    split at h
    · cases h
    · next v_parent hp =>
      refine ⟨v, v_parent, hv, hp, ?_⟩
      split at h
      · injection h with h
        injection h with h1 h2
        subst h1
        exact ⟨rfl, Or.inl ⟨rfl, rfl⟩⟩
      · next hshort =>
        split at h
        · cases h
        · next w hw =>
          obtain ⟨c1, c2, c3⟩ := learn_pair_cases ops lay rnd base st v v_parent w n_c.cost
          cases he : ops.eq n_c.cost (st.ot.return_cost ops w)
          · cases hf : (floor_weight ops rnd st.app_seed (labelled_example ops lay st.ec
                (local_action_of ops v w v_parent n_c.cost (st.ot.return_cost ops w))
                n_c.cost (st.ot.return_cost ops w))).2
            · rw [c2 he hf] at h
              injection h with h
              injection h with h1 h2
              subst h1
              exact ⟨rfl, Or.inr ⟨_, floor_weight_kept ops rnd _ _ hf, by simpa using hshort,
                rfl, rfl⟩⟩
            · rw [c3 he hf] at h
              injection h with h
              injection h with h1 h2
              subst h1
              exact ⟨rfl, Or.inl ⟨rfl, rfl⟩⟩
          · rw [c1 he] at h
            injection h with h
            injection h with h1 h2
            subst h1
            exact ⟨rfl, Or.inl ⟨rfl, rfl⟩⟩

/-! ## What `learn` hands to the base learner, on any tree -/

/-- One pass of the loop body keeps the seed and every property `Q` of the state of the
base learner that `predict` keeps and that `learn` keeps on examples whose weight is not
below `weight_th` or is `weight_th` itself. -/
theorem learn_node_rely {σ F : Type} (ops : float_ops F) (lay : union_layout F)
    (rnd : random_source F) (base : single_learner σ F) (Q : σ → Prop)
    (hQl : ∀ s (e : vw_example F) p, Q s →
      (ops.lt e.weight ops.weight_th = false ∨ e.weight = ops.weight_th) → Q (base.learn s e p))
    (hQp : ∀ s (e : vw_example F) p, Q s → Q (base.predict s e p).2)
    (st st1 : learn_state σ F) (n_c : node_cost F) (ocp : Option F)
    (h : learn_node ops lay rnd base st n_c = .ok (st1, ocp)) (hq : Q st.base) :
    Q st1.base ∧ st1.app_seed = st.app_seed := by
  obtain ⟨v, v_parent, _, _, hseed, hcase⟩ := learn_node_cases ops lay rnd base st st1 n_c ocp h
  refine ⟨?_, hseed⟩
  rcases hcase with ⟨hb, _⟩ | ⟨e, hw, _, hb, _⟩
  · rw [hb]; exact hq
  · rw [hb]; exact hQp _ _ _ (hQl _ _ _ hq hw)

theorem learn_set_rely {σ F : Type} (ops : float_ops F) (lay : union_layout F)
    (rnd : random_source F) (base : single_learner σ F) (Q : σ → Prop)
    (hQl : ∀ s (e : vw_example F) p, Q s →
      (ops.lt e.weight ops.weight_th = false ∨ e.weight = ops.weight_th) → Q (base.learn s e p))
    (hQp : ∀ s (e : vw_example F) p, Q s → Q (base.predict s e p).2) :
    ∀ (l : List (node_cost F)) (i : Nat) (st st1 : learn_state σ F) (a b a1 b1 : F),
      learn_set ops lay rnd base l i st a b = .ok (st1, a1, b1) → Q st.base →
      Q st1.base ∧ st1.app_seed = st.app_seed := by
  intro l
  induction l with
  | nil =>
    intro i st st1 a b a1 b1 h hq
    simp only [learn_set] at h
    injection h with h
    injection h with h1 h2
    subst h1
    exact ⟨hq, rfl⟩
  | cons n_c rest ih =>
    intro i st st1 a b a1 b1 h hq
    rw [learn_set] at h
    split at h
    · cases h
    · next st2 hn =>
      obtain ⟨hq2, hs2⟩ := learn_node_rely ops lay rnd base Q hQl hQp st st2 n_c none hn hq
      obtain ⟨hq3, hs3⟩ := ih _ _ _ _ _ _ _ h hq2
      exact ⟨hq3, hs3.trans hs2⟩
    · next st2 cp hn =>
      obtain ⟨hq2, hs2⟩ := learn_node_rely ops lay rnd base Q hQl hQp st st2 n_c (some cp) hn hq
      split at h
      · obtain ⟨hq3, hs3⟩ := ih _ _ _ _ _ _ _ h hq2
        exact ⟨hq3, hs3.trans hs2⟩
      · obtain ⟨hq3, hs3⟩ := ih _ _ _ _ _ _ _ h hq2
        exact ⟨hq3, hs3.trans hs2⟩

theorem learn_level_rely {σ F : Type} (ops : float_ops F) (lay : union_layout F)
    (rnd : random_source F) (base : single_learner σ F) (Q : σ → Prop)
    (hQl : ∀ s (e : vw_example F) p, Q s →
      (ops.lt e.weight ops.weight_th = false ∨ e.weight = ops.weight_th) → Q (base.learn s e p))
    (hQp : ∀ s (e : vw_example F) p, Q s → Q (base.predict s e p).2)
    (st st1 : learn_state σ F)
    (h : learn_level ops lay rnd base st = .ok st1) (hq : Q st.base) :
    Q st1.base ∧ st1.app_seed = st.app_seed := by
  unfold learn_level at h
  simp only at h
  split at h
  · split at h
    · cases h
    · next st2 a1 b1 hset =>
      obtain ⟨hq2, hs2⟩ := learn_set_rely ops lay rnd base Q hQl hQp _ _ _ _ _ _ _ _ hset hq
      split at h
      · injection h with h
        subst h
        exact ⟨hq2, hs2⟩
      · cases h
  · cases h

theorem learn_levels_rely {σ F : Type} (ops : float_ops F) (lay : union_layout F)
    (rnd : random_source F) (base : single_learner σ F) (Q : σ → Prop)
    (hQl : ∀ s (e : vw_example F) p, Q s →
      (ops.lt e.weight ops.weight_th = false ∨ e.weight = ops.weight_th) → Q (base.learn s e p))
    (hQp : ∀ s (e : vw_example F) p, Q s → Q (base.predict s e p).2) :
    ∀ (d : Nat) (st st1 : learn_state σ F),
      learn_levels ops lay rnd base d st = .ok st1 → Q st.base →
      Q st1.base ∧ st1.app_seed = st.app_seed := by
  intro d
  induction d with
  | zero =>
    intro st st1 h hq
    simp only [learn_levels] at h
    injection h with h
    subst h
    exact ⟨hq, rfl⟩
  | succ d ih =>
    intro st st1 h hq
    rw [learn_levels] at h
    split at h
    · cases h
    · next st2 hl =>
      obtain ⟨hq2, hs2⟩ := learn_level_rely ops lay rnd base Q hQl hQp st st2 hl hq
      obtain ⟨hq3, hs3⟩ := ih st2 st1 h hq2
      exact ⟨hq3, hs3.trans hs2⟩

/-- A whole call of `learn`, when it returns, keeps the seed and every property of the
state of the base learner that the calls it can make keep. -/
theorem learn_rely {σ F : Type} (ops : float_ops F) (lay : union_layout F)
    (rnd : random_source F) (base : single_learner σ F) (Q : σ → Prop)
    (hQl : ∀ s (e : vw_example F) p, Q s →
      (ops.lt e.weight ops.weight_th = false ∨ e.weight = ops.weight_th) → Q (base.learn s e p))
    (hQp : ∀ s (e : vw_example F) p, Q s → Q (base.predict s e p).2)
    (ndebug : Bool) (st st1 : learn_state σ F)
    (h : offset_tree.learn ops lay rnd base ndebug st = .ok st1) (hq : Q st.base) :
    Q st1.base ∧ st1.app_seed = st.app_seed := by
  unfold offset_tree.learn at h
  simp only at h
  split at h
  · cases h
  · next ot1 hinit =>
    split at h
    · cases h
    · next st2 hl =>
      injection h with h
      subst h
      have := learn_levels_rely ops lay rnd base Q hQl hQp _ { st with ot := ot1 } st2 hl hq
      exact this

/-! ## Weight flooring -/

/-- The training step: one `learn` and one `predict` at `v.parent_id` on the example
`e`, and one more on the `learn_count` of that node. -/
theorem train_parent_result {σ F : Type} (ops : float_ops F) (base : single_learner σ F)
    (st : learn_state σ F) (v v_parent : tree_node) (e : vw_example F) (la cv cw : F) :
    ∃ (st1 : learn_state σ F) (cp : F),
      train_parent ops base st v v_parent e la cv cw = (st1, some cp) ∧
      st1.base = (base.predict (base.learn st.base e v.parent_id) e v.parent_id).2 ∧
      st1.ot._binary_tree.nodes = st.ot._binary_tree.nodes.set v.parent_id
        { v_parent with learn_count := v_parent.learn_count + 1 } :=
  ⟨_, _, rfl, rfl, rfl⟩

/-- The loop body at a parent without shortcut flag whose children have different costs:
with `w0 = abs(cost_v - cost_w)` and `r = flooring_draw app_seed`, the parent is trained
on an example of weight `w0` when `w0` is not below `weight_th`, on an example of weight
`weight_th` when `w0 < weight_th` and `r < w0`, and not at all when `w0 < weight_th` and
not `r < w0`; in the last case the cost handed up is `cost_v`. -/
theorem learn_node_flooring {σ F : Type} (ops : float_ops F) (lay : union_layout F)
    (rnd : random_source F) (base : single_learner σ F) (st : learn_state σ F)
    (n_c : node_cost F) (v v_parent w : tree_node)
    (hv : st.ot._binary_tree.nodes[n_c.node_id]? = some v)
    (hp : st.ot._binary_tree.nodes[v.parent_id]? = some v_parent)
    (hshort : (v_parent.right_only || v_parent.left_only) = false)
    (hw : st.ot._binary_tree.get_sibling v = .ok w)
    (hne : ops.eq n_c.cost (st.ot.return_cost ops w) = false) :
    (ops.lt (ops.abs (ops.sub n_c.cost (st.ot.return_cost ops w))) ops.weight_th = false →
      ∃ (e : vw_example F) (st1 : learn_state σ F) (cp : F),
        e.weight = ops.abs (ops.sub n_c.cost (st.ot.return_cost ops w)) ∧
        learn_node ops lay rnd base st n_c = .ok (st1, some cp) ∧
        st1.base = (base.predict (base.learn st.base e v.parent_id) e v.parent_id).2 ∧
        st1.ot._binary_tree.nodes = st.ot._binary_tree.nodes.set v.parent_id
          { v_parent with learn_count := v_parent.learn_count + 1 }) ∧
    (ops.lt (ops.abs (ops.sub n_c.cost (st.ot.return_cost ops w))) ops.weight_th = true →
      ops.lt (flooring_draw ops rnd st.app_seed)
        (ops.abs (ops.sub n_c.cost (st.ot.return_cost ops w))) = true →
      ∃ (e : vw_example F) (st1 : learn_state σ F) (cp : F),
        e.weight = ops.weight_th ∧
        learn_node ops lay rnd base st n_c = .ok (st1, some cp) ∧
        st1.base = (base.predict (base.learn st.base e v.parent_id) e v.parent_id).2 ∧
        st1.ot._binary_tree.nodes = st.ot._binary_tree.nodes.set v.parent_id
          { v_parent with learn_count := v_parent.learn_count + 1 }) ∧
    (ops.lt (ops.abs (ops.sub n_c.cost (st.ot.return_cost ops w))) ops.weight_th = true →
      ops.lt (flooring_draw ops rnd st.app_seed)
        (ops.abs (ops.sub n_c.cost (st.ot.return_cost ops w))) = false →
      ∃ st1 : learn_state σ F,
        learn_node ops lay rnd base st n_c = .ok (st1, some n_c.cost) ∧
        st1.base = st.base ∧ st1.ot = st.ot) := by
  have hnode : learn_node ops lay rnd base st n_c
      = learn_pair ops lay rnd base st v v_parent w n_c.cost := by
    rw [learn_node_eq, hv]
    simp only [hp, hshort, hw, Bool.false_eq_true, if_false]
  obtain ⟨_, c2, c3⟩ := learn_pair_cases ops lay rnd base st v v_parent w n_c.cost
  obtain ⟨f1, f2, f3⟩ := floor_weight_cases ops rnd st.app_seed
    (labelled_example ops lay st.ec
      (local_action_of ops v w v_parent n_c.cost (st.ot.return_cost ops w))
      n_c.cost (st.ot.return_cost ops w))
  have hwt : (labelled_example ops lay st.ec
      (local_action_of ops v w v_parent n_c.cost (st.ot.return_cost ops w))
      n_c.cost (st.ot.return_cost ops w)).weight
      = ops.abs (ops.sub n_c.cost (st.ot.return_cost ops w)) := rfl
  rw [hwt] at f1 f2 f3
  refine ⟨?_, ?_, ?_⟩
  · intro h1
    have hf := f1 h1
    obtain ⟨st1, cp, e1, e2, e3⟩ := train_parent_result ops base st v v_parent
      (labelled_example ops lay st.ec
        (local_action_of ops v w v_parent n_c.cost (st.ot.return_cost ops w))
        n_c.cost (st.ot.return_cost ops w))
      (local_action_of ops v w v_parent n_c.cost (st.ot.return_cost ops w))
      n_c.cost (st.ot.return_cost ops w)
    refine ⟨_, st1, cp, hwt, ?_, e2, e3⟩
    rw [hnode, c2 hne (by rw [hf]), hf, e1]
  · intro h1 h2
    have hf := f2 h1 h2
    obtain ⟨st1, cp, e1, e2, e3⟩ := train_parent_result ops base st v v_parent
      { (labelled_example ops lay st.ec
        (local_action_of ops v w v_parent n_c.cost (st.ot.return_cost ops w))
        n_c.cost (st.ot.return_cost ops w)) with weight := ops.weight_th }
      (local_action_of ops v w v_parent n_c.cost (st.ot.return_cost ops w))
      n_c.cost (st.ot.return_cost ops w)
    refine ⟨_, st1, cp, rfl, ?_, e2, e3⟩
    rw [hnode, c2 hne (by rw [hf]), hf, e1]
  · intro h1 h2
    have hf := f3 h1 h2
    refine ⟨{ st with ec := (labelled_example ops lay st.ec
        (local_action_of ops v w v_parent n_c.cost (st.ot.return_cost ops w))
        n_c.cost (st.ot.return_cost ops w)) }, ?_, rfl, rfl⟩
    rw [hnode, c3 hne (by rw [hf]), hf]

/-- A logging base learner keeps "the log is the old log followed by calls that satisfy
`P`" whenever the call made satisfies `P`. -/
theorem logged_extends {σ F : Type} (base : single_learner σ F) (log0 : List (base_call F))
    (P : base_call F → Prop) :
    (∀ (s : σ × List (base_call F)) (e : vw_example F) (p : Nat),
      (∃ ext, s.2 = log0 ++ ext ∧ ∀ c ∈ ext, P c) →
      P { is_learn := true, node_id := p, ec := e } →
      ∃ ext, ((logged base).learn s e p).2 = log0 ++ ext ∧ ∀ c ∈ ext, P c) ∧
    (∀ (s : σ × List (base_call F)) (e : vw_example F) (p : Nat),
      (∃ ext, s.2 = log0 ++ ext ∧ ∀ c ∈ ext, P c) →
      P { is_learn := false, node_id := p, ec := e } →
      ∃ ext, ((logged base).predict s e p).2.2 = log0 ++ ext ∧ ∀ c ∈ ext, P c) := by
  constructor
  · rintro s e p ⟨ext, h1, h2⟩ hP
    refine ⟨ext ++ [{ is_learn := true, node_id := p, ec := e }], ?_, ?_⟩
    · simp [logged, h1]
    · intro c hc
      rcases List.mem_append.1 hc with h | h
      · exact h2 c h
      · rw [List.mem_singleton.1 h]; exact hP
  · rintro s e p ⟨ext, h1, h2⟩ hP
    refine ⟨ext ++ [{ is_learn := false, node_id := p, ec := e }], ?_, ?_⟩
    · simp [logged, h1]
    · intro c hc
      rcases List.mem_append.1 hc with h | h
      · exact h2 c h
      · rw [List.mem_singleton.1 h]; exact hP

/-- C16, amended: in `learn`, at a parent without shortcut flag whose children have costs
with `cost_v != cost_w`, let `w0 = abs(cost_v - cost_w)` and `r` the draw
`flooring_draw app_seed`.  If `w0` is not below `weight_th` (it is `>= weight_th`, or a
NaN) the parent is trained on an example of weight exactly `w0`; if `w0 < weight_th` and
`r < w0` it is trained on an example of weight exactly `weight_th`; if `w0 < weight_th`
and not `r < w0` it is not trained, the base learner and the tree with its counters stay
as they were and the cost handed up is `cost_v`.  Hence, `<` being irreflexive at
`weight_th`, no `learn` call that a whole run of `offset_tree::learn`, or any number of
levels of its sweep from any state of the trackers, makes to the base learner carries a
weight below `weight_th`: the weight is `>= weight_th`, or no comparison orders it with
`weight_th` (a NaN). -/
theorem weight_flooring {σ F : Type} (ops : float_ops F) (lay : union_layout F)
    (rnd : random_source F) (base : single_learner σ F)
    (hirr : ops.lt ops.weight_th ops.weight_th = false)
    (st : learn_state σ F) (n_c : node_cost F) (v v_parent w : tree_node)
    (hv : st.ot._binary_tree.nodes[n_c.node_id]? = some v)
    (hp : st.ot._binary_tree.nodes[v.parent_id]? = some v_parent)
    (hshort : (v_parent.right_only || v_parent.left_only) = false)
    (hw : st.ot._binary_tree.get_sibling v = .ok w)
    (hne : ops.eq n_c.cost (st.ot.return_cost ops w) = false) :
    (ops.lt (ops.abs (ops.sub n_c.cost (st.ot.return_cost ops w))) ops.weight_th = false →
      ∃ (e : vw_example F) (st1 : learn_state σ F) (cp : F),
        e.weight = ops.abs (ops.sub n_c.cost (st.ot.return_cost ops w)) ∧
        learn_node ops lay rnd base st n_c = .ok (st1, some cp) ∧
        st1.base = (base.predict (base.learn st.base e v.parent_id) e v.parent_id).2 ∧
        st1.ot._binary_tree.nodes = st.ot._binary_tree.nodes.set v.parent_id
          { v_parent with learn_count := v_parent.learn_count + 1 }) ∧
    (ops.lt (ops.abs (ops.sub n_c.cost (st.ot.return_cost ops w))) ops.weight_th = true →
      ops.lt (flooring_draw ops rnd st.app_seed)
        (ops.abs (ops.sub n_c.cost (st.ot.return_cost ops w))) = true →
      ∃ (e : vw_example F) (st1 : learn_state σ F) (cp : F),
        e.weight = ops.weight_th ∧
        learn_node ops lay rnd base st n_c = .ok (st1, some cp) ∧
        st1.base = (base.predict (base.learn st.base e v.parent_id) e v.parent_id).2 ∧
        st1.ot._binary_tree.nodes = st.ot._binary_tree.nodes.set v.parent_id
          { v_parent with learn_count := v_parent.learn_count + 1 }) ∧
    (ops.lt (ops.abs (ops.sub n_c.cost (st.ot.return_cost ops w))) ops.weight_th = true →
      ops.lt (flooring_draw ops rnd st.app_seed)
        (ops.abs (ops.sub n_c.cost (st.ot.return_cost ops w))) = false →
      ∃ st1 : learn_state σ F,
        learn_node ops lay rnd base st n_c = .ok (st1, some n_c.cost) ∧
        st1.base = st.base ∧ st1.ot = st.ot) ∧
    (∀ (ndebug : Bool) (sl sl1 : learn_state (σ × List (base_call F)) F),
      offset_tree.learn ops lay rnd (logged base) ndebug sl = .ok sl1 →
      ∃ ext, sl1.base.2 = sl.base.2 ++ ext ∧
        ∀ c ∈ ext, c.is_learn = true →
          ops.lt c.ec.weight ops.weight_th = false ∧
          (ops.ge c.ec.weight ops.weight_th = true ∨
            ops.unordered c.ec.weight ops.weight_th = true)) ∧
    (∀ (d : Nat) (sl sl1 : learn_state (σ × List (base_call F)) F),
      learn_levels ops lay rnd (logged base) d sl = .ok sl1 →
      ∃ ext, sl1.base.2 = sl.base.2 ++ ext ∧
        ∀ c ∈ ext, c.is_learn = true →
          ops.lt c.ec.weight ops.weight_th = false ∧
          (ops.ge c.ec.weight ops.weight_th = true ∨
            ops.unordered c.ec.weight ops.weight_th = true)) := by
  obtain ⟨c1, c2, c3⟩ := learn_node_flooring ops lay rnd base st n_c v v_parent w hv hp hshort
    hw hne
  have hcmp : ∀ x : F, ops.lt x ops.weight_th = false →
      ops.lt x ops.weight_th = false ∧
        (ops.ge x ops.weight_th = true ∨ ops.unordered x ops.weight_th = true) := by
    intro x hlt
    refine ⟨hlt, ?_⟩
    unfold float_ops.ge float_ops.unordered
    rw [hlt]
    cases ops.lt ops.weight_th x <;> cases ops.eq x ops.weight_th <;> simp
  have hQl : ∀ (log0 : List (base_call F)) (s : σ × List (base_call F)) (e : vw_example F)
      (p : Nat),
      (∃ ext, s.2 = log0 ++ ext ∧
        ∀ c ∈ ext, c.is_learn = true → ops.lt c.ec.weight ops.weight_th = false) →
      (ops.lt e.weight ops.weight_th = false ∨ e.weight = ops.weight_th) →
      ∃ ext, ((logged base).learn s e p).2 = log0 ++ ext ∧
        ∀ c ∈ ext, c.is_learn = true → ops.lt c.ec.weight ops.weight_th = false := by
    intro log0 s e p hq hwt
    refine (logged_extends base log0
      (fun c => c.is_learn = true → ops.lt c.ec.weight ops.weight_th = false)).1 s e p hq ?_
    intro _
    rcases hwt with hwt | hwt
    · exact hwt
    · show ops.lt e.weight ops.weight_th = false
      rw [hwt]; exact hirr
  have hQp : ∀ (log0 : List (base_call F)) (s : σ × List (base_call F)) (e : vw_example F)
      (p : Nat),
      (∃ ext, s.2 = log0 ++ ext ∧
        ∀ c ∈ ext, c.is_learn = true → ops.lt c.ec.weight ops.weight_th = false) →
      ∃ ext, ((logged base).predict s e p).2.2 = log0 ++ ext ∧
        ∀ c ∈ ext, c.is_learn = true → ops.lt c.ec.weight ops.weight_th = false := by
    intro log0 s e p hq
    exact (logged_extends base log0
      (fun c => c.is_learn = true → ops.lt c.ec.weight ops.weight_th = false)).2 s e p hq
      (by intro hc; cases hc)
  refine ⟨c1, c2, c3, ?_, ?_⟩
  · intro ndebug sl sl1 h
    obtain ⟨ext, e1, e2⟩ := (learn_rely ops lay rnd (logged base)
      (fun s => ∃ ext, s.2 = sl.base.2 ++ ext ∧
        ∀ c ∈ ext, c.is_learn = true → ops.lt c.ec.weight ops.weight_th = false)
      (hQl sl.base.2) (hQp sl.base.2) ndebug sl sl1 h ⟨[], by simp, by simp⟩).1
    exact ⟨ext, e1, fun c hc hl => hcmp _ (e2 c hc hl)⟩
  · intro d sl sl1 h
    obtain ⟨ext, e1, e2⟩ := (learn_levels_rely ops lay rnd (logged base)
      (fun s => ∃ ext, s.2 = sl.base.2 ++ ext ∧
        ∀ c ∈ ext, c.is_learn = true → ops.lt c.ec.weight ops.weight_th = false)
      (hQl sl.base.2) (hQp sl.base.2) d sl sl1 h ⟨[], by simp, by simp⟩).1
    exact ⟨ext, e1, fun c hc hl => hcmp _ (e2 c hc hl)⟩

/-- C16, at a concrete input: the tree of four leaves with both trackers at leaf 4 and
the cost `0.000005`; the sibling leaf 3 costs 0, so `w0 = 0.000005 < weight_th`; the draw
is `0.5 * weight_th = 0.000005`, not below `w0`: node 1 is not trained. -/
theorem weight_flooring_witness :
    micro_ops.lt micro_ops.weight_th micro_ops.weight_th = false ∧
    state_small_gap.ot._binary_tree.nodes[state_small_gap.ot._a.node_id]?
      = some (tree_node.make 4 0 0 1 2 false false true) ∧
    state_small_gap.ot._binary_tree.nodes[(tree_node.make 4 0 0 1 2 false false true).parent_id]?
      = some { tree_node.make 1 3 4 0 1 false false false with learn_count := 0 } ∧
    ((tree_node.make 1 3 4 0 1 false false false).right_only
      || (tree_node.make 1 3 4 0 1 false false false).left_only) = false ∧
    state_small_gap.ot._binary_tree.get_sibling (tree_node.make 4 0 0 1 2 false false true)
      = .ok (tree_node.make 3 0 0 1 2 false false true) ∧
    micro_ops.eq state_small_gap.ot._a.cost
      (state_small_gap.ot.return_cost micro_ops (tree_node.make 3 0 0 1 2 false false true))
      = false ∧
    micro_ops.lt (micro_ops.abs (micro_ops.sub state_small_gap.ot._a.cost
      (state_small_gap.ot.return_cost micro_ops (tree_node.make 3 0 0 1 2 false false true))))
      micro_ops.weight_th = true ∧
    micro_ops.lt (flooring_draw micro_ops half_source state_small_gap.app_seed)
      (micro_ops.abs (micro_ops.sub state_small_gap.ot._a.cost
        (state_small_gap.ot.return_cost micro_ops (tree_node.make 3 0 0 1 2 false false true))))
      = false ∧
    ∃ st1 : learn_state Nat Int,
      learn_node micro_ops plain_layout half_source parity_learner state_small_gap
        state_small_gap.ot._a = .ok (st1, some state_small_gap.ot._a.cost) ∧
      st1.base = state_small_gap.base ∧ st1.ot = state_small_gap.ot :=
  ⟨by decide, by decide, by decide, by decide, by rfl, by decide, by decide, by decide,
    (weight_flooring micro_ops plain_layout half_source parity_learner (by decide)
      state_small_gap state_small_gap.ot._a (tree_node.make 4 0 0 1 2 false false true)
      (tree_node.make 1 3 4 0 1 false false false) (tree_node.make 3 0 0 1 2 false false true)
      (by decide) (by decide) (by decide) (by rfl) (by decide)).2.2.1 (by decide) (by decide)⟩

/-- C16, as stated, fails: on the tree of four leaves, `learn` on the single-entry label
`(action = 2, cost = 0.0, probability = 0.0)` computes the cost `0 / 0`, a NaN; the weight
`abs(NaN - 0)` is a NaN, `NaN < weight_th` is false, so the flooring is skipped and the
base learner is trained at node 1 (and then at node 0) on an example whose weight is a
NaN, which is not `>= weight_th`. -/
theorem learn_trains_with_nan_weight :
    build_tree min_depth_binary_tree.empty 4 0 = .returned state_of_nan.ot._binary_tree ∧
    nan_ops.div (some 0) (some 0) = none ∧
    (∃ st1, offset_tree.learn nan_ops nan_layout nan_half_source (logged nan_parity_learner)
        true state_of_nan = .ok st1 ∧
      st1.base.2.map (fun c => (c.is_learn, c.node_id, c.ec.weight)) = calls_of_nan) ∧
    calls_of_nan = [(true, 1, none), (false, 1, none), (true, 0, none), (false, 0, none)] ∧
    nan_ops.ge none nan_ops.weight_th = false ∧
    nan_ops.lt none nan_ops.weight_th = false :=
  ⟨by decide, by decide, ⟨_, by rfl, by rfl⟩, by rfl, by decide, by decide⟩

/-! ## The seed -/

/-- C20: `offset_tree::learn` never writes `app_seed`: the seed after one pass of the
loop body, after any number of levels and after the whole call is the seed before.  The
draw of a flooring decision is `flooring_draw app_seed`, a function of the seed alone, so
two decisions made under the same seed use the same draw; and at a parent without
shortcut flag with `cost_v != cost_w` and `w0 = abs(cost_v - cost_w) < weight_th`, the
parent is trained (with weight `weight_th`) when that draw is below `w0` and is not
trained when it is not. -/
theorem flooring_draw_from_seed_only {σ F : Type} (ops : float_ops F) (lay : union_layout F)
    (rnd : random_source F) (base : single_learner σ F) :
    (∀ (ndebug : Bool) (st st1 : learn_state σ F),
      offset_tree.learn ops lay rnd base ndebug st = .ok st1 → st1.app_seed = st.app_seed) ∧
    (∀ (d : Nat) (st st1 : learn_state σ F),
      learn_levels ops lay rnd base d st = .ok st1 → st1.app_seed = st.app_seed) ∧
    (∀ (st st1 : learn_state σ F) (n_c : node_cost F) (ocp : Option F),
      learn_node ops lay rnd base st n_c = .ok (st1, ocp) → st1.app_seed = st.app_seed) ∧
    (∀ (st st2 : learn_state σ F), st.app_seed = st2.app_seed →
      flooring_draw ops rnd st.app_seed = flooring_draw ops rnd st2.app_seed) ∧
    (∀ (st : learn_state σ F) (n_c : node_cost F) (v v_parent w : tree_node),
      st.ot._binary_tree.nodes[n_c.node_id]? = some v →
      st.ot._binary_tree.nodes[v.parent_id]? = some v_parent →
      (v_parent.right_only || v_parent.left_only) = false →
      st.ot._binary_tree.get_sibling v = .ok w →
      ops.eq n_c.cost (st.ot.return_cost ops w) = false →
      ops.lt (ops.abs (ops.sub n_c.cost (st.ot.return_cost ops w))) ops.weight_th = true →
      (ops.lt (flooring_draw ops rnd st.app_seed)
          (ops.abs (ops.sub n_c.cost (st.ot.return_cost ops w))) = true →
        ∃ (e : vw_example F) (st1 : learn_state σ F) (cp : F),
          e.weight = ops.weight_th ∧
          learn_node ops lay rnd base st n_c = .ok (st1, some cp) ∧
          st1.base = (base.predict (base.learn st.base e v.parent_id) e v.parent_id).2 ∧
          st1.ot._binary_tree.nodes = st.ot._binary_tree.nodes.set v.parent_id
            { v_parent with learn_count := v_parent.learn_count + 1 }) ∧
      (ops.lt (flooring_draw ops rnd st.app_seed)
          (ops.abs (ops.sub n_c.cost (st.ot.return_cost ops w))) = false →
        ∃ st1 : learn_state σ F,
          learn_node ops lay rnd base st n_c = .ok (st1, some n_c.cost) ∧
          st1.base = st.base ∧ st1.ot = st.ot)) := by
  refine ⟨?_, ?_, ?_, ?_, ?_⟩
  · intro ndebug st st1 h
    exact (learn_rely ops lay rnd base (fun _ => True) (fun _ _ _ _ _ => trivial)
      (fun _ _ _ _ => trivial) ndebug st st1 h trivial).2
  · intro d st st1 h
    exact (learn_levels_rely ops lay rnd base (fun _ => True) (fun _ _ _ _ _ => trivial)
      (fun _ _ _ _ => trivial) d st st1 h trivial).2
  · intro st st1 n_c ocp h
    exact (learn_node_rely ops lay rnd base (fun _ => True) (fun _ _ _ _ _ => trivial)
      (fun _ _ _ _ => trivial) st st1 n_c ocp h trivial).2
  · intro st st2 h
    rw [h]
  · intro st n_c v v_parent w hv hp hshort hw hne hlt
    obtain ⟨_, c2, c3⟩ := learn_node_flooring ops lay rnd base st n_c v v_parent w hv hp hshort
      hw hne
    exact ⟨c2 hlt, c3 hlt⟩

/-- C20, at a concrete input: the seed 42 of the sample state is still there after
`learn`, and on `state_small_gap` the draw `flooring_draw 42 = 0.000005` decides that
node 1 is not trained. -/
theorem flooring_draw_from_seed_only_witness :
    offset_tree.learn micro_ops plain_layout half_source parity_learner true sample_state
      = .ok sample_state_learned ∧
    sample_state_learned.app_seed = sample_state.app_seed ∧
    flooring_draw micro_ops half_source 42 = 5 :=
  ⟨by rfl,
    (flooring_draw_from_seed_only micro_ops plain_layout half_source parity_learner).1 true
      sample_state sample_state_learned (by rfl),
    by decide⟩

/-! ## Leaves above the last level -/

/-- When `sibling_argument` names a node `v`, the loop body goes on with the call
`get_sibling(v)`. -/
theorem learn_node_of_sibling_argument {σ F : Type} (ops : float_ops F) (lay : union_layout F)
    (rnd : random_source F) (base : single_learner σ F) (st : learn_state σ F)
    (n_c : node_cost F) (v : tree_node) (h : sibling_argument st n_c = some v) :
    ∃ v_parent, st.ot._binary_tree.nodes[v.parent_id]? = some v_parent ∧
      learn_node ops lay rnd base st n_c =
        match st.ot._binary_tree.get_sibling v with
        | .error e => .error e
        | .ok w => learn_pair ops lay rnd base st v v_parent w n_c.cost := by
  unfold sibling_argument at h
  split at h
  · cases h
  · next v0 hv =>
    split at h
    · cases h
    · next v_parent hp =>
      split at h
      · cases h
      · next hshort =>
        injection h with h
        subst h
        refine ⟨v_parent, hp, ?_⟩
        rw [learn_node_eq, hv]
        simp only [hp, hshort, Bool.false_eq_true, if_false]

/-- C13: on the tree built with `leafCount = 3` and the single-entry label for action 1,
whose leaf (node 2) lies one level above the deepest leaves, the tracker `a` is at the
root after the first of the `depth() = 2` levels, and the second level reaches the call
`get_sibling(v)` with `v = nodes[0]`, the root. -/
theorem learn_calls_get_sibling_on_root :
    build_tree min_depth_binary_tree.empty 3 0 = .returned state_of_three.ot._binary_tree ∧
    state_of_three.ot._binary_tree.depth = 2 ∧
    state_of_three.ot.init_node_costs micro_ops true
      (state_of_three.ec.l.get_cb plain_layout).costs = .ok state_of_three_start.ot ∧
    state_of_three_start.ot._a.node_id = 2 ∧
    learn_levels micro_ops plain_layout half_source parity_learner 1 state_of_three_start
      = .ok state_of_three_mid ∧
    state_of_three_mid.ot._a.node_id = 0 ∧
    sibling_argument state_of_three_mid state_of_three_mid.ot._a
      = some { tree_node.make 0 1 2 0 0 false false false with learn_count := 1 } ∧
    state_of_three_mid.ot._binary_tree.nodes[0]?
      = some { tree_node.make 0 1 2 0 0 false false false with learn_count := 1 } :=
  ⟨by decide, by decide, by rfl, by decide, by rfl, by decide, by decide, by decide⟩

/-- C15: one call of `learn` on the tree built with `leafCount = 3`, with the
single-entry label for action 1 and the parity learner, trains the root twice: its
`learn_count` goes from 0 to 2, and the base learner sees `learn` at node 0 twice. -/
theorem learn_trains_root_twice :
    build_tree min_depth_binary_tree.empty 3 0 = .returned state_of_three.ot._binary_tree ∧
    offset_tree.learn micro_ops plain_layout half_source parity_learner true state_of_three
      = .ok state_of_three_learned ∧
    state_of_three.ot._binary_tree.nodes.map (fun n => n.learn_count) = [0, 0, 0, 0, 0] ∧
    state_of_three_learned.ot._binary_tree.nodes.map (fun n => n.learn_count) = [2, 0, 0, 0, 0] ∧
    calls_of_three = [(true, 0), (false, 0), (true, 0), (false, 0)] :=
  ⟨by decide, by rfl, by decide, by decide, by decide⟩

/-! ## A built tree with any counters -/

theorem counted_length (L bw : Nat) (ns : List tree_node) (h : counted L bw ns) :
    ns.length = 2 * L - 1 := by
  have := congrArg List.length h
  simpa [built_tree] using this

/-- The entry `k` of a counted node list: the level-order node, with some counter. -/
theorem counted_get (L bw : Nat) (ns : List tree_node) (h : counted L bw ns) (k : Nat)
    (hk : k < 2 * L - 1) :
    ∃ n, ns[k]? = some n ∧ n.forget_count = level_order_node L bw (L - 1) k := by
  have h1 : (ns.map tree_node.forget_count)[k]? = some (level_order_node L bw (L - 1) k) := by
    rw [h]; exact built_tree_get L bw k hk
  rw [List.getElem?_map] at h1
  cases hn : ns[k]? with
  | none => rw [hn] at h1; cases h1
  | some n =>
    rw [hn] at h1
    simp only [Option.map_some', Option.some.injEq] at h1
    exact ⟨n, rfl, h1⟩

/-- The fields of a node that agrees with the level-order node `k` up to its counter. -/
theorem counted_fields (L bw k : Nat) (n : tree_node)
    (h : n.forget_count = level_order_node L bw (L - 1) k) :
    n.id = k ∧ n.parent_id = parent_of k ∧
    n.left_id = (if k < L - 1 then 2 * k + 1 else 0) ∧
    n.right_id = (if k < L - 1 then 2 * k + 2 else 0) ∧
    n.is_leaf = decide (L - 1 ≤ k) :=
  ⟨congrArg tree_node.id h, congrArg tree_node.parent_id h, congrArg tree_node.left_id h,
    congrArg tree_node.right_id h, congrArg tree_node.is_leaf h⟩

/-- Changing a counter keeps a node list counted. -/
theorem counted_set (L bw : Nat) (ns : List tree_node) (h : counted L bw ns) (k : Nat)
    (n : tree_node) (hn : ns[k]? = some n) (c : Nat) :
    counted L bw (ns.set k { n with learn_count := c }) := by
  unfold counted at h ⊢
  rw [← h]
  apply List.ext_getElem?
  intro i
  rw [List.getElem?_map, List.getElem?_map, List.getElem?_set]
  by_cases hik : k = i
  · subst hik
    have hlt : k < ns.length := by
      by_contra hge
      rw [List.getElem?_eq_none (by omega)] at hn
      cases hn
    rw [if_pos rfl, hn]
    simp [hlt, tree_node.forget_count]
  · rw [if_neg hik]

theorem parent_of_le (x : Nat) : parent_of x ≤ x := by
  unfold parent_of
  omega

/-- On a counted tree `get_sibling` returns for every node of the tree, the root
included. -/
theorem get_sibling_counted (L bw : Nat) (t : min_depth_binary_tree)
    (h : counted L bw t.nodes) (k : Nat) (hk : k < 2 * L - 1) (v : tree_node)
    (hv : v.forget_count = level_order_node L bw (L - 1) k) :
    ∃ w, t.get_sibling v = .ok w := by
  obtain ⟨hid, hpar, _, _, _⟩ := counted_fields L bw k v hv
  have hpk : parent_of k < 2 * L - 1 := lt_of_le_of_lt (parent_of_le k) hk
  obtain ⟨vp, hvp, hvpf⟩ := counted_get L bw t.nodes h (parent_of k) hpk
  obtain ⟨_, _, hl, hr, _⟩ := counted_fields L bw (parent_of k) vp hvpf
  have hidx : (if v.id = vp.left_id then vp.right_id else vp.left_id) < 2 * L - 1 := by
    rw [hl, hr]
    unfold parent_of at *
    split <;> split <;> omega
  obtain ⟨w, hw, _⟩ := counted_get L bw t.nodes h _ hidx
  refine ⟨w, ?_⟩
  unfold min_depth_binary_tree.get_sibling
  rw [hpar, hvp]
  simp only [hw]

theorem tree_frame_refl (L bw : Nat) (S : Nat → Prop) (t : min_depth_binary_tree)
    (h : counted L bw t.nodes) : tree_frame L bw S t t :=
  ⟨rfl, rfl, rfl, h, fun _ _ => rfl⟩

theorem tree_frame_trans (L bw : Nat) (S1 S2 S : Nat → Prop) (t t1 t2 : min_depth_binary_tree)
    (h1 : tree_frame L bw S1 t t1) (h2 : tree_frame L bw S2 t1 t2)
    (hS1 : ∀ i, S1 i → S i) (hS2 : ∀ i, S2 i → S i) : tree_frame L bw S t t2 := by
  obtain ⟨a1, b1, c1, _, e1⟩ := h1
  obtain ⟨a2, b2, c2, d2, e2⟩ := h2
  refine ⟨a2.trans a1, b2.trans b1, c2.trans c1, d2, ?_⟩
  intro i hi
  rw [e2 i (fun h => hi (hS2 i h)), e1 i (fun h => hi (hS1 i h))]

/-- The part of the loop body after the sibling was found always returns. -/
theorem learn_pair_ok {σ F : Type} (ops : float_ops F) (lay : union_layout F)
    (rnd : random_source F) (base : single_learner σ F) (st : learn_state σ F)
    (v v_parent w : tree_node) (cost_v : F) :
    ∃ r, learn_pair ops lay rnd base st v v_parent w cost_v = .ok r := by
  obtain ⟨c1, c2, c3⟩ := learn_pair_cases ops lay rnd base st v v_parent w cost_v
  cases he : ops.eq cost_v (st.ot.return_cost ops w)
  · cases hf : (floor_weight ops rnd st.app_seed (labelled_example ops lay st.ec
        (local_action_of ops v w v_parent cost_v (st.ot.return_cost ops w))
        cost_v (st.ot.return_cost ops w))).2
    · exact ⟨_, c2 he hf⟩
    · exact ⟨_, c3 he hf⟩
  · exact ⟨_, c1 he⟩

/-- One pass of the loop body on a counted tree, for an entry that names a node of the
tree: it returns; the seed, the trackers and `_cost_star` are as before; the tree is as
before up to the counter of the parent of that node; and a property `Q` of the state of
the base learner that calls at that parent keep is kept. -/
theorem learn_node_counted {σ F : Type} (ops : float_ops F) (lay : union_layout F)
    (rnd : random_source F) (base : single_learner σ F) (L bw : Nat) (Q : σ → Prop)
    (st : learn_state σ F) (n_c : node_cost F)
    (hc : counted L bw st.ot._binary_tree.nodes) (hk : n_c.node_id < 2 * L - 1)
    (hQl : ∀ s (e : vw_example F), Q s → Q (base.learn s e (parent_of n_c.node_id)))
    (hQp : ∀ s (e : vw_example F), Q s → Q (base.predict s e (parent_of n_c.node_id)).2)
    (hq : Q st.base) :
    ∃ st1 ocp, learn_node ops lay rnd base st n_c = .ok (st1, ocp) ∧
      st1.app_seed = st.app_seed ∧ st1.ot._a = st.ot._a ∧ st1.ot._b = st.ot._b ∧
      st1.ot._cost_star = st.ot._cost_star ∧
      tree_frame L bw (fun i => i = parent_of n_c.node_id) st.ot._binary_tree
        st1.ot._binary_tree ∧
      Q st1.base := by
  obtain ⟨v, hv, hvf⟩ := counted_get L bw _ hc n_c.node_id hk
  obtain ⟨_, hpar, _, _, _⟩ := counted_fields L bw n_c.node_id v hvf
  have hpk : parent_of n_c.node_id < 2 * L - 1 := lt_of_le_of_lt (parent_of_le _) hk
  obtain ⟨vp, hvp, _⟩ := counted_get L bw _ hc (parent_of n_c.node_id) hpk
  obtain ⟨w, hw⟩ := get_sibling_counted L bw st.ot._binary_tree hc n_c.node_id hk v hvf
  have htotal : ∃ r, learn_node ops lay rnd base st n_c = .ok r := by
    rw [learn_node_eq, hv]
    simp only [hpar, hvp, hw]
    split
    · exact ⟨_, rfl⟩
    · exact learn_pair_ok ops lay rnd base st v vp w n_c.cost
  obtain ⟨⟨st1, ocp⟩, hr⟩ := htotal
  obtain ⟨v2, vp2, hv2, hvp2, hseed, hcase⟩ :=
    learn_node_cases ops lay rnd base st st1 n_c ocp hr
  rw [hv] at hv2
  injection hv2 with hv2
  subst hv2
  rw [hpar, hvp] at hvp2
  injection hvp2 with hvp2
  subst hvp2
  refine ⟨st1, ocp, hr, hseed, ?_⟩
  rcases hcase with ⟨hb, hot⟩ | ⟨e, _, _, hb, hot⟩
  · rw [hb, hot]
    exact ⟨rfl, rfl, rfl, tree_frame_refl L bw _ _ hc, hq⟩
  · rw [hb, hot, hpar]
    refine ⟨rfl, rfl, rfl, ⟨rfl, rfl, rfl, ?_, ?_⟩, hQp _ _ (hQl _ _ hq)⟩
    · exact counted_set L bw _ hc _ _ hvp _
    · intro i hi
      show (st.ot._binary_tree.nodes.set (parent_of n_c.node_id) _)[i]? = _
      rw [List.getElem?_set]
      rw [if_neg (fun h => hi h.symm)]

/-- The inner loop of `learn` on a counted tree, over entries that name nodes of the tree
whose parents are in `S`. -/
theorem learn_set_counted {σ F : Type} (ops : float_ops F) (lay : union_layout F)
    (rnd : random_source F) (base : single_learner σ F) (L bw : Nat) (Q : σ → Prop)
    (S : Nat → Prop)
    (hQl : ∀ s (e : vw_example F) p, S p → Q s → Q (base.learn s e p))
    (hQp : ∀ s (e : vw_example F) p, S p → Q s → Q (base.predict s e p).2) :
    ∀ (l : List (node_cost F)) (i : Nat) (st : learn_state σ F) (a b : F),
      counted L bw st.ot._binary_tree.nodes →
      (∀ n_c ∈ l, n_c.node_id < 2 * L - 1 ∧ S (parent_of n_c.node_id)) → Q st.base →
      ∃ st1 a1 b1, learn_set ops lay rnd base l i st a b = .ok (st1, a1, b1) ∧
        st1.app_seed = st.app_seed ∧ st1.ot._a = st.ot._a ∧ st1.ot._b = st.ot._b ∧
        st1.ot._cost_star = st.ot._cost_star ∧
        tree_frame L bw S st.ot._binary_tree st1.ot._binary_tree ∧ Q st1.base := by
  intro l
  induction l with
  | nil =>
    intro i st a b hc _ hq
    exact ⟨st, a, b, rfl, rfl, rfl, rfl, rfl, tree_frame_refl L bw S _ hc, hq⟩
  | cons n_c rest ih =>
    intro i st a b hc hl hq
    obtain ⟨hk, hS⟩ := hl n_c (List.mem_cons_self _ _)
    obtain ⟨st2, ocp, hn, s2, a2, b2, c2, f2, q2⟩ :=
      learn_node_counted ops lay rnd base L bw Q st n_c hc hk
        (fun s e h => hQl s e _ hS h) (fun s e h => hQp s e _ hS h) hq
    have hrest : ∀ m ∈ rest, m.node_id < 2 * L - 1 ∧ S (parent_of m.node_id) :=
      fun m hm => hl m (List.mem_cons_of_mem _ hm)
    have key : ∀ (a' b' : F), ∃ st1 a1 b1,
        learn_set ops lay rnd base rest (i + 1) st2 a' b' = .ok (st1, a1, b1) ∧
        st1.app_seed = st.app_seed ∧ st1.ot._a = st.ot._a ∧ st1.ot._b = st.ot._b ∧
        st1.ot._cost_star = st.ot._cost_star ∧
        tree_frame L bw S st.ot._binary_tree st1.ot._binary_tree ∧ Q st1.base := by
      intro a' b'
      obtain ⟨st1, a1, b1, h3, s3, a3, b3, c3, f3, q3⟩ := ih (i + 1) st2 a' b' f2.2.2.2.1 hrest q2
      refine ⟨st1, a1, b1, h3, s3.trans s2, a3.trans a2, b3.trans b2, c3.trans c2, ?_, q3⟩
      exact tree_frame_trans L bw _ S S _ _ _ f2 f3 (fun j hj => hj ▸ hS) (fun _ h => h)
    rw [learn_set, hn]
    cases ocp with
    | none => exact key a b
    | some cp =>
      simp only
      split
      · exact key cp b
      · exact key a cp

/-- One level of `learn` on a counted tree with both trackers on nodes of the tree: it
returns, each tracker moves to the parent of its node, and only the parents of the two
nodes can be trained. -/
theorem learn_level_counted {σ F : Type} (ops : float_ops F) (lay : union_layout F)
    (rnd : random_source F) (base : single_learner σ F) (L bw : Nat) (Q : σ → Prop)
    (S : Nat → Prop)
    (hQl : ∀ s (e : vw_example F) p, S p → Q s → Q (base.learn s e p))
    (hQp : ∀ s (e : vw_example F) p, S p → Q s → Q (base.predict s e p).2)
    (st : learn_state σ F) (hc : counted L bw st.ot._binary_tree.nodes)
    (ha : st.ot._a.node_id < 2 * L - 1) (hb : st.ot._b.node_id < 2 * L - 1)
    (hSa : S (parent_of st.ot._a.node_id)) (hSb : S (parent_of st.ot._b.node_id))
    (hq : Q st.base) :
    ∃ st1, learn_level ops lay rnd base st = .ok st1 ∧
      st1.ot._a.node_id = parent_of st.ot._a.node_id ∧
      st1.ot._b.node_id = parent_of st.ot._b.node_id ∧
      st1.app_seed = st.app_seed ∧ st1.ot._cost_star = st.ot._cost_star ∧
      tree_frame L bw S st.ot._binary_tree st1.ot._binary_tree ∧ Q st1.base := by
  obtain ⟨na, hna, _⟩ := counted_get L bw _ hc _ ha
  obtain ⟨nb, hnb, _⟩ := counted_get L bw _ hc _ hb
  have hmem : ∀ n_c ∈ (if na.parent_id ≠ nb.parent_id then [st.ot._a, st.ot._b] else [st.ot._a]),
      n_c.node_id < 2 * L - 1 ∧ S (parent_of n_c.node_id) := by
    intro n_c hn
    split at hn
    · rcases List.mem_cons.1 hn with h | h
      · rw [h]; exact ⟨ha, hSa⟩
      · rw [List.mem_singleton.1 h]; exact ⟨hb, hSb⟩
    · rw [List.mem_singleton.1 hn]; exact ⟨ha, hSa⟩
  obtain ⟨st2, a1, b1, hset, s2, a2, b2, c2, f2, q2⟩ :=
    learn_set_counted ops lay rnd base L bw Q S hQl hQp _ 0 st st.ot._a.cost st.ot._b.cost hc
      hmem hq
  have hc2 := f2.2.2.2.1
  obtain ⟨na1, hna1, hna1f⟩ := counted_get L bw _ hc2 _ (a2 ▸ ha)
  obtain ⟨nb1, hnb1, hnb1f⟩ := counted_get L bw _ hc2 _ (b2 ▸ hb)
  have pa := (counted_fields L bw _ na1 hna1f).2.1
  have pb := (counted_fields L bw _ nb1 hnb1f).2.1
  refine ⟨{ st2 with ot := { st2.ot with
      _a := { node_id := na1.parent_id, cost := a1 }
      _b := { node_id := nb1.parent_id, cost := b1 } } }, ?_, ?_, ?_, s2, c2, f2, q2⟩
  · unfold learn_level
    simp only [hna, hnb, hset, hna1, hnb1]
  · show na1.parent_id = _
    rw [pa, a2]
  · show nb1.parent_id = _
    rw [pb, b2]

/-! ## Ancestors -/

theorem ancestor_succ_parent (j x : Nat) : ancestor (j + 1) x = ancestor j (parent_of x) := by
  induction j with
  | zero => rfl
  | succ j ih =>
    show parent_of (ancestor (j + 1) x) = parent_of (ancestor j (parent_of x))
    rw [ih]

theorem ancestor_le (j x : Nat) : ancestor j x ≤ x := by
  induction j with
  | zero => exact le_refl x
  | succ j ih => exact le_trans (parent_of_le _) ih

theorem parent_of_mono {x y : Nat} (h : x ≤ y) : parent_of x ≤ parent_of y := by
  unfold parent_of
  omega

theorem ancestor_mono (j : Nat) {x y : Nat} (h : x ≤ y) : ancestor j x ≤ ancestor j y := by
  induction j with
  | zero => exact h
  | succ j ih => exact parent_of_mono ih

/-- A parent step goes one level up, except at the root. -/
theorem level_parent_of (x : Nat) : Nat.log 2 (parent_of x + 1) = Nat.log 2 (x + 1) - 1 := by
  unfold parent_of
  by_cases h0 : x = 0
  · subst h0
    simp
  · rcases Nat.even_or_odd x with ⟨m, hm⟩ | ⟨m, hm⟩
    · have e1 : (x - 1) / 2 = m - 1 := by omega
      have e2 : x + 1 = 2 * (m - 1) + 2 + 1 := by omega
      rw [e1, e2, level_right]
      omega
    · have e1 : (x - 1) / 2 = m := by omega
      have e2 : x + 1 = 2 * m + 1 + 1 := by omega
      rw [e1, e2, level_left]
      omega

theorem level_ancestor (j x : Nat) :
    Nat.log 2 (ancestor j x + 1) = Nat.log 2 (x + 1) - j := by
  induction j with
  | zero => rfl
  | succ j ih =>
    show Nat.log 2 (parent_of (ancestor j x) + 1) = _
    rw [level_parent_of, ih]
    omega

/-- After as many parent steps as a node has levels above it, the root is reached. -/
theorem ancestor_root (j x : Nat) (h : Nat.log 2 (x + 1) ≤ j) : ancestor j x = 0 := by
  have h1 := level_ancestor j x
  have h2 : Nat.log 2 (ancestor j x + 1) = 0 := by omega
  rcases Nat.log_eq_zero_iff.1 h2 with h3 | h3
  · omega
  · omega

/-- An ancestor of a node other than the root, at least one step up, is another node. -/
theorem ancestor_lt (j x : Nat) (hx : 1 ≤ x) : ancestor (j + 1) x < x := by
  rw [ancestor_succ_parent]
  have h1 : parent_of x < x := by
    unfold parent_of
    omega
  exact lt_of_le_of_lt (ancestor_le j _) h1

/-! ## The levels of `learn` on a built tree -/

/-- The first `j` levels of `learn` on a counted tree with both trackers on nodes of the
tree: they return, each tracker ends `j` parent steps above where it started, and only
nodes in `S` can be trained, when `S` holds the ancestors of the two starting nodes that
are 1 to `j` steps up. -/
theorem learn_levels_counted {σ F : Type} (ops : float_ops F) (lay : union_layout F)
    (rnd : random_source F) (base : single_learner σ F) (L bw : Nat) (Q : σ → Prop)
    (S : Nat → Prop)
    (hQl : ∀ s (e : vw_example F) p, S p → Q s → Q (base.learn s e p))
    (hQp : ∀ s (e : vw_example F) p, S p → Q s → Q (base.predict s e p).2) :
    ∀ (j : Nat) (st : learn_state σ F), counted L bw st.ot._binary_tree.nodes →
      st.ot._a.node_id < 2 * L - 1 → st.ot._b.node_id < 2 * L - 1 →
      (∀ m, m < j → S (ancestor (m + 1) st.ot._a.node_id) ∧
        S (ancestor (m + 1) st.ot._b.node_id)) →
      Q st.base →
      ∃ st1, learn_levels ops lay rnd base j st = .ok st1 ∧
        st1.ot._a.node_id = ancestor j st.ot._a.node_id ∧
        st1.ot._b.node_id = ancestor j st.ot._b.node_id ∧
        st1.app_seed = st.app_seed ∧ st1.ot._cost_star = st.ot._cost_star ∧
        tree_frame L bw S st.ot._binary_tree st1.ot._binary_tree ∧ Q st1.base := by
  intro j
  induction j with
  | zero =>
    intro st hc _ _ _ hq
    exact ⟨st, rfl, rfl, rfl, rfl, rfl, tree_frame_refl L bw S _ hc, hq⟩
  | succ j ih =>
    intro st hc ha hb hS hq
    obtain ⟨st1, h1, a1, b1, s1, c1, f1, q1⟩ :=
      learn_level_counted ops lay rnd base L bw Q S hQl hQp st hc ha hb
        (hS 0 (by omega)).1 (hS 0 (by omega)).2 hq
    have ha1 : st1.ot._a.node_id < 2 * L - 1 := by
      rw [a1]; exact lt_of_le_of_lt (parent_of_le _) ha
    have hb1 : st1.ot._b.node_id < 2 * L - 1 := by
      rw [b1]; exact lt_of_le_of_lt (parent_of_le _) hb
    have hS1 : ∀ m, m < j → S (ancestor (m + 1) st1.ot._a.node_id) ∧
        S (ancestor (m + 1) st1.ot._b.node_id) := by
      intro m hm
      rw [a1, b1, ← ancestor_succ_parent, ← ancestor_succ_parent]
      exact hS (m + 1) (by omega)
    obtain ⟨st2, h2, a2, b2, s2, c2, f2, q2⟩ := ih st1 f1.2.2.2.1 ha1 hb1 hS1 q1
    refine ⟨st2, ?_, ?_, ?_, s2.trans s1, c2.trans c1, ?_, q2⟩
    · rw [learn_levels, h1]
      exact h2
    · rw [a2, a1, ← ancestor_succ_parent]
    · rw [b2, b1, ← ancestor_succ_parent]
    · exact tree_frame_trans L bw S S S _ _ _ f1 f2 (fun _ h => h) (fun _ h => h)

/-- What a tree that is a built tree up to its counters looks like. -/
theorem forget_counts_built (L bw : Nat) (t : min_depth_binary_tree)
    (h : t.forget_counts = built_tree L bw) :
    counted L bw t.nodes ∧ t._num_leaf_nodes = L ∧ t._depth = depth_after (L - 1) :=
  ⟨congrArg min_depth_binary_tree.nodes h, congrArg min_depth_binary_tree._num_leaf_nodes h,
    congrArg min_depth_binary_tree._depth h⟩

theorem counted_internal_node_count (L bw : Nat) (hL : 1 ≤ L) (t : min_depth_binary_tree)
    (hc : counted L bw t.nodes) (hnum : t._num_leaf_nodes = L) :
    t.internal_node_count = L - 1 := by
  have h : L ≤ 2 * L - 1 := by omega
  simp only [min_depth_binary_tree.internal_node_count, counted_length L bw _ hc, hnum, wrap_sub,
    if_pos h]
  omega

theorem leaf_of_range (L action : Nat) (h1 : 1 ≤ action) (h2 : action ≤ L) :
    L - 1 ≤ leaf_of L action ∧ leaf_of L action < 2 * L - 1 := by
  unfold leaf_of
  omega

/-- A whole call of `learn`, assertions compiled out, on a built tree with any counters
and a label whose first and last entries name actions of the tree: it returns; both
trackers end at the ancestor `depth()` steps above their leaves; the seed is as before;
and only nodes in `S` can be trained, when `S` holds the ancestors of the two leaves that
are 1 to `depth()` steps up. -/
theorem learn_counted {σ F : Type} (ops : float_ops F) (lay : union_layout F)
    (rnd : random_source F) (base : single_learner σ F) (L bw : Nat) (hL : 1 ≤ L)
    (Q : σ → Prop) (S : Nat → Prop)
    (hQl : ∀ s (e : vw_example F) p, S p → Q s → Q (base.learn s e p))
    (hQp : ∀ s (e : vw_example F) p, S p → Q s → Q (base.predict s e p).2)
    (st : learn_state σ F) (hc : counted L bw st.ot._binary_tree.nodes)
    (hnum : st.ot._binary_tree._num_leaf_nodes = L)
    (hdepth : st.ot._binary_tree._depth = depth_after (L - 1))
    (first : cb_class F) (rest : List (cb_class F))
    (hl : (st.ec.l.get_cb lay).costs = first :: rest)
    (hf1 : 1 ≤ first.action) (hf2 : first.action ≤ L)
    (hl1 : 1 ≤ ((first :: rest).getLast (List.cons_ne_nil _ _)).action)
    (hl2 : ((first :: rest).getLast (List.cons_ne_nil _ _)).action ≤ L)
    (hS : ∀ m, m < depth_after (L - 1) →
      S (ancestor (m + 1) (leaf_of L first.action)) ∧
      S (ancestor (m + 1) (leaf_of L ((first :: rest).getLast (List.cons_ne_nil _ _)).action)))
    (hq : Q st.base) :
    ∃ st1, offset_tree.learn ops lay rnd base true st = .ok st1 ∧
      st1.ot._a.node_id = ancestor (depth_after (L - 1)) (leaf_of L first.action) ∧
      st1.ot._b.node_id = ancestor (depth_after (L - 1))
        (leaf_of L ((first :: rest).getLast (List.cons_ne_nil _ _)).action) ∧
      st1.app_seed = st.app_seed ∧
      tree_frame L bw S st.ot._binary_tree st1.ot._binary_tree ∧ Q st1.base := by
  have hinc := counted_internal_node_count L bw hL _ hc hnum
  have hinit := init_node_costs_returns ops st.ot first rest
  have wa : wrap_sub (first.action + st.ot._binary_tree.internal_node_count) 1
      = leaf_of L first.action := by
    rw [hinc]
    unfold wrap_sub leaf_of
    rw [if_pos (by omega)]
  have wb : wrap_sub (((first :: rest).getLast (List.cons_ne_nil _ _)).action
      + st.ot._binary_tree.internal_node_count) 1
      = leaf_of L ((first :: rest).getLast (List.cons_ne_nil _ _)).action := by
    rw [hinc]
    unfold wrap_sub leaf_of
    rw [if_pos (by omega)]
  rw [wa, wb] at hinit
  obtain ⟨st1, h1, a1, b1, s1, _, f1, q1⟩ :=
    learn_levels_counted ops lay rnd base L bw Q S hQl hQp (depth_after (L - 1))
      { st with ot := { st.ot with
          _cost_star := ops.div first.cost first.probability
          _a := { node_id := leaf_of L first.action,
                  cost := ops.div first.cost first.probability }
          _b := { node_id := leaf_of L ((first :: rest).getLast (List.cons_ne_nil _ _)).action,
                  cost := ops.div first.cost first.probability } } }
      hc (leaf_of_range L _ hf1 hf2).2 (leaf_of_range L _ hl1 hl2).2 hS hq
  refine ⟨{ st1 with
      ec := { st1.ec with l := st.ec.l, weight := st.ec.weight, pred := st.ec.pred } },
    ?_, a1, b1, s1, f1, q1⟩
  have h2 : learn_levels ops lay rnd base st.ot._binary_tree.depth _ = .ok st1 :=
    (show st.ot._binary_tree.depth = depth_after (L - 1) from hdepth) ▸ h1
  unfold offset_tree.learn
  simp only [hl, hinit]
  rw [h2]

/-! ## The frontier trackers -/

theorem ancestor_add (i k x : Nat) : ancestor (i + k) x = ancestor k (ancestor i x) := by
  induction k with
  | zero => rfl
  | succ k ih =>
    show parent_of (ancestor (i + k) x) = parent_of (ancestor k (ancestor i x))
    rw [ih]

/-- Two nodes with the same ancestor `i` steps up have the same ancestor at every later
step. -/
theorem ancestor_eq_of_le {i j x y : Nat} (hij : i ≤ j) (h : ancestor i x = ancestor i y) :
    ancestor j x = ancestor j y := by
  obtain ⟨k, rfl⟩ := Nat.exists_eq_add_of_le hij
  rw [ancestor_add, ancestor_add, h]

/-- Every node of a tree of `L` leaves reaches the root within `depth()` parent steps. -/
theorem ancestor_depth_root (L x : Nat) (hx : x < 2 * L - 1) :
    ancestor (depth_after (L - 1)) x = 0 := by
  have h1 : Nat.log 2 (x + 1) ≤ Nat.log 2 (2 * (L - 1) + 1) := Nat.log_mono_right (by omega)
  exact ancestor_root _ _ (le_trans h1 (log_le_depth_after (L - 1)))

/-- With assertions compiled out, `init_node_costs` on a built tree with any counters
puts the trackers on the leaves of the first and of the last entry and leaves the tree
object alone. -/
theorem init_node_costs_counted {F : Type} (ops : float_ops F) (L bw : Nat) (hL : 1 ≤ L)
    (ot : offset_tree F) (hc : counted L bw ot._binary_tree.nodes)
    (hnum : ot._binary_tree._num_leaf_nodes = L)
    (first : cb_class F) (rest : List (cb_class F)) (hf1 : 1 ≤ first.action)
    (hl1 : 1 ≤ ((first :: rest).getLast (List.cons_ne_nil _ _)).action) :
    ∃ ot1, ot.init_node_costs ops true (first :: rest) = .ok ot1 ∧
      ot1._binary_tree = ot._binary_tree ∧
      ot1._a.node_id = leaf_of L first.action ∧
      ot1._b.node_id = leaf_of L ((first :: rest).getLast (List.cons_ne_nil _ _)).action := by
  have hinc := counted_internal_node_count L bw hL _ hc hnum
  refine ⟨_, init_node_costs_returns ops ot first rest, rfl, ?_, ?_⟩
  · show wrap_sub (first.action + ot._binary_tree.internal_node_count) 1 = _
    rw [hinc]
    unfold wrap_sub leaf_of
    rw [if_pos (by omega)]
  · show wrap_sub (((first :: rest).getLast (List.cons_ne_nil _ _)).action
      + ot._binary_tree.internal_node_count) 1 = _
    rw [hinc]
    unfold wrap_sub leaf_of
    rw [if_pos (by omega)]

/-- Claim C19: on a tree built with `leafCount >= 1` (any bandwidth, any counters left by
earlier calls of `learn`) and a label whose first entry's action is at most its last
entry's action, both in `[1, leafCount]`, with assertions compiled out: `init_node_costs`
returns with `a.node_id <= b.node_id`; for every `j <= depth()` the first `j` levels of
the sweep of `learn` return a state with `a.node_id <= b.node_id`; if the trackers were
equal after `i <= j` levels they are equal after `j` levels; after all `depth()` levels
both are at node 0; and so they are when `learn` returns, which it does. -/
theorem frontier_trackers_ordered {σ F : Type} (ops : float_ops F) (lay : union_layout F)
    (rnd : random_source F) (base : single_learner σ F) (leafCount bandwidth : Nat)
    (hL : 1 ≤ leafCount) (t : min_depth_binary_tree)
    (hb : build_tree min_depth_binary_tree.empty leafCount bandwidth = .returned t)
    (st : learn_state σ F) (ht : st.ot._binary_tree.forget_counts = t)
    (first : cb_class F) (rest : List (cb_class F))
    (hl : (st.ec.l.get_cb lay).costs = first :: rest)
    (hf : 1 ≤ first.action)
    (hfl : first.action ≤ ((first :: rest).getLast (List.cons_ne_nil _ _)).action)
    (hlast : ((first :: rest).getLast (List.cons_ne_nil _ _)).action ≤ leafCount) :
    ∃ ot1, st.ot.init_node_costs ops true (st.ec.l.get_cb lay).costs = .ok ot1 ∧
      ot1._a.node_id ≤ ot1._b.node_id ∧
      (∀ j, j ≤ st.ot._binary_tree.depth →
        ∃ stj, learn_levels ops lay rnd base j { st with ot := ot1 } = .ok stj ∧
          stj.ot._a.node_id ≤ stj.ot._b.node_id ∧
          (∀ i sti, i ≤ j → learn_levels ops lay rnd base i { st with ot := ot1 } = .ok sti →
            sti.ot._a.node_id = sti.ot._b.node_id → stj.ot._a.node_id = stj.ot._b.node_id) ∧
          (j = st.ot._binary_tree.depth → stj.ot._a.node_id = 0 ∧ stj.ot._b.node_id = 0)) ∧
      ∃ st1, offset_tree.learn ops lay rnd base true st = .ok st1 ∧
        st1.ot._a.node_id = 0 ∧ st1.ot._b.node_id = 0 := by
  rw [build_tree_eq leafCount bandwidth hL t hb] at ht
  obtain ⟨hc, hnum, hdepth⟩ := forget_counts_built leafCount bandwidth _ ht
  have hl1 : 1 ≤ ((first :: rest).getLast (List.cons_ne_nil _ _)).action := le_trans hf hfl
  have hf2 : first.action ≤ leafCount := le_trans hfl hlast
  obtain ⟨ot1, hinit, hbt, ha, hbn⟩ :=
    init_node_costs_counted ops leafCount bandwidth hL st.ot hc hnum first rest hf hl1
  have hra := leaf_of_range leafCount _ hf hf2
  have hrb := leaf_of_range leafCount _ hl1 hlast
  have hle : leaf_of leafCount first.action
      ≤ leaf_of leafCount ((first :: rest).getLast (List.cons_ne_nil _ _)).action := by
    unfold leaf_of
    omega
  have hlev : ∀ j, ∃ stj, learn_levels ops lay rnd base j { st with ot := ot1 } = .ok stj ∧
      stj.ot._a.node_id = ancestor j (leaf_of leafCount first.action) ∧
      stj.ot._b.node_id = ancestor j
        (leaf_of leafCount ((first :: rest).getLast (List.cons_ne_nil _ _)).action) := by
    intro j
    obtain ⟨stj, h1, a1, b1, _⟩ :=
      learn_levels_counted ops lay rnd base leafCount bandwidth (fun _ => True) (fun _ => True)
        (fun _ _ _ _ _ => trivial) (fun _ _ _ _ _ => trivial) j { st with ot := ot1 }
        (by show counted leafCount bandwidth ot1._binary_tree.nodes; rw [hbt]; exact hc)
        (by show ot1._a.node_id < _; rw [ha]; exact hra.2)
        (by show ot1._b.node_id < _; rw [hbn]; exact hrb.2)
        (fun _ _ => ⟨trivial, trivial⟩) trivial
    exact ⟨stj, h1, a1.trans (congrArg _ ha), b1.trans (congrArg _ hbn)⟩
  rw [hl]
  refine ⟨ot1, hinit, by rw [ha, hbn]; exact hle, ?_, ?_⟩
  · intro j hj
    obtain ⟨stj, h1, a1, b1⟩ := hlev j
    refine ⟨stj, h1, by rw [a1, b1]; exact ancestor_mono j hle, ?_, ?_⟩
    · intro i sti hij hi heq
      obtain ⟨sti1, h2, a2, b2⟩ := hlev i
      rw [hi] at h2
      injection h2 with h2
      subst h2
      rw [a2, b2] at heq
      rw [a1, b1]
      exact ancestor_eq_of_le hij heq
    · intro hjd
      have hjd1 : j = depth_after (leafCount - 1) := hjd.trans hdepth
      rw [a1, b1, hjd1]
      exact ⟨ancestor_depth_root leafCount _ hra.2, ancestor_depth_root leafCount _ hrb.2⟩
  · obtain ⟨st1, h1, a1, b1, _⟩ :=
      learn_counted ops lay rnd base leafCount bandwidth hL (fun _ => True) (fun _ => True)
        (fun _ _ _ _ _ => trivial) (fun _ _ _ _ _ => trivial) st hc hnum hdepth first rest hl
        hf hf2 hl1 hlast (fun _ _ => ⟨trivial, trivial⟩) trivial
    exact ⟨st1, h1, a1.trans (ancestor_depth_root leafCount _ hra.2),
      b1.trans (ancestor_depth_root leafCount _ hrb.2)⟩

/-- C19, at a concrete input: the tree of four leaves and a label for the actions 2 and
3, whose leaves 4 and 5 have the parents 1 and 2 and meet at the root. -/
theorem frontier_trackers_ordered_witness :
    1 ≤ 4 ∧ build_tree min_depth_binary_tree.empty 4 0 = .returned tree_of_four ∧
    state_two_actions.ot._binary_tree.forget_counts = tree_of_four ∧
    (state_two_actions.ec.l.get_cb plain_layout).costs
      = [{ cost := 1000000, action := 2, probability := 500000 },
         { cost := 2000000, action := 3, probability := 500000 }] ∧
    ∃ ot1, state_two_actions.ot.init_node_costs micro_ops true
        (state_two_actions.ec.l.get_cb plain_layout).costs = .ok ot1 ∧
      ot1._a.node_id ≤ ot1._b.node_id ∧
      (∀ j, j ≤ state_two_actions.ot._binary_tree.depth →
        ∃ stj, learn_levels micro_ops plain_layout half_source parity_learner j
            { state_two_actions with ot := ot1 } = .ok stj ∧
          stj.ot._a.node_id ≤ stj.ot._b.node_id ∧
          (∀ i sti, i ≤ j → learn_levels micro_ops plain_layout half_source parity_learner i
              { state_two_actions with ot := ot1 } = .ok sti →
            sti.ot._a.node_id = sti.ot._b.node_id → stj.ot._a.node_id = stj.ot._b.node_id) ∧
          (j = state_two_actions.ot._binary_tree.depth →
            stj.ot._a.node_id = 0 ∧ stj.ot._b.node_id = 0)) ∧
      ∃ st1, offset_tree.learn micro_ops plain_layout half_source parity_learner true
          state_two_actions = .ok st1 ∧
        st1.ot._a.node_id = 0 ∧ st1.ot._b.node_id = 0 :=
  ⟨by decide, by decide, by decide, rfl,
    frontier_trackers_ordered micro_ops plain_layout half_source parity_learner 4 0 (by decide)
      tree_of_four (by decide) state_two_actions (by decide)
      { cost := 1000000, action := 2, probability := 500000 }
      [{ cost := 2000000, action := 3, probability := 500000 }] rfl (by decide) (by decide)
      (by decide)⟩

/-! ## The nodes that `learn` trains -/

/-- On a built tree with any counters, following `parent_id` fields from a node of the
tree is iterating the parent map of the level-order layout. -/
theorem climb_counted (L bw : Nat) (ns : List tree_node) (hc : counted L bw ns) (x : Nat)
    (hx : x < 2 * L - 1) : ∀ j, climb ns j x = some (ancestor j x) := by
  intro j
  induction j with
  | zero => rfl
  | succ j ih =>
    obtain ⟨n, hn, hf⟩ := counted_get L bw ns hc (ancestor j x)
      (lt_of_le_of_lt (ancestor_le j x) hx)
    rw [climb, ih]
    simp only [hn]
    rw [(counted_fields L bw _ n hf).2.1]
    rfl

/-- The ancestors of a node of a tree with at least two leaves that are at least one
step up are internal nodes. -/
theorem ancestor_internal (L m x : Nat) (hL : 2 ≤ L) (hx : x < 2 * L - 1) :
    ancestor (m + 1) x < L - 1 := by
  rw [ancestor_succ_parent]
  have h1 : parent_of x < L - 1 := by
    unfold parent_of
    omega
  exact lt_of_le_of_lt (ancestor_le m _) h1

/-- A tree with a level below the root has at least two leaves. -/
theorem two_leaves_of_level (L m : Nat) (hm : m < depth_after (L - 1)) : 2 ≤ L := by
  by_contra h
  have h1 : L - 1 = 0 := by omega
  rw [h1, depth_after_zero] at hm
  omega

/-- A whole call of `learn` with a logging base learner, assertions compiled out, on a
built tree with any counters: it returns, the log grows by calls at nodes in `S`, and
only nodes in `S` can have a changed entry, when `S` holds the ancestors of the two
leaves that are 1 to `depth()` steps up. -/
theorem learn_logged_counted {σ F : Type} (ops : float_ops F) (lay : union_layout F)
    (rnd : random_source F) (base : single_learner σ F) (L bw : Nat) (hL : 1 ≤ L)
    (S : Nat → Prop) (st : learn_state (σ × List (base_call F)) F)
    (hc : counted L bw st.ot._binary_tree.nodes)
    (hnum : st.ot._binary_tree._num_leaf_nodes = L)
    (hdepth : st.ot._binary_tree._depth = depth_after (L - 1))
    (first : cb_class F) (rest : List (cb_class F))
    (hl : (st.ec.l.get_cb lay).costs = first :: rest)
    (hf1 : 1 ≤ first.action) (hf2 : first.action ≤ L)
    (hl1 : 1 ≤ ((first :: rest).getLast (List.cons_ne_nil _ _)).action)
    (hl2 : ((first :: rest).getLast (List.cons_ne_nil _ _)).action ≤ L)
    (hS : ∀ m, m < depth_after (L - 1) →
      S (ancestor (m + 1) (leaf_of L first.action)) ∧
      S (ancestor (m + 1) (leaf_of L ((first :: rest).getLast (List.cons_ne_nil _ _)).action))) :
    ∃ st1 calls, offset_tree.learn ops lay rnd (logged base) true st = .ok st1 ∧
      st1.base.2 = st.base.2 ++ calls ∧ (∀ c ∈ calls, S c.node_id) ∧
      tree_frame L bw S st.ot._binary_tree st1.ot._binary_tree := by
  have hlog := logged_extends base st.base.2 (fun c => S c.node_id)
  obtain ⟨st1, h1, _, _, _, f1, calls, q1, q2⟩ :=
    learn_counted ops lay rnd (logged base) L bw hL
      (fun s => ∃ ext, s.2 = st.base.2 ++ ext ∧ ∀ c ∈ ext, S c.node_id) S
      (fun s e p hp hq => hlog.1 s e p hq hp) (fun s e p hp hq => hlog.2 s e p hq hp)
      st hc hnum hdepth first rest hl hf1 hf2 hl1 hl2 hS
      ⟨[], (List.append_nil _).symm, fun _ h => absurd h (List.not_mem_nil _)⟩
  exact ⟨st1, calls, h1, q1, q2, f1⟩

/-- Claim C14: on a tree built with `leafCount >= 1` (any bandwidth, any counters left by
earlier calls), for every base learner, random source and label whose first and last
entries have actions in `[1, leafCount]`, with assertions compiled out, one call of
`learn` returns; every call it makes to the base learner (each training call and the
prediction that follows it) is at a proper ancestor of the leaf of the first action or of
the leaf of the last action, the leaf of an action being
`action + internal_node_count() - 1`; the entry of every other node, `learn_count`
included, is what it was; and for a single-entry label the proper ancestors are the nodes
other than the leaf that are reached from the leaf by following `parent_id` fields. -/
theorem learn_trains_only_ancestors {σ F : Type} (ops : float_ops F) (lay : union_layout F)
    (rnd : random_source F) (base : single_learner σ F) (leafCount bandwidth : Nat)
    (hL : 1 ≤ leafCount) (t : min_depth_binary_tree)
    (hb : build_tree min_depth_binary_tree.empty leafCount bandwidth = .returned t)
    (st : learn_state (σ × List (base_call F)) F)
    (ht : st.ot._binary_tree.forget_counts = t)
    (first : cb_class F) (rest : List (cb_class F))
    (hl : (st.ec.l.get_cb lay).costs = first :: rest)
    (hf1 : 1 ≤ first.action) (hf2 : first.action ≤ leafCount)
    (hl1 : 1 ≤ ((first :: rest).getLast (List.cons_ne_nil _ _)).action)
    (hl2 : ((first :: rest).getLast (List.cons_ne_nil _ _)).action ≤ leafCount) :
    ∃ st1 calls, offset_tree.learn ops lay rnd (logged base) true st = .ok st1 ∧
      st1.base.2 = st.base.2 ++ calls ∧
      (∀ c ∈ calls,
        proper_ancestor c.node_id (first.action + st.ot._binary_tree.internal_node_count - 1) ∨
        proper_ancestor c.node_id (((first :: rest).getLast (List.cons_ne_nil _ _)).action
          + st.ot._binary_tree.internal_node_count - 1)) ∧
      (∀ i,
        ¬ (proper_ancestor i (first.action + st.ot._binary_tree.internal_node_count - 1) ∨
          proper_ancestor i (((first :: rest).getLast (List.cons_ne_nil _ _)).action
            + st.ot._binary_tree.internal_node_count - 1)) →
        st1.ot._binary_tree.nodes[i]? = st.ot._binary_tree.nodes[i]?) ∧
      (rest = [] → ∀ p,
        (proper_ancestor p (first.action + st.ot._binary_tree.internal_node_count - 1) ∨
          proper_ancestor p (((first :: rest).getLast (List.cons_ne_nil _ _)).action
            + st.ot._binary_tree.internal_node_count - 1)) ↔
        (p ≠ first.action + st.ot._binary_tree.internal_node_count - 1 ∧
          ∃ j, climb st.ot._binary_tree.nodes j
            (first.action + st.ot._binary_tree.internal_node_count - 1) = some p)) := by
  rw [build_tree_eq leafCount bandwidth hL t hb] at ht
  obtain ⟨hc, hnum, hdepth⟩ := forget_counts_built leafCount bandwidth _ ht
  rw [counted_internal_node_count leafCount bandwidth hL _ hc hnum]
  have hra := leaf_of_range leafCount _ hf1 hf2
  have hrb := leaf_of_range leafCount _ hl1 hl2
  have hS : ∀ m, m < depth_after (leafCount - 1) →
      (proper_ancestor (ancestor (m + 1) (leaf_of leafCount first.action))
          (leaf_of leafCount first.action) ∨
        proper_ancestor (ancestor (m + 1) (leaf_of leafCount first.action))
          (leaf_of leafCount ((first :: rest).getLast (List.cons_ne_nil _ _)).action)) ∧
      (proper_ancestor (ancestor (m + 1)
          (leaf_of leafCount ((first :: rest).getLast (List.cons_ne_nil _ _)).action))
          (leaf_of leafCount first.action) ∨
        proper_ancestor (ancestor (m + 1)
          (leaf_of leafCount ((first :: rest).getLast (List.cons_ne_nil _ _)).action))
          (leaf_of leafCount ((first :: rest).getLast (List.cons_ne_nil _ _)).action)) := by
    intro m hm
    have h2 := two_leaves_of_level leafCount m hm
    exact ⟨Or.inl ⟨Nat.ne_of_lt (ancestor_lt m _ (by omega)), m + 1, rfl⟩,
      Or.inr ⟨Nat.ne_of_lt (ancestor_lt m _ (by omega)), m + 1, rfl⟩⟩
  obtain ⟨st1, calls, h1, q1, q2, f1⟩ :=
    learn_logged_counted ops lay rnd base leafCount bandwidth hL
      (fun p => proper_ancestor p (leaf_of leafCount first.action) ∨
        proper_ancestor p
          (leaf_of leafCount ((first :: rest).getLast (List.cons_ne_nil _ _)).action))
      st hc hnum hdepth first rest hl hf1 hf2 hl1 hl2 hS
  refine ⟨st1, calls, h1, q1, q2, f1.2.2.2.2, ?_⟩
  intro hrest p
  subst hrest
  show (proper_ancestor p (leaf_of leafCount first.action) ∨
      proper_ancestor p (leaf_of leafCount first.action)) ↔
    (p ≠ leaf_of leafCount first.action ∧
      ∃ j, climb st.ot._binary_tree.nodes j (leaf_of leafCount first.action) = some p)
  rw [or_self]
  unfold proper_ancestor
  constructor
  · rintro ⟨hne, j, hj⟩
    exact ⟨hne, j, by rw [climb_counted leafCount bandwidth _ hc _ hra.2 j, hj]⟩
  · rintro ⟨hne, j, hj⟩
    rw [climb_counted leafCount bandwidth _ hc _ hra.2 j] at hj
    exact ⟨hne, j, Option.some.inj hj⟩

/-- C14, at a concrete input: the tree of four leaves and a label for the actions 2 and
3 (leaves 4 and 5), with a logging base learner. -/
theorem learn_trains_only_ancestors_witness :
    1 ≤ 4 ∧ build_tree min_depth_binary_tree.empty 4 0 = .returned tree_of_four ∧
    state_two_actions_logged.ot._binary_tree.forget_counts = tree_of_four ∧
    (state_two_actions_logged.ec.l.get_cb plain_layout).costs
      = [{ cost := 1000000, action := 2, probability := 500000 },
         { cost := 2000000, action := 3, probability := 500000 }] ∧
    ∃ st1 calls, offset_tree.learn micro_ops plain_layout half_source (logged parity_learner)
        true state_two_actions_logged = .ok st1 ∧
      st1.base.2 = state_two_actions_logged.base.2 ++ calls ∧
      (∀ c ∈ calls,
        proper_ancestor c.node_id
          (2 + state_two_actions_logged.ot._binary_tree.internal_node_count - 1) ∨
        proper_ancestor c.node_id
          (3 + state_two_actions_logged.ot._binary_tree.internal_node_count - 1)) ∧
      (∀ i,
        ¬ (proper_ancestor i
            (2 + state_two_actions_logged.ot._binary_tree.internal_node_count - 1) ∨
          proper_ancestor i
            (3 + state_two_actions_logged.ot._binary_tree.internal_node_count - 1)) →
        st1.ot._binary_tree.nodes[i]? = state_two_actions_logged.ot._binary_tree.nodes[i]?) :=
  ⟨by decide, by decide, by decide, rfl,
    (learn_trains_only_ancestors micro_ops plain_layout half_source parity_learner 4 0
      (by decide) tree_of_four (by decide) state_two_actions_logged (by decide)
      { cost := 1000000, action := 2, probability := 500000 }
      [{ cost := 2000000, action := 3, probability := 500000 }] rfl (by decide) (by decide)
      (by decide) (by decide)).imp fun _ h => h.imp fun _ h => ⟨h.1, h.2.1, h.2.2.1, h.2.2.2.1⟩⟩

/-! ## The node ids handed to the base learner -/

/-- From any node of a built tree with any counters the `while` loop of `predict` reaches
a leaf within as many passes as there are levels below the node; it leaves the weight
alone, the prediction slot is either untouched or holds a scalar of the base learner, and
a property `Q` of the state of the base learner that every call at an internal node keeps
is kept. -/
theorem predict_loop_counted {σ F : Type} (ops : float_ops F) (lay : union_layout F)
    (base : single_learner σ F) (L bw : Nat) (ns : List tree_node) (hc : counted L bw ns)
    (Q : σ → Prop)
    (hQp : ∀ s (e : vw_example F) p, p < L - 1 → Q s → Q (base.predict s e p).2) :
    ∀ (fuel k : Nat) (n : tree_node) (ec : vw_example F) (s : σ), k < 2 * L - 1 →
      n.forget_count = level_order_node L bw (L - 1) k →
      Nat.log 2 (2 * L - 1) ≤ fuel + Nat.log 2 (k + 1) → Q s →
      ∃ (leaf : tree_node) (ec1 : vw_example F) (s1 : σ),
        predict_loop ops lay base ns fuel n ec s = .ok (leaf, ec1, s1) ∧ Q s1 ∧
        (L - 1 ≤ leaf.id ∧ leaf.id < 2 * L - 1) ∧
        ec1.weight = ec.weight ∧ (ec1.pred = ec.pred ∨ ∃ x, ec1.pred = .scalar x) := by
  intro fuel
  induction fuel with
  | zero =>
    intro k n ec s hk hn hf hq
    obtain ⟨hid, _, _, _, hleafb⟩ := counted_fields L bw k n hn
    have hleaf : L - 1 ≤ k := by
      by_contra hlt
      have := internal_level_lt L k (by omega)
      omega
    refine ⟨n, ec, s, ?_, hq, ⟨by rw [hid]; exact hleaf, by rw [hid]; exact hk⟩, rfl,
      Or.inl rfl⟩
    rw [predict_loop, hleafb]
    simp [hleaf]
  | succ fuel ih =>
    intro k n ec s hk hn hf hq
    obtain ⟨hid, _, hlid, hrid, hleafb⟩ := counted_fields L bw k n hn
    by_cases hleaf : L - 1 ≤ k
    · refine ⟨n, ec, s, ?_, hq, ⟨by rw [hid]; exact hleaf, by rw [hid]; exact hk⟩, rfl,
        Or.inl rfl⟩
      rw [predict_loop, hleafb]
      simp [hleaf]
    · have hint : k < L - 1 := by omega
      have hl : 2 * k + 1 < 2 * L - 1 := by omega
      have hr : 2 * k + 2 < 2 * L - 1 := by omega
      have hfl : Nat.log 2 (2 * L - 1) ≤ fuel + Nat.log 2 (2 * k + 1 + 1) := by
        rw [level_left]; omega
      have hfr : Nat.log 2 (2 * L - 1) ≤ fuel + Nat.log 2 (2 * k + 2 + 1) := by
        rw [level_right]; omega
      obtain ⟨nl, gl, hnl⟩ := counted_get L bw ns hc (2 * k + 1) hl
      obtain ⟨nr, gr, hnr⟩ := counted_get L bw ns hc (2 * k + 2) hr
      rw [if_pos hint] at hlid hrid
      have e1 : n.is_leaf = false := by
        rw [hleafb]
        exact decide_eq_false hleaf
      have aux : ∀ (c : Nat) (ec2 : vw_example F) (s2 : σ), c = 2 * k + 1 ∨ c = 2 * k + 2 →
          Q s2 → ec2.weight = ec.weight →
          (ec2.pred = ec.pred ∨ ∃ x, ec2.pred = .scalar x) →
          ∃ (leaf : tree_node) (ec1 : vw_example F) (s1 : σ),
            (match ns[c]? with
              | none => Except.error fault.out_of_bounds
              | some n1 => predict_loop ops lay base ns fuel n1 ec2 s2)
              = .ok (leaf, ec1, s1) ∧ Q s1 ∧
            (L - 1 ≤ leaf.id ∧ leaf.id < 2 * L - 1) ∧
            ec1.weight = ec.weight ∧ (ec1.pred = ec.pred ∨ ∃ x, ec1.pred = .scalar x) := by
        intro c ec2 s2 hcc hq2 hw hp
        have key : ∀ (c1 : Nat) (n1 : tree_node), c1 < 2 * L - 1 →
            n1.forget_count = level_order_node L bw (L - 1) c1 →
            Nat.log 2 (2 * L - 1) ≤ fuel + Nat.log 2 (c1 + 1) →
            ∃ (leaf : tree_node) (ec1 : vw_example F) (s1 : σ),
              predict_loop ops lay base ns fuel n1 ec2 s2 = .ok (leaf, ec1, s1) ∧ Q s1 ∧
              (L - 1 ≤ leaf.id ∧ leaf.id < 2 * L - 1) ∧
              ec1.weight = ec.weight ∧ (ec1.pred = ec.pred ∨ ∃ x, ec1.pred = .scalar x) := by
          intro c1 n1 hc1 hn1 hf1
          obtain ⟨leaf, ec1, s1, h1, q1, r1, w1, p1⟩ := ih c1 n1 ec2 s2 hc1 hn1 hf1 hq2
          refine ⟨leaf, ec1, s1, h1, q1, r1, w1.trans hw, ?_⟩
          rcases p1 with p1 | p1
          · rw [p1]; exact hp
          · exact Or.inr p1
        rcases hcc with rfl | rfl
        · simp only [gl]
          exact key (2 * k + 1) nl hl hnl hfl
        · simp only [gr]
          exact key (2 * k + 2) nr hr hnr hfr
      rw [predict_loop]
      simp only [e1, hlid, hrid, hid, Bool.false_eq_true, if_false]
      split
      · exact aux _ ec s (Or.inr rfl) hq rfl (Or.inl rfl)
      · split
        · exact aux _ ec s (Or.inl rfl) hq rfl (Or.inl rfl)
        · refine aux _ _ _ ?_ (hQp _ _ k hint hq) rfl (Or.inr ⟨_, rfl⟩)
          split
          · exact Or.inl rfl
          · exact Or.inr rfl

/-- On a built tree with at least one leaf and any counters, `predict` returns within
`depth` passes: the action of a leaf, with the label restored from the saved `cb` member,
the weight as it was, and the prediction slot untouched or holding a scalar of the base
learner; a property `Q` of the state of the base learner that every call at an internal
node keeps is kept. -/
theorem predict_counted {σ F : Type} (ops : float_ops F) (lay : union_layout F)
    (base : single_learner σ F) (L bw : Nat) (hL : 1 ≤ L) (ot : offset_tree F)
    (hc : counted L bw ot._binary_tree.nodes) (hnum : ot._binary_tree._num_leaf_nodes = L)
    (hdepth : ot._binary_tree._depth = depth_after (L - 1)) (Q : σ → Prop)
    (hQp : ∀ s (e : vw_example F) p, p < L - 1 → Q s → Q (base.predict s e p).2)
    (ec : vw_example F) (s : σ) (fuel : Nat) (hf : ot._binary_tree.depth ≤ fuel) (hq : Q s) :
    ∃ (a : Nat) (ec1 : vw_example F) (s1 : σ),
      ot.predict ops lay base fuel ec s
        = .ok (a, { ec1 with l := .cb (ec.l.get_cb lay) }, s1) ∧ Q s1 ∧
      (1 ≤ a ∧ a ≤ L) ∧
      ec1.weight = ec.weight ∧ (ec1.pred = ec.pred ∨ ∃ x, ec1.pred = .scalar x) := by
  have hL0 : L ≠ 0 := by omega
  have h0 : 0 < 2 * L - 1 := by omega
  have hf2 : Nat.log 2 (2 * L - 1) ≤ fuel + Nat.log 2 (0 + 1) := by
    have h1 : depth_after (L - 1) ≤ fuel := hdepth ▸ hf
    have h2 := log_le_depth_after (L - 1)
    have e : 2 * (L - 1) + 1 = 2 * L - 1 := by omega
    rw [e] at h2
    exact le_trans (le_trans h2 h1) (Nat.le_add_right _ _)
  obtain ⟨root, hroot, hn⟩ := counted_get L bw _ hc 0 h0
  obtain ⟨leaf, ec1, s1, h1, q1, r1, w1, p1⟩ :=
    predict_loop_counted ops lay base L bw _ hc Q hQp fuel 0 root
      { ec with l := ec.l.set_simple_label lay ops.flt_max } s h0 hn hf2 hq
  have hnz : ot._binary_tree.leaf_node_count ≠ 0 := by
    show ot._binary_tree._num_leaf_nodes ≠ 0
    rw [hnum]
    exact hL0
  have hw : wrap_sub leaf.id (L - 1) = leaf.id - (L - 1) := by
    unfold wrap_sub
    rw [if_pos r1.1]
  refine ⟨leaf.id - (L - 1) + 1, ec1, s1, ?_, q1, by omega, w1, p1⟩
  unfold offset_tree.predict
  rw [if_neg hnz]
  simp only [hroot, h1, counted_internal_node_count L bw hL _ hc hnum, hw]

/-- Claim C17: on a tree built with `leafCount >= 1` (any bandwidth, any counters left by
calls of `learn`) `internal_node_count() = learner_count() = leafCount - 1` and the node
array has `2 * leafCount - 1` entries.  For every base learner, example and fuel of at
least `depth()` passes `predict` returns a result, so that no index into the node array
was out of range, and every node id it passed to the base learner is below
`learner_count()` and the id of an entry that is not a leaf.  For every label whose first
and last entries have actions in `[1, leafCount]`, with assertions compiled out, the same
holds for `learn`. -/
theorem base_learner_ids_are_internal {σ F : Type} (ops : float_ops F) (lay : union_layout F)
    (rnd : random_source F) (base : single_learner σ F) (leafCount bandwidth : Nat)
    (hL : 1 ≤ leafCount) (t : min_depth_binary_tree)
    (hb : build_tree min_depth_binary_tree.empty leafCount bandwidth = .returned t)
    (ot : offset_tree F) (ht : ot._binary_tree.forget_counts = t) :
    ot.learner_count = ot._binary_tree.internal_node_count ∧
    ot._binary_tree.internal_node_count = leafCount - 1 ∧
    ot._binary_tree.nodes.length = 2 * leafCount - 1 ∧
    (∀ (ec : vw_example F) (s : σ × List (base_call F)) (fuel : Nat),
      ot._binary_tree.depth ≤ fuel →
      ∃ r calls, ot.predict ops lay (logged base) fuel ec s = .ok r ∧
        r.2.2.2 = s.2 ++ calls ∧
        ∀ c ∈ calls, c.node_id < ot.learner_count ∧
          ∃ n, ot._binary_tree.nodes[c.node_id]? = some n ∧ n.is_leaf = false) ∧
    (∀ (st : learn_state (σ × List (base_call F)) F) (first : cb_class F)
        (rest : List (cb_class F)), st.ot = ot →
      (st.ec.l.get_cb lay).costs = first :: rest →
      1 ≤ first.action → first.action ≤ leafCount →
      1 ≤ ((first :: rest).getLast (List.cons_ne_nil _ _)).action →
      ((first :: rest).getLast (List.cons_ne_nil _ _)).action ≤ leafCount →
      ∃ st1 calls, offset_tree.learn ops lay rnd (logged base) true st = .ok st1 ∧
        st1.base.2 = st.base.2 ++ calls ∧
        ∀ c ∈ calls, c.node_id < ot.learner_count ∧
          ∃ n, ot._binary_tree.nodes[c.node_id]? = some n ∧ n.is_leaf = false) := by
  rw [build_tree_eq leafCount bandwidth hL t hb] at ht
  obtain ⟨hc, hnum, hdepth⟩ := forget_counts_built leafCount bandwidth _ ht
  have hinc := counted_internal_node_count leafCount bandwidth hL _ hc hnum
  have hlc : ot.learner_count = leafCount - 1 := hinc
  have hnode : ∀ p, p < leafCount - 1 →
      p < ot.learner_count ∧
        ∃ n, ot._binary_tree.nodes[p]? = some n ∧ n.is_leaf = false := by
    intro p hp
    obtain ⟨n, hn, hf⟩ := counted_get leafCount bandwidth _ hc p (by omega)
    refine ⟨by rw [hlc]; exact hp, n, hn, ?_⟩
    rw [(counted_fields leafCount bandwidth p n hf).2.2.2.2]
    exact decide_eq_false (by omega)
  refine ⟨rfl, hinc, counted_length leafCount bandwidth _ hc, ?_, ?_⟩
  · intro ec s fuel hf
    have hlog := logged_extends base s.2 (fun c => c.node_id < leafCount - 1)
    obtain ⟨a, ec1, s1, h1, ⟨calls, q1, q2⟩, _⟩ :=
      predict_counted ops lay (logged base) leafCount bandwidth hL ot hc hnum hdepth
        (fun s1 => ∃ ext, s1.2 = s.2 ++ ext ∧ ∀ c ∈ ext, c.node_id < leafCount - 1)
        (fun s1 e p hp hq => hlog.2 s1 e p hq hp) ec s fuel hf
        ⟨[], (List.append_nil _).symm, fun _ h => absurd h (List.not_mem_nil _)⟩
    exact ⟨_, calls, h1, q1, fun c hcm => hnode c.node_id (q2 c hcm)⟩
  · intro st first rest hst hl hf1 hf2 hl1 hl2
    subst hst
    have hra := leaf_of_range leafCount _ hf1 hf2
    have hrb := leaf_of_range leafCount _ hl1 hl2
    obtain ⟨st1, calls, h1, q1, q2, _⟩ :=
      learn_logged_counted ops lay rnd base leafCount bandwidth hL
        (fun p => p < leafCount - 1) st hc hnum hdepth first rest hl hf1 hf2 hl1 hl2
        (fun m hm =>
          ⟨ancestor_internal leafCount m _ (two_leaves_of_level leafCount m hm) hra.2,
            ancestor_internal leafCount m _ (two_leaves_of_level leafCount m hm) hrb.2⟩)
    exact ⟨st1, calls, h1, q1, fun c hcm => hnode c.node_id (q2 c hcm)⟩

/-- C17, at a concrete input: the tree of four leaves, whose nodes 0, 1 and 2 are
internal. -/
theorem base_learner_ids_are_internal_witness :
    1 ≤ 4 ∧ build_tree min_depth_binary_tree.empty 4 0 = .returned tree_of_four ∧
    offset_tree_of_four._binary_tree.forget_counts = tree_of_four ∧
    offset_tree_of_four.learner_count = 3 ∧
    (∃ r calls, offset_tree_of_four.predict micro_ops plain_layout (logged parity_learner) 2
        sample_example (0, []) = .ok r ∧
      r.2.2.2 = [] ++ calls ∧
      ∀ c ∈ calls, c.node_id < offset_tree_of_four.learner_count ∧
        ∃ n, offset_tree_of_four._binary_tree.nodes[c.node_id]? = some n ∧ n.is_leaf = false) ∧
    ∃ st1 calls, offset_tree.learn micro_ops plain_layout half_source (logged parity_learner)
        true state_two_actions_logged = .ok st1 ∧
      st1.base.2 = state_two_actions_logged.base.2 ++ calls ∧
      ∀ c ∈ calls, c.node_id < offset_tree_of_four.learner_count ∧
        ∃ n, offset_tree_of_four._binary_tree.nodes[c.node_id]? = some n ∧ n.is_leaf = false :=
  ⟨by decide, by decide, by decide, by decide,
    (base_learner_ids_are_internal micro_ops plain_layout half_source parity_learner 4 0
      (by decide) tree_of_four (by decide) offset_tree_of_four (by decide)).2.2.2.1
      sample_example (0, []) 2 (by decide),
    (base_learner_ids_are_internal micro_ops plain_layout half_source parity_learner 4 0
      (by decide) tree_of_four (by decide) offset_tree_of_four (by decide)).2.2.2.2
      state_two_actions_logged { cost := 1000000, action := 2, probability := 500000 }
      [{ cost := 2000000, action := 3, probability := 500000 }] rfl rfl (by decide) (by decide)
      (by decide) (by decide)⟩

/-! ## `predict` and `get_sibling` on a tree that has been trained -/

/-- Claim C1: on a tree built by `build_tree(leafCount, bandwidth)` with `leafCount ≥ 1`,
whatever counters calls of `learn` have left in it, for every bandwidth, every base
learner (any scalar at any node, any state), every example and every fuel of at least
`depth()` loop passes, `offset_tree::predict` returns, and the action it returns lies in
`[1, leafCount]`. -/
theorem predict_returns_action_in_range {σ F : Type} (ops : float_ops F) (lay : union_layout F)
    (base : single_learner σ F) (leafCount bandwidth : Nat) (hL : 1 ≤ leafCount)
    (t : min_depth_binary_tree)
    (hb : build_tree min_depth_binary_tree.empty leafCount bandwidth = .returned t)
    (ot : offset_tree F) (ht : ot._binary_tree.forget_counts = t)
    (ec : vw_example F) (s : σ) (fuel : Nat) (hf : ot._binary_tree.depth ≤ fuel) :
    ∃ a ec1 s1, ot.predict ops lay base fuel ec s = .ok (a, ec1, s1) ∧ 1 ≤ a ∧ a ≤ leafCount := by
  rw [build_tree_eq leafCount bandwidth hL t hb] at ht
  obtain ⟨hc, hnum, hdepth⟩ := forget_counts_built leafCount bandwidth _ ht
  obtain ⟨a, ec1, s1, h1, _, hr, _⟩ :=
    predict_counted ops lay base leafCount bandwidth hL ot hc hnum hdepth (fun _ => True)
      (fun _ _ _ _ _ => trivial) ec s fuel hf trivial
  exact ⟨_, _, _, h1, hr.1, hr.2⟩

/-- C1, at a concrete input: the tree of four leaves after a call of `learn` has trained
node 1, the parity learner, fuel 2. -/
theorem predict_returns_action_in_range_witness :
    1 ≤ 4 ∧ build_tree min_depth_binary_tree.empty 4 0 = .returned tree_of_four ∧
    sample_state_learned.ot._binary_tree.forget_counts = tree_of_four ∧
    sample_state_learned.ot._binary_tree.nodes.map (fun n => n.learn_count)
      = [0, 1, 0, 0, 0, 0, 0] ∧
    sample_state_learned.ot._binary_tree.depth ≤ 2 ∧
    ∃ a ec1 s1, sample_state_learned.ot.predict micro_ops plain_layout parity_learner 2
        sample_example 0 = .ok (a, ec1, s1) ∧ 1 ≤ a ∧ a ≤ 4 :=
  ⟨by decide, by decide, by decide, by decide, by decide,
    predict_returns_action_in_range micro_ops plain_layout parity_learner 4 0 (by decide)
      tree_of_four (by decide) sample_state_learned.ot (by decide) sample_example 0 2
      (by decide)⟩

/-- C8, amended: on every built tree (any `leafCount`, zero included, any bandwidth, any
counters left by calls of `learn`), for every base learner and every fuel of at least
`depth()` passes, `offset_tree::predict` returns with the example's bandit label and
weight equal to their values before the call: the `cb` member of the label slot reads as
before, a slot that held a `cb` label is equal to what it was, and the weight is
unchanged.  The prediction slot is not restored: it is either untouched or holds a scalar
of the base learner. -/
theorem predict_restores_label_and_weight {σ F : Type} (ops : float_ops F)
    (lay : union_layout F) (base : single_learner σ F) (leafCount bandwidth : Nat)
    (t : min_depth_binary_tree)
    (hb : build_tree min_depth_binary_tree.empty leafCount bandwidth = .returned t)
    (ot : offset_tree F) (ht : ot._binary_tree.forget_counts = t)
    (ec : vw_example F) (s : σ) (fuel : Nat) (hf : ot._binary_tree.depth ≤ fuel) :
    ∃ a ec1 s1, ot.predict ops lay base fuel ec s = .ok (a, ec1, s1) ∧
      ec1.l.get_cb lay = ec.l.get_cb lay ∧ (∀ c, ec.l = .cb c → ec1.l = ec.l) ∧
      ec1.weight = ec.weight ∧ (ec1.pred = ec.pred ∨ ∃ x, ec1.pred = .scalar x) := by
  by_cases hL : 1 ≤ leafCount
  · rw [build_tree_eq leafCount bandwidth hL t hb] at ht
    obtain ⟨hc, hnum, hdepth⟩ := forget_counts_built leafCount bandwidth _ ht
    obtain ⟨a, ec1, s1, h1, _, _, hw, hp⟩ :=
      predict_counted ops lay base leafCount bandwidth hL ot hc hnum hdepth (fun _ => True)
        (fun _ _ _ _ _ => trivial) ec s fuel hf trivial
    refine ⟨_, _, _, h1, rfl, ?_, hw, hp⟩
    intro c hc
    rw [hc]
    rfl
  · have h0 : ot._binary_tree.leaf_node_count = 0 := by
      have h1 := (build_tree_initialized _ _ _ _ hb).2
      have h2 : ot._binary_tree.forget_counts._num_leaf_nodes = t._num_leaf_nodes :=
        congrArg min_depth_binary_tree._num_leaf_nodes ht
      have h3 : ot._binary_tree.forget_counts._num_leaf_nodes
          = ot._binary_tree._num_leaf_nodes := rfl
      show ot._binary_tree._num_leaf_nodes = 0
      omega
    refine ⟨0, ec, s, ?_, rfl, fun _ _ => rfl, rfl, Or.inl rfl⟩
    simp [offset_tree.predict, h0]

/-- C8 amended, at a concrete input: the tree of four leaves after a call of `learn` has
trained node 1, and the example with a scalar in its prediction slot. -/
theorem predict_restores_label_and_weight_witness :
    build_tree min_depth_binary_tree.empty 4 0 = .returned tree_of_four ∧
    sample_state_learned.ot._binary_tree.forget_counts = tree_of_four ∧
    sample_state_learned.ot._binary_tree.depth ≤ 2 ∧
    ∃ a ec1 s1, sample_state_learned.ot.predict micro_ops plain_layout parity_learner 2
        scalar_example 0 = .ok (a, ec1, s1) ∧
      ec1.l.get_cb plain_layout = scalar_example.l.get_cb plain_layout ∧
      (∀ c, scalar_example.l = .cb c → ec1.l = scalar_example.l) ∧
      ec1.weight = scalar_example.weight ∧
      (ec1.pred = scalar_example.pred ∨ ∃ x, ec1.pred = .scalar x) :=
  ⟨by decide, by decide, by decide,
    predict_restores_label_and_weight micro_ops plain_layout parity_learner 4 0
      tree_of_four (by decide) sample_state_learned.ot (by decide) scalar_example 0 2
      (by decide)⟩

/-- On a built tree with any counters, `get_sibling` of the entry at a non-root index `k`
is the entry at `k + 1` for an odd `k` and at `k - 1` for an even one. -/
theorem get_sibling_entry (L bw : Nat) (t : min_depth_binary_tree)
    (h : counted L bw t.nodes) (k : Nat) (h1 : 1 ≤ k) (hk : k < 2 * L - 1) (v : tree_node)
    (hv : v.forget_count = level_order_node L bw (L - 1) k) :
    ∃ w, t.nodes[if k % 2 = 1 then k + 1 else k - 1]? = some w ∧
      w.forget_count = level_order_node L bw (L - 1) (if k % 2 = 1 then k + 1 else k - 1) ∧
      t.get_sibling v = .ok w := by
  obtain ⟨hid, hpar, _, _, _⟩ := counted_fields L bw k v hv
  have hp : parent_of k < L - 1 := by
    unfold parent_of
    omega
  obtain ⟨vp, hvp, hvpf⟩ := counted_get L bw t.nodes h (parent_of k) (by omega)
  obtain ⟨_, _, hl, hr, _⟩ := counted_fields L bw (parent_of k) vp hvpf
  rw [if_pos hp] at hl hr
  have hidx : (if v.id = vp.left_id then vp.right_id else vp.left_id)
      = (if k % 2 = 1 then k + 1 else k - 1) := by
    rw [hl, hr, hid]
    unfold parent_of
    split <;> split <;> omega
  have hs : (if k % 2 = 1 then k + 1 else k - 1) < 2 * L - 1 := by
    split <;> omega
  obtain ⟨w, hw, hwf⟩ := counted_get L bw t.nodes h _ hs
  refine ⟨w, hw, hwf, ?_⟩
  unfold min_depth_binary_tree.get_sibling
  rw [hpar, hvp]
  simp only [hidx, hw]

/-- Claim C5: in a tree built with `leafCount ≥ 2`, whatever counters calls of `learn`
have left in it, every non-root node `v` (the entry at an index `i ≥ 1`) has a sibling
`w = get_sibling(v)` in the tree with `get_sibling(w) = v`, `w ≠ v` and
`w.parent_id = v.parent_id`. -/
theorem get_sibling_involution (leafCount bandwidth : Nat) (hL : 2 ≤ leafCount)
    (t : min_depth_binary_tree)
    (hb : build_tree min_depth_binary_tree.empty leafCount bandwidth = .returned t)
    (tc : min_depth_binary_tree) (ht : tc.forget_counts = t)
    (i : Nat) (v : tree_node) (hi : 1 ≤ i) (hv : tc.nodes[i]? = some v) :
    ∃ w, tc.get_sibling v = .ok w ∧ tc.get_sibling w = .ok v ∧ w ≠ v ∧
      w.parent_id = v.parent_id ∧ w ∈ tc.nodes := by
  rw [build_tree_eq leafCount bandwidth (by omega) t hb] at ht
  obtain ⟨hc, _, _⟩ := forget_counts_built leafCount bandwidth _ ht
  have hlt : i < 2 * leafCount - 1 := by
    by_contra h
    rw [List.getElem?_eq_none (by rw [counted_length leafCount bandwidth _ hc]; omega)] at hv
    cases hv
  obtain ⟨v1, hv1, hvf⟩ := counted_get leafCount bandwidth _ hc i hlt
  rw [hv] at hv1
  injection hv1 with hv1
  subst hv1
  obtain ⟨w, hw, hwf, hgw⟩ := get_sibling_entry leafCount bandwidth tc hc i hi hlt v hvf
  have hs1 : 1 ≤ (if i % 2 = 1 then i + 1 else i - 1) := by
    split <;> omega
  have hs2 : (if i % 2 = 1 then i + 1 else i - 1) < 2 * leafCount - 1 := by
    split <;> omega
  obtain ⟨v2, hv2, _, hgv⟩ := get_sibling_entry leafCount bandwidth tc hc _ hs1 hs2 w hwf
  have hback : (if (if i % 2 = 1 then i + 1 else i - 1) % 2 = 1
      then (if i % 2 = 1 then i + 1 else i - 1) + 1
      else (if i % 2 = 1 then i + 1 else i - 1) - 1) = i := by
    split <;> split <;> omega
  rw [hback, hv] at hv2
  injection hv2 with hv2
  subst hv2
  have hwid := (counted_fields leafCount bandwidth _ w hwf).1
  have hvid := (counted_fields leafCount bandwidth i v hvf).1
  have hwp := (counted_fields leafCount bandwidth _ w hwf).2.1
  have hvp := (counted_fields leafCount bandwidth i v hvf).2.1
  refine ⟨w, hgw, hgv, ?_, ?_, List.getElem?_mem hw⟩
  · intro hwv
    rw [hwv, hvid] at hwid
    split at hwid <;> omega
  · rw [hwp, hvp]
    unfold parent_of
    split <;> omega

/-- C5, at a concrete input: node 1 of the tree of four leaves after a call of `learn`
has trained it once; its sibling is node 2. -/
theorem get_sibling_involution_witness :
    2 ≤ 4 ∧ build_tree min_depth_binary_tree.empty 4 0 = .returned tree_of_four ∧
    sample_state_learned.ot._binary_tree.forget_counts = tree_of_four ∧ 1 ≤ 1 ∧
    sample_state_learned.ot._binary_tree.nodes[1]?
      = some { tree_node.make 1 3 4 0 1 false false false with learn_count := 1 } ∧
    ∃ w, sample_state_learned.ot._binary_tree.get_sibling
        { tree_node.make 1 3 4 0 1 false false false with learn_count := 1 } = .ok w ∧
      sample_state_learned.ot._binary_tree.get_sibling w
        = .ok { tree_node.make 1 3 4 0 1 false false false with learn_count := 1 } ∧
      w ≠ { tree_node.make 1 3 4 0 1 false false false with learn_count := 1 } ∧
      w.parent_id
        = ({ tree_node.make 1 3 4 0 1 false false false with learn_count := 1 }).parent_id ∧
      w ∈ sample_state_learned.ot._binary_tree.nodes :=
  ⟨by decide, by decide, by decide, by decide, by decide,
    get_sibling_involution 4 0 (by decide) tree_of_four (by decide)
      sample_state_learned.ot._binary_tree (by decide) 1
      { tree_node.make 1 3 4 0 1 false false false with learn_count := 1 } (by decide)
      (by decide)⟩

end offset_tree_cont
end VW
